import Mathlib

/-!
# ESC/POS intermediate representation: Builder and Converter

A shallow embedding of `pkg/escpos` (`commands.go`, `converter.go`, `builder.go`).

* A Go `string` holding valid UTF-8 is a `List Char`; `len` is the UTF-8 byte length.
* An output byte is a `Nat`; the byte sink is the list of bytes written so far.  The
  code discards the result of every `out.Write`, so a write is an append to that list.
* The reader is the whole document; `ReadString` never fails except with `io.EOF`.
* The `debug` flag is `false` and its print statements are left out.
* A method of the builder is the text it writes to its sink; the builder discards the
  result of every write, so a sequence of calls writes the texts one after the other.
* A `uint8` or `uint` argument is a `Nat`, bounded by `Op.wellTyped` where it matters.
-/

namespace Escpos

/-- A Go string (valid UTF-8), as its sequence of characters. -/
abbrev Str := List Char

/-! ## Go standard library functions used by the package -/

/-- Go `len(s)`: the number of bytes of the UTF-8 encoding of `s`. -/
def len (s : Str) : Nat := (s.map Char.utf8Size).sum

/-- Go `unicode.IsSpace`: the Latin-1 spaces `\t \n \v \f \r`, space, U+0085, U+00A0, and
the other code points with the White_Space property. -/
def isSpace (c : Char) : Bool :=
  let r := c.toNat
  (0x09 ≤ r && r ≤ 0x0D) || r == 0x20 || r == 0x85 || r == 0xA0 || r == 0x1680 ||
  (0x2000 ≤ r && r ≤ 0x200A) || r == 0x2028 || r == 0x2029 || r == 0x202F ||
  r == 0x205F || r == 0x3000

/-- Go `strings.TrimSpace`: drop the leading and the trailing white space. -/
def TrimSpace (s : Str) : Str := ((s.dropWhile isSpace).reverse.dropWhile isSpace).reverse

/-- Go `strings.HasPrefix`. -/
def HasPrefix (s pre : Str) : Bool := s.take pre.length == pre

/-- Go `strings.HasSuffix`. -/
def HasSuffix (s suf : Str) : Bool := s.drop (s.length - suf.length) == suf

/-- Go `strings.TrimPrefix`: `s` without the leading `pre`, or `s` itself. -/
def TrimPrefix (s pre : Str) : Str := if HasPrefix s pre then s.drop pre.length else s

/-- Go `strings.TrimSuffix`: `s` without the trailing `suf`, or `s` itself. -/
def TrimSuffix (s suf : Str) : Str :=
  if HasSuffix s suf then s.take (s.length - suf.length) else s

/-- Go `strings.Split(s, sep)` for a one-character separator: the pieces between the
occurrences of `sep`; there is always at least one piece. -/
def Split : Str → Char → List Str
  | [], _ => [[]]
  | c :: cs, sep =>
    if c = sep then [] :: Split cs sep
    else
      match Split cs sep with
      | [] => [[c]]
      | w :: ws => (c :: w) :: ws

/-- Errors of `strconv.ParseUint`. -/
inductive NumError where
  | errSyntax
  | errRange
  | errBase
  | errBitSize
  deriving DecidableEq, Repr

/-- The largest `uint64`. -/
def maxUint64 : Nat := 18446744073709551615

/-- Go `strconv.lower`: `c | ('x' - 'X')` on the code of `c`. -/
def lower (c : Char) : Nat := c.toNat ||| 0x20

/-- The digit value `ParseUint` gives to a character: `0-9`, then letters of either case
from 10 on; `none` is the `default:` case (a syntax error).  A character outside ASCII
has only bytes of 0x80 and above, which fall in the `default:` case too. -/
def digitVal (c : Char) : Option Nat :=
  if 48 ≤ c.toNat ∧ c.toNat ≤ 57 then some (c.toNat - 48)
  else if 97 ≤ lower c ∧ lower c ≤ 122 then some (lower c - 97 + 10)
  else none

/-- The digit loop of `ParseUint`: `n` is the value so far and `us` records whether an
underscore was seen. -/
def parseLoop (base0 : Bool) (base cutoff maxVal : Nat) :
    List Char → Nat → Bool → Except NumError (Nat × Bool)
  | [], n, us => .ok (n, us)
  | c :: cs, n, us =>
    if c = '_' ∧ base0 = true then parseLoop base0 base cutoff maxVal cs n true
    else
      match digitVal c with
      | none => .error .errSyntax
      | some d =>
        if d ≥ base then .error .errSyntax
        else if n ≥ cutoff then .error .errRange
        else
          let m := (n * base) % (maxUint64 + 1)
          let n1 := (m + d) % (maxUint64 + 1)
          if n1 < m ∨ n1 > maxVal then .error .errRange
          else parseLoop base0 base cutoff maxVal cs n1 us

/-- The state `saw` of `strconv.underscoreOK`. -/
inductive Saw where
  | start
  | digit
  | underscore
  | other
  deriving DecidableEq, Repr

/-- The scan of `underscoreOK` over the number proper. -/
def underscoreScan (hex : Bool) : List Char → Saw → Bool
  | [], saw => saw ≠ .underscore
  | c :: cs, saw =>
    if (48 ≤ c.toNat ∧ c.toNat ≤ 57) ∨ (hex = true ∧ 97 ≤ lower c ∧ lower c ≤ 102) then
      underscoreScan hex cs .digit
    else if c = '_' then
      if saw ≠ .digit then false else underscoreScan hex cs .underscore
    else if saw = .underscore then false
    else underscoreScan hex cs .other

/-- Go `strconv.underscoreOK`: underscores only between digits or after the base prefix. -/
def underscoreOK (s : Str) : Bool :=
  let s := match s with
    | c :: cs => if c = '-' ∨ c = '+' then cs else s
    | [] => s
  match s with
  | c0 :: c1 :: rest =>
    if c0 = '0' ∧ (lower c1 = 98 ∨ lower c1 = 111 ∨ lower c1 = 120) then
      underscoreScan (lower c1 = 120) rest .digit
    else underscoreScan false s .start
  | _ => underscoreScan false s .start

/-- The `switch` of `ParseUint` for `base == 0` on a non-empty `s`: the base implied by
the prefix of `s` and the digits left after the prefix. -/
def basePrefix (s : Str) : Nat × Str :=
  match s with
  | c0 :: c1 :: rest =>
    if c0 = '0' then
      if s.length ≥ 3 ∧ lower c1 = 98 then (2, rest)
      else if s.length ≥ 3 ∧ lower c1 = 111 then (8, rest)
      else if s.length ≥ 3 ∧ lower c1 = 120 then (16, rest)
      else (8, c1 :: rest)
    else (10, s)
  | [c0] => if c0 = '0' then (8, []) else (10, s)
  | [] => (10, s)

/-- Go `strconv.ParseUint(s, base, bitSize)`. -/
def ParseUint (s : Str) (base bitSize : Nat) : Except NumError Nat :=
  if s = [] then .error .errSyntax
  else
    let base0 : Bool := base = 0
    let pre : Option (Nat × Str) :=
      if 2 ≤ base ∧ base ≤ 36 then some (base, s)
      else if base = 0 then some (basePrefix s)
      else none
    match pre with
    | none => .error .errBase
    | some (b, digits) =>
      if bitSize > 64 then .error .errBitSize
      else
        let bits := if bitSize = 0 then 64 else bitSize
        let cutoff := maxUint64 / b + 1
        let maxVal := 2 ^ bits - 1
        match parseLoop base0 b cutoff maxVal digits 0 false with
        | .error e => .error e
        | .ok (n, us) =>
          if us = true ∧ underscoreOK s = false then .error .errSyntax else .ok n

/-! ## `commands.go` -/

/-- The map literal `commands`, in source order. -/
def commandTable : List (Str × Nat) :=
  [(['E', 'O', 'T'], 0x04), (['E', 'N', 'Q'], 0x05), (['H', 'T'], 0x09),
   (['D', 'L', 'E'], 0x10), (['L', 'F'], 0x0a), (['F', 'F'], 0x0C), (['C', 'R'], 0x0D),
   (['D', 'C', '4'], 0x14), (['C', 'A', 'N'], 0x18), (['E', 'S', 'C'], 0x1B),
   (['F', 'S'], 0x1C), (['G', 'S'], 0x1D), (['S', 'P'], 0x20)]

/-- Lookup of a key in an association list with distinct keys. -/
def lookupKey (p : Str) : List (Str × Nat) → Option Nat
  | [] => none
  | (k, v) :: rest => if p = k then some v else lookupKey p rest

/-- The map access `commands[p]`: `some code` when `ok`, `none` otherwise. -/
def commands (p : Str) : Option Nat := lookupKey p commandTable

/-! ## `converter.go` -/

/-- Modelled from the spec: `StringToAsciiBytes` is called by `Convert` but is not among
the sources.  Section 4.3 says that transliteration maps each input character to exactly
one output byte; the character map `enc` itself is a parameter. -/
def StringToAsciiBytes (enc : Char → Nat) (s : Str) : List Nat := s.map enc

/-- The error `Convert` returns: `failed to parse number p: err`. -/
inductive ConvError where
  | parseNumber (p : Str) (err : NumError)
  deriving DecidableEq, Repr

/-- The state of the loop over the parts of one line: the `inQuote` flag and the sink. -/
structure LineState where
  inQuote : Bool
  out : List Nat
  deriving DecidableEq, Repr

/-- The double-quote string `"\""`. -/
def quote : Str := ['"']

/-- One iteration of `for _, p := range parts`: the state after it, and the error when
the iteration returns one. -/
def convertPart (enc : Char → Nat) (st : LineState) (p : Str) : LineState × Option ConvError :=
  if len p = 1 ∧ p = quote then
    ({ st with inQuote := true }, none)
  else
    let st := if st.inQuote = true ∧ (p = [' '] ∨ p = []) then { st with out := st.out ++ [0x20] } else st
    if p = [] ∨ p = [' '] then (st, none)
    else if st.inQuote = true ∧ HasSuffix p quote = false then
      ({ st with out := st.out ++ StringToAsciiBytes enc p ++ [0x20] }, none)
    else
      match commands p with
      | some code => ({ st with out := st.out ++ [code] }, none)
      | none =>
        if HasPrefix p quote = true ∧ HasSuffix p quote = true then
          let code := TrimSuffix (TrimPrefix p quote) quote
          ({ st with out := st.out ++ StringToAsciiBytes enc code }, none)
        else if HasPrefix p quote = true then
          ({ inQuote := true, out := st.out ++ StringToAsciiBytes enc (TrimPrefix p quote) }, none)
        else if HasSuffix p quote = true then
          ({ inQuote := false, out := st.out ++ StringToAsciiBytes enc (TrimSuffix p quote) }, none)
        else
          match ParseUint p 0 8 with
          | .error e => (st, some (.parseNumber p e))
          | .ok code => ({ st with out := st.out ++ [code % 256] }, none)

/-- The loop `for _, p := range parts`, stopping at the first error. -/
def convertParts (enc : Char → Nat) : LineState → List Str → LineState × Option ConvError
  | st, [] => (st, none)
  | st, p :: ps =>
    match convertPart enc st p with
    | (st1, some e) => (st1, some e)
    | (st1, none) => convertParts enc st1 ps

/-- The comment marker. -/
def commentMarker : Str := [Char.ofNat 39, '/', '/']

/-- The body of the outer loop for one record `line` returned by `ReadString`: the sink
afterwards, and the error when `Convert` returns one. -/
def convertLine (enc : Char → Nat) (out : List Nat) (line : Str) : List Nat × Option ConvError :=
  let line := TrimSpace line
  if len line ≤ 1 ∨ HasPrefix line commentMarker = true then (out, none)
  else
    let parts := Split line ' '
    let r := convertParts enc { inQuote := false, out := out } parts
    (r.1.out, r.2)

/-- The successive results of `in.ReadString('\n')` on the rest of the reader, with
`cur` the bytes of the current record read so far.  Each record ends with the newline.
At the end of input `ReadString` returns the unfinished record with `io.EOF`, on which
`Convert` returns `nil` without looking at it. -/
def readRecords (cur : Str) : Str → List Str
  | [] => []
  | c :: cs => if c = '\n' then (cur ++ [c]) :: readRecords [] cs else readRecords (cur ++ [c]) cs

/-- The outer `for` loop over the records, stopping at the first error. -/
def convertRecords (enc : Char → Nat) : List Nat → List Str → List Nat × Option ConvError
  | out, [] => (out, none)
  | out, line :: rest =>
    match convertLine enc out line with
    | (out1, some e) => (out1, some e)
    | (out1, none) => convertRecords enc out1 rest

/-- The function `Convert(reader, out)` on a sink that holds `sink` already: the sink
afterwards and the returned error (`none` is `nil`). -/
def ConvertFrom (enc : Char → Nat) (sink : List Nat) (doc : Str) : List Nat × Option ConvError :=
  convertRecords enc sink (readRecords [] doc)

/-- The function `Convert(reader, out)` with a fresh sink. -/
def Convert (enc : Char → Nat) (doc : Str) : List Nat × Option ConvError :=
  ConvertFrom enc [] doc

/-! ## `builder.go` -/

/-- The inner loop of `Print` over the tab-separated pieces, from index `i`; `out` is the
text written so far. -/
def printTabs : Nat → List Str → Str → Str
  | _, [], out => out
  | i, t :: ts, out =>
    let out := if i > 0 then out ++ [' ', 'H', 'T', ' '] else out
    let out := if len t > 0 then out ++ quote ++ t ++ quote else out
    printTabs (i + 1) ts out

/-- The outer loop of `Print` over the newline-separated pieces, from index `i`. -/
def printLines : Nat → List Str → Str → Str
  | _, [], out => out
  | i, l :: ls, out =>
    let out := if i > 0 then out ++ [' ', 'L', 'F', '\n'] else out
    let out := out ++ [' ', ' ', ' ', ' ']
    let out := printTabs 0 (Split l '\t') out
    printLines (i + 1) ls out

/-- The method `builder.Print(line)` on a text sink holding `out`: the sink afterwards. -/
def PrintTo (out : Str) (line : Str) : Str :=
  printLines 0 (Split line '\n') out ++ ['\n']

/-- The text `builder.Print(line)` writes to a fresh sink. -/
def Print (line : Str) : Str := PrintTo [] line

/-- Go `fmt` verb `%d` on an unsigned integer: the decimal numeral of `v`. -/
def decimalNumeral (v : Nat) : Str := Nat.toDigits 10 v

/-- Go `fmt.Fprintln(b.out, s)`: the text written, `s` and a newline. -/
def Fprintln (s : Str) : Str := s ++ ['\n']

/-- Go `unicode.ToLower` as far as a comparison with an ASCII word can tell: `A-Z` go to
`a-z`, U+0130 goes to `i` and U+212A to `k`; every other character outside ASCII has a
lower case outside ASCII and stands for itself here. -/
def toLowerRune (c : Char) : Char :=
  if c = Char.ofNat 0x130 then 'i'
  else if c = Char.ofNat 0x212A then 'k'
  else c.toLower

/-- Go `strings.ToLower`. -/
def ToLower (s : Str) : Str := s.map toLowerRune

/-- The text `builder.InitializePrinter()` writes. -/
def InitializePrinter : Str :=
  Fprintln "'// Initialize printer".toList ++ Fprintln "    ESC \"@\"".toList

/-- The text `builder.CharacterFont(n)` writes, `n` a `uint8`. -/
def CharacterFont (n : Nat) : Str :=
  (if n = 0 ∨ n = 48 then Fprintln "'// Select Font A".toList
   else if n = 1 ∨ n = 49 then Fprintln "'// Select Font B".toList
   else if n = 2 ∨ n = 50 then Fprintln "'// Select Font C".toList
   else if n = 3 ∨ n = 51 then Fprintln "'// Select Font D".toList
   else if n = 4 ∨ n = 52 then Fprintln "'// Select Font D".toList
   else if n = 97 then Fprintln "'// Select Special Font A".toList
   else if n = 98 then Fprintln "'// Select Special Font B".toList
   else Fprintln "'// WARNING: Select Unknown Font".toList) ++
  ("    ESC \"M\" ".toList ++ decimalNumeral n ++ ['\n'])

/-- The text `builder.Strong(enabled)` writes. -/
def Strong (enabled : Bool) : Str :=
  if enabled then
    Fprintln "'// Emphasized mode on".toList ++ Fprintln "    ESC \"E\" 1".toList
  else
    Fprintln "'// Emphasized mode off".toList ++ Fprintln "    ESC \"E\" 0".toList

/-- The text `builder.Justification(justification)` writes. -/
def Justification (justification : Str) : Str :=
  let m := ToLower justification
  if m = "left".toList then
    Fprintln "'// Left justification".toList ++ Fprintln "    ESC \"a\" 0".toList
  else if m = "center".toList ∨ m = "centered".toList then
    Fprintln "'// Centered justification".toList ++ Fprintln "    ESC \"a\" 1".toList
  else if m = "right".toList then
    Fprintln "'// Right justification".toList ++ Fprintln "    ESC \"a\" 2".toList
  else
    "'// ERROR: unknown justification: ".toList ++ justification ++ ['\n']

/-- The text `builder.Home(print)` writes. -/
def Home (print : Bool) : Str :=
  if print then
    Fprintln "'// Home, print first".toList ++ Fprintln "    GS \"T\" 1".toList
  else
    Fprintln "'// Home, reset print buffer".toList ++ Fprintln "    GS \"T\" 0".toList

/-- The text `builder.Cut(n, full)` writes, `n` a `uint`. -/
def Cut (n : Nat) (full : Bool) : Str :=
  if n = 0 then
    if full then
      Fprintln "'// Cut Paper (full cut)".toList ++ Fprintln "    GS \"V\" 0".toList
    else
      Fprintln "'// Cut Paper (partial cut)".toList ++ Fprintln "    GS \"V\" 1".toList
  else
    if full then
      Fprintln "'// Feed and Cut Paper (full cut)".toList ++
        ("    GS \"V\" 65 ".toList ++ decimalNumeral n ++ ['\n'])
    else
      Fprintln "'// Feed and Cut Paper (partial cut)".toList ++
        ("    GS \"V\" 66 ".toList ++ decimalNumeral n ++ ['\n'])

/-- The text `builder.CharacterSize(width, height)` writes, both `uint8`; the sums
`width+1` and `height+1` are `uint8` sums. -/
def CharacterSize (width height : Nat) : Str :=
  let width := if width > 7 then 7 else width
  let height := if height > 7 then 7 else height
  ("'// Character magnification Wx".toList ++ decimalNumeral ((width + 1) % 256) ++
    " Hx".toList ++ decimalNumeral ((height + 1) % 256) ++ ['\n']) ++
  ("    GS \"!\" 0x".toList ++ decimalNumeral width ++ decimalNumeral height ++ ['\n'])

/-- The text `builder.DefaultLineSpacing()` writes. -/
def DefaultLineSpacing : Str :=
  Fprintln "'// Default Line Spacing".toList ++ Fprintln "    ESC 2".toList

/-- The text `builder.LineSpacing(n)` writes, `n` a `uint8`. -/
def LineSpacing (n : Nat) : Str :=
  Fprintln "'// Set Line Spacing".toList ++ ("    ESC 3 ".toList ++ decimalNumeral n ++ ['\n'])

/-- The text `builder.PrintFeed(n)` writes, `n` a `uint8`. -/
def PrintFeed (n : Nat) : Str :=
  let n := if n > 255 then 255 else n
  Fprintln "'// Print and feed".toList ++ ("    ESC \"J\" ".toList ++ decimalNumeral n ++ ['\n'])

/-- The text `builder.PrintFeedLines(n)` writes, `n` a `uint8`. -/
def PrintFeedLines (n : Nat) : Str :=
  let n := if n > 255 then 255 else n
  Fprintln "'// Print and feed lines".toList ++
    ("    ESC \"d\" ".toList ++ decimalNumeral n ++ ['\n'])

/-- A call of a method of the `ESCPOS` interface, with its arguments. -/
inductive Op where
  | initializePrinter
  | characterFont (n : Nat)
  | justification (mode : Str)
  | home (print : Bool)
  | cut (n : Nat) (full : Bool)
  | strong (enabled : Bool)
  | characterSize (width height : Nat)
  | defaultLineSpacing
  | lineSpacing (n : Nat)
  | print (line : Str)
  | printFeed (n : Nat)
  | printFeedLines (n : Nat)

/-- The arguments of the call are values of their declared types: a `uint8` is below 256
and a `uint` below `2 ^ 64`. -/
def Op.wellTyped : Op → Prop
  | .characterFont n => n < 256
  | .cut n _ => n ≤ maxUint64
  | .characterSize w h => w < 256 ∧ h < 256
  | .lineSpacing n => n < 256
  | .printFeed n => n < 256
  | .printFeedLines n => n < 256
  | _ => True

/-- The text the call writes to the sink of the builder. -/
def Op.run : Op → Str
  | .initializePrinter => InitializePrinter
  | .characterFont n => CharacterFont n
  | .justification mode => Justification mode
  | .home doPrint => Home doPrint
  | .cut n full => Cut n full
  | .strong enabled => Strong enabled
  | .characterSize w h => CharacterSize w h
  | .defaultLineSpacing => DefaultLineSpacing
  | .lineSpacing n => LineSpacing n
  | .print line => Print line
  | .printFeed n => PrintFeed n
  | .printFeedLines n => PrintFeedLines n

/-- The text a sequence of calls on one builder writes to its sink, from `out`. -/
def runOps : Str → List Op → Str
  | out, [] => out
  | out, op :: ops => runOps (out ++ op.run) ops

/-! ## Proof devices -/

/-- The pieces `ts` joined with `sep` between consecutive pieces. -/
def joinWith {α : Type} (sep : α) : List (List α) → List α
  | [] => []
  | [p] => p
  | p :: q :: ts => p ++ sep :: joinWith sep (q :: ts)

/-- The pieces `ts` joined with the text `sep` between consecutive pieces. -/
def joinStr {α : Type} (sep : List α) : List (List α) → List α
  | [] => []
  | [p] => p
  | p :: q :: ts => p ++ sep ++ joinStr sep (q :: ts)

/-- A document that is empty or ends with a newline: it has no unfinished last record. -/
def Terminated (d : Str) : Prop := d = [] ∨ ∃ q, d = q ++ ['\n']

/-- The text `Print` writes for one tab-separated piece: the quoted piece, or nothing
for an empty piece. -/
def quoted (t : Str) : Str := if len t > 0 then quote ++ t ++ quote else []

/-- The parts of the line `Print` writes for tab-separated pieces, each with the bytes
it stands for: the quoted pieces with `HT` between them. -/
def tabParts (enc : Char → Nat) : List Str → List (Str × List Nat)
  | [] => []
  | [s] => [(quoted s, StringToAsciiBytes enc s)]
  | s :: s2 :: rest =>
    (quoted s, StringToAsciiBytes enc s) :: (['H', 'T'], [0x09]) :: tabParts enc (s2 :: rest)

/-- The text `Print` writes for one newline-separated piece, after the indentation. -/
def lineText (l : Str) : Str := printTabs 0 (Split l '\t') []

/-- The document `Print` writes for the newline-separated pieces `l :: ls`. -/
def docOf : Str → List Str → Str
  | l, [] => [' ', ' ', ' ', ' '] ++ lineText l ++ ['\n']
  | l, l2 :: ls => [' ', ' ', ' ', ' '] ++ lineText l ++ [' ', 'L', 'F', '\n'] ++ docOf l2 ls

/-- The bytes of one newline-separated piece: its transliterated tab-separated pieces
with HT between them. -/
def lineBytes (enc : Char → Nat) (l : Str) : List Nat :=
  joinWith 0x09 ((Split l '\t').map (StringToAsciiBytes enc))

/-- The number that the digits `ds` denote in base `b`, continuing from the value `n`. -/
def digitsValue (b : Nat) (ds : List Char) (n : Nat) : Nat :=
  ds.foldl (fun n c => n * b + (digitVal c).getD 0) n

/-- The hexadecimal numeral of `v` with the digits `0-9a-f`, as `%x` prints it. -/
def hexNumeral (v : Nat) : Str := Nat.toDigits 16 v

/-- The hexadecimal numeral of `v` with the digits `0-9A-F`, as `%X` prints it. -/
def hexNumeralUpper (v : Nat) : Str := (Nat.toDigits 16 v).map Char.toUpper

/-- A check that the part `p` is a number literal that `Convert`, outside a quote,
resolves to the byte `v`: no space or newline, not a mnemonic, no quote at either end,
no white space at either end, and `ParseUint` gives `v`. -/
def numTokOK (p : Str) (v : Nat) : Bool :=
  !(p.elem ' ') && !(p.elem '\n') && (p != []) && (commands p).isNone &&
  !(HasPrefix p quote) && !(HasSuffix p quote) &&
  !(p.head?.any isSpace) && !(p.getLast?.any isSpace) &&
  (match ParseUint p 0 8 with
    | .ok n => n == v
    | .error _ => false)

/-- A decimal digit `0-9`. -/
def isDecDigit (c : Char) : Prop := 48 ≤ c.toNat ∧ c.toNat ≤ 57

/-- An octal digit `0-7`. -/
def isOctDigit (c : Char) : Prop := 48 ≤ c.toNat ∧ c.toNat ≤ 55

/-- A hexadecimal digit `0-9`, `a-f` or `A-F`. -/
def isHexDigit (c : Char) : Prop :=
  (48 ≤ c.toNat ∧ c.toNat ≤ 57) ∨ (97 ≤ c.toNat ∧ c.toNat ≤ 102) ∨ (65 ≤ c.toNat ∧ c.toNat ≤ 70)

/-- An ASCII letter or digit. -/
def isAlnum (c : Char) : Prop :=
  (48 ≤ c.toNat ∧ c.toNat ≤ 57) ∨ (97 ≤ c.toNat ∧ c.toNat ≤ 122) ∨ (65 ≤ c.toNat ∧ c.toNat ≤ 90)

instance (c : Char) : Decidable (isDecDigit c) := by unfold isDecDigit; infer_instance

instance (c : Char) : Decidable (isOctDigit c) := by unfold isOctDigit; infer_instance

instance (c : Char) : Decidable (isHexDigit c) := by unfold isHexDigit; infer_instance

instance (c : Char) : Decidable (isAlnum c) := by unfold isAlnum; infer_instance

/-- A part `p` that, met outside a quote, writes the bytes `v`, leaves the quote closed
and returns no error; it holds no space and does not begin or end with white space. -/
def PlainTok (enc : Char → Nat) (p : Str) (v : List Nat) : Prop :=
  ' ' ∉ p ∧ (∀ out, convertPart enc ⟨false, out⟩ p = (⟨false, out ++ v⟩, none)) ∧
  (∀ c, p.head? = some c → isSpace c = false) ∧
  (∀ c, p.getLast? = some c → isSpace c = false)

/-- The parts `ts` are converted without error from every state of the line loop. -/
def NoErr (enc : Char → Nat) (ts : List Str) : Prop :=
  ∀ st : LineState, (convertParts enc st ts).2 = none

/-- A piece of a line that may hold spaces: its parts are converted without error from
every state; when it is not empty it has two characters or more and begins and ends with
a character that is no white space, the first no apostrophe. -/
def SafePiece (enc : Char → Nat) (p : Str) : Prop :=
  NoErr enc (Split p ' ') ∧
  (∀ c, p.head? = some c → isSpace c = false ∧ c ≠ Char.ofNat 39) ∧
  (∀ c, p.getLast? = some c → isSpace c = false) ∧
  (p ≠ [] → 2 ≤ p.length)

/-- The restriction under which the text a call writes is converted without error: a
`Cut` count of at most 255, a `Justification` mode without newline, a `Print` text
without double quote. -/
def Op.convertible : Op → Prop
  | .cut n _ => n ≤ 255
  | .justification mode => '\n' ∉ mode
  | .print line => '"' ∉ line
  | _ => True

instance (op : Op) : Decidable op.wellTyped := by
  cases op <;> unfold Op.wellTyped <;> infer_instance

instance (op : Op) : Decidable op.convertible := by
  cases op <;> unfold Op.convertible <;> infer_instance

/-- A sample character map for the worked instances: the code point modulo 256. -/
def sampleEnc (c : Char) : Nat := c.toNat % 256

/-! ## Splitting and reading records -/

theorem Split_ne_nil (s : Str) (sep : Char) : Split s sep ≠ [] := by
  induction s with
  | nil => simp [Split]
  | cons c cs ih =>
    simp only [Split]
    split
    · simp
    · split <;> simp

theorem Split_of_not_mem (s : Str) (sep : Char) (h : sep ∉ s) : Split s sep = [s] := by
  induction s with
  | nil => rfl
  | cons c cs ih =>
    simp only [List.mem_cons, not_or] at h
    have hc : c ≠ sep := fun e => h.1 e.symm
    simp [Split, hc, ih h.2]

theorem Split_append_sep (a b : Str) (sep : Char) :
    Split (a ++ sep :: b) sep = Split a sep ++ Split b sep := by
  induction a with
  | nil => simp [Split]
  | cons c cs ih =>
    by_cases hc : c = sep
    · simp [Split, hc, ih]
    · rw [List.cons_append]
      simp only [Split, hc, if_false]
      rw [ih]
      cases h : Split cs sep with
      | nil => exact absurd h (Split_ne_nil _ _)
      | cons w ws => rfl

theorem Split_joinWith (sep : Char) (ts : List Str) (hne : ts ≠ [])
    (h : ∀ p ∈ ts, sep ∉ p) : Split (joinWith sep ts) sep = ts := by
  induction ts with
  | nil => exact absurd rfl hne
  | cons p ts ih =>
    cases ts with
    | nil => exact Split_of_not_mem _ _ (h p (by simp))
    | cons q ts =>
      simp only [joinWith]
      rw [Split_append_sep, Split_of_not_mem _ _ (h p (by simp)),
        ih (by simp) (fun x hx => h x (List.mem_cons_of_mem _ hx))]
      rfl

theorem readRecords_append_nl (cur a b : Str) :
    readRecords cur (a ++ '\n' :: b) = readRecords cur (a ++ ['\n']) ++ readRecords [] b := by
  induction a generalizing cur with
  | nil => simp [readRecords]
  | cons c cs ih =>
    by_cases hc : c = '\n'
    · simp [readRecords, hc, ih]
    · simp [readRecords, hc, ih]

theorem readRecords_no_nl (cur a : Str) (h : '\n' ∉ a) : readRecords cur a = [] := by
  induction a generalizing cur with
  | nil => rfl
  | cons c cs ih =>
    simp only [List.mem_cons, not_or] at h
    have hc : c ≠ '\n' := fun e => h.1 e.symm
    simp [readRecords, hc, ih _ h.2]

theorem readRecords_line (cur a : Str) (h : '\n' ∉ a) :
    readRecords cur (a ++ ['\n']) = [cur ++ a ++ ['\n']] := by
  induction a generalizing cur with
  | nil => simp [readRecords]
  | cons c cs ih =>
    simp only [List.mem_cons, not_or] at h
    have hc : c ≠ '\n' := fun e => h.1 e.symm
    simp [readRecords, hc, ih _ h.2]

theorem readRecords_append (d1 d2 : Str) (h : Terminated d1) :
    readRecords [] (d1 ++ d2) = readRecords [] d1 ++ readRecords [] d2 := by
  rcases h with rfl | ⟨q, rfl⟩
  · simp [readRecords]
  · rw [List.append_assoc]
    exact readRecords_append_nl [] q d2

/-- A first record comes from a first newline-terminated line of the document. -/
theorem readRecords_cons (cur doc r : Str) (rs : List Str) (h : readRecords cur doc = r :: rs) :
    ∃ line rest, doc = line ++ '\n' :: rest ∧ '\n' ∉ line ∧ r = cur ++ line ++ ['\n'] ∧
      rs = readRecords [] rest := by
  induction doc generalizing cur with
  | nil => simp [readRecords] at h
  | cons c cs ih =>
    by_cases hc : c = '\n'
    · subst hc
      simp only [readRecords, if_true, List.cons.injEq] at h
      exact ⟨[], cs, by simp, by simp, by simp [h.1], h.2.symm⟩
    · simp only [readRecords, hc, if_false] at h
      obtain ⟨line, rest, h1, h2, h3, h4⟩ := ih _ h
      refine ⟨c :: line, rest, by simp [h1], ?_, by simp [h3], h4⟩
      simp only [List.mem_cons, not_or]
      exact ⟨fun e => hc e.symm, h2⟩

/-! ## The sink is append-only -/

/-- The part of `convertPart` after the two `continue` statements. -/
theorem convertPart_main (enc : Char → Nat) (st : LineState) (p : Str)
    (h1 : p ≠ quote) (h2 : p ≠ []) (h3 : p ≠ [' ']) :
    convertPart enc st p =
      if st.inQuote = true ∧ HasSuffix p quote = false then
        ({ st with out := st.out ++ StringToAsciiBytes enc p ++ [0x20] }, none)
      else
        match commands p with
        | some code => ({ st with out := st.out ++ [code] }, none)
        | none =>
          if HasPrefix p quote = true ∧ HasSuffix p quote = true then
            ({ st with out := st.out ++
                StringToAsciiBytes enc (TrimSuffix (TrimPrefix p quote) quote) }, none)
          else if HasPrefix p quote = true then
            ({ inQuote := true, out := st.out ++ StringToAsciiBytes enc (TrimPrefix p quote) },
              none)
          else if HasSuffix p quote = true then
            ({ inQuote := false, out := st.out ++ StringToAsciiBytes enc (TrimSuffix p quote) },
              none)
          else
            match ParseUint p 0 8 with
            | .error e => (st, some (.parseNumber p e))
            | .ok code => ({ st with out := st.out ++ [code % 256] }, none) := by
  have e1 : ¬ (len p = 1 ∧ p = quote) := fun h => h1 h.2
  have e2 : ¬ (p = [] ∨ p = [' ']) := fun h => h.elim h2 h3
  have e3 : ¬ (st.inQuote = true ∧ (p = [' '] ∨ p = [])) := fun h => e2 h.2.symm
  unfold convertPart
  rw [if_neg e1]
  simp only [if_neg e3, if_neg e2]

theorem convertPart_quote (enc : Char → Nat) (st : LineState) :
    convertPart enc st quote = ({ st with inQuote := true }, none) := by
  unfold convertPart
  rw [if_pos ⟨by decide, rfl⟩]

theorem convertPart_nil (enc : Char → Nat) (st : LineState) :
    convertPart enc st [] =
      (if st.inQuote = true then { st with out := st.out ++ [0x20] } else st, none) := by
  unfold convertPart
  rw [if_neg (by decide)]
  simp

theorem convertPart_space (enc : Char → Nat) (st : LineState) :
    convertPart enc st [' '] =
      (if st.inQuote = true then { st with out := st.out ++ [0x20] } else st, none) := by
  unfold convertPart
  rw [if_neg (by decide)]
  simp

theorem convertPart_sink (enc : Char → Nat) (q : Bool) (out : List Nat) (p : Str) :
    convertPart enc ⟨q, out⟩ p =
      (⟨(convertPart enc ⟨q, []⟩ p).1.inQuote, out ++ (convertPart enc ⟨q, []⟩ p).1.out⟩,
        (convertPart enc ⟨q, []⟩ p).2) := by
  by_cases h1 : p = quote
  · subst h1; simp [convertPart_quote]
  by_cases h2 : p = []
  · subst h2; by_cases hq : q = true <;> simp [convertPart_nil, hq]
  by_cases h3 : p = [' ']
  · subst h3; by_cases hq : q = true <;> simp [convertPart_space, hq]
  rw [convertPart_main enc _ p h1 h2 h3, convertPart_main enc _ p h1 h2 h3]
  by_cases h4 : q = true ∧ HasSuffix p quote = false
  · simp [h4]
  · rw [if_neg h4, if_neg h4]
    rcases hc : commands p with _ | code
    · rcases hA : HasPrefix p quote <;> rcases hB : HasSuffix p quote <;>
        rcases hP : ParseUint p 0 8 with e | v <;> simp
    · simp

theorem convertParts_sink (enc : Char → Nat) (q : Bool) (out : List Nat) (ts : List Str) :
    convertParts enc ⟨q, out⟩ ts =
      (⟨(convertParts enc ⟨q, []⟩ ts).1.inQuote, out ++ (convertParts enc ⟨q, []⟩ ts).1.out⟩,
        (convertParts enc ⟨q, []⟩ ts).2) := by
  induction ts generalizing q out with
  | nil => simp [convertParts]
  | cons p ps ih =>
    simp only [convertParts]
    rw [convertPart_sink enc q out p]
    rcases h : convertPart enc ⟨q, []⟩ p with ⟨⟨q1, o1⟩, _ | e⟩
    · simp only []
      rw [ih q1 (out ++ o1), ih q1 o1]
      simp [List.append_assoc]
    · simp

theorem convertLine_sink (enc : Char → Nat) (out : List Nat) (line : Str) :
    convertLine enc out line =
      (out ++ (convertLine enc [] line).1, (convertLine enc [] line).2) := by
  unfold convertLine
  by_cases h : len (TrimSpace line) ≤ 1 ∨ HasPrefix (TrimSpace line) commentMarker = true
  · simp only [if_pos h, List.append_nil]
  · simp only [if_neg h]
    rw [convertParts_sink enc false out]

theorem convertRecords_sink (enc : Char → Nat) (out : List Nat) (rs : List Str) :
    convertRecords enc out rs =
      (out ++ (convertRecords enc [] rs).1, (convertRecords enc [] rs).2) := by
  induction rs generalizing out with
  | nil => simp [convertRecords]
  | cons r rs ih =>
    simp only [convertRecords]
    rw [convertLine_sink enc out r]
    rcases h : convertLine enc [] r with ⟨o1, _ | e⟩
    · simp only []
      rw [ih (out ++ o1), ih o1]
      simp [List.append_assoc]
    · simp

theorem convertRecords_append (enc : Char → Nat) (out : List Nat) (r1 r2 : List Str) :
    convertRecords enc out (r1 ++ r2) =
      match convertRecords enc out r1 with
      | (o, some e) => (o, some e)
      | (o, none) => convertRecords enc o r2 := by
  induction r1 generalizing out with
  | nil => simp [convertRecords]
  | cons r rs ih =>
    simp only [List.cons_append, convertRecords]
    rcases h : convertLine enc out r with ⟨o1, _ | e⟩
    · simp only []
      exact ih o1
    · simp

theorem ConvertFrom_sink (enc : Char → Nat) (sink : List Nat) (doc : Str) :
    ConvertFrom enc sink doc = (sink ++ (Convert enc doc).1, (Convert enc doc).2) := by
  unfold Convert ConvertFrom
  exact convertRecords_sink enc sink _

/-- Conversion of a document after a terminated document that converts without error. -/
theorem Convert_append (enc : Char → Nat) (d1 d2 : Str) (ht : Terminated d1)
    (hok : (Convert enc d1).2 = none) :
    Convert enc (d1 ++ d2) = ((Convert enc d1).1 ++ (Convert enc d2).1, (Convert enc d2).2) := by
  unfold Convert ConvertFrom at *
  rw [readRecords_append d1 d2 ht, convertRecords_append]
  rcases h : convertRecords enc [] (readRecords [] d1) with ⟨o1, _ | e⟩
  · simp only []
    exact convertRecords_sink enc o1 _
  · rw [h] at hok
    simp at hok

/-- Conversion of a document after a terminated document that fails. -/
theorem Convert_append_error (enc : Char → Nat) (d1 d2 : Str) (ht : Terminated d1)
    (e : ConvError) (herr : (Convert enc d1).2 = some e) :
    Convert enc (d1 ++ d2) = Convert enc d1 := by
  unfold Convert ConvertFrom at *
  rw [readRecords_append d1 d2 ht, convertRecords_append]
  rcases h : convertRecords enc [] (readRecords [] d1) with ⟨o1, _ | e1⟩
  · rw [h] at herr
    simp at herr
  · rfl

/-- Conversion of a document made of one newline-terminated line. -/
theorem Convert_line (enc : Char → Nat) (line : Str) (hl : '\n' ∉ line) :
    Convert enc (line ++ ['\n']) = convertLine enc [] (line ++ ['\n']) := by
  unfold Convert ConvertFrom
  rw [readRecords_line [] line hl]
  simp only [convertRecords, List.nil_append]
  rcases h : convertLine enc [] (line ++ ['\n']) with ⟨o1, _ | e⟩ <;> rfl

/-! ## White space -/

theorem TrimSpace_append_space (s : Str) (c : Char) (hc : isSpace c = true) :
    TrimSpace (s ++ [c]) = TrimSpace s := by
  unfold TrimSpace
  rw [List.dropWhile_append]
  by_cases h : (List.dropWhile isSpace s).isEmpty = true
  · have h0 : List.dropWhile isSpace s = [] := List.isEmpty_iff.mp h
    simp [h0, hc]
  · rw [if_neg h]
    simp [hc]

theorem TrimSpace_line (line : Str) : TrimSpace (line ++ ['\n']) = TrimSpace line :=
  TrimSpace_append_space line '\n' (by decide)

/-! ## Where an error comes from -/

theorem convertPart_error (enc : Char → Nat) (st st1 : LineState) (p : Str) (e : ConvError)
    (h : convertPart enc st p = (st1, some e)) : st1 = st := by
  by_cases h1 : p = quote
  · subst h1; simp [convertPart_quote] at h
  by_cases h2 : p = []
  · subst h2; simp [convertPart_nil] at h
  by_cases h3 : p = [' ']
  · subst h3; simp [convertPart_space] at h
  rw [convertPart_main enc _ p h1 h2 h3] at h
  by_cases h4 : st.inQuote = true ∧ HasSuffix p quote = false
  · simp [h4] at h
  · rw [if_neg h4] at h
    rcases hc : commands p with _ | code
    · rw [hc] at h
      rcases hA : HasPrefix p quote <;> rcases hB : HasSuffix p quote <;>
        rcases hP : ParseUint p 0 8 with e | v <;> simp [hA, hB, hP] at h
      exact h.1.symm
    · simp [hc] at h

theorem convertParts_error (enc : Char → Nat) (st st1 : LineState) (ts : List Str)
    (e : ConvError) (h : convertParts enc st ts = (st1, some e)) :
    ∃ ts1 p ts2, ts = ts1 ++ p :: ts2 ∧ convertParts enc st ts1 = (st1, none) ∧
      convertPart enc st1 p = (st1, some e) := by
  induction ts generalizing st with
  | nil => simp [convertParts] at h
  | cons p ps ih =>
    simp only [convertParts] at h
    rcases hp : convertPart enc st p with ⟨st2, _ | e2⟩
    · rw [hp] at h
      obtain ⟨ts1, p1, ts2, h1, h2, h3⟩ := ih st2 h
      refine ⟨p :: ts1, p1, ts2, by simp [h1], ?_, h3⟩
      simp only [convertParts, hp]
      exact h2
    · rw [hp] at h
      simp only [Prod.mk.injEq, Option.some.injEq] at h
      have hst : st2 = st := convertPart_error enc st st2 p e2 hp
      refine ⟨[], p, ps, rfl, ?_, ?_⟩
      · simp [convertParts, ← h.1, hst]
      · rw [← h.1, ← h.2, hst]
        rw [hst] at hp
        exact hp

theorem convertRecords_error (enc : Char → Nat) (out o : List Nat) (rs : List Str)
    (e : ConvError) (h : convertRecords enc out rs = (o, some e)) :
    ∃ rs1 r rs2 o1, rs = rs1 ++ r :: rs2 ∧ convertRecords enc out rs1 = (o1, none) ∧
      convertLine enc o1 r = (o, some e) := by
  induction rs generalizing out with
  | nil => simp [convertRecords] at h
  | cons r rs ih =>
    simp only [convertRecords] at h
    rcases hl : convertLine enc out r with ⟨o2, _ | e2⟩
    · rw [hl] at h
      obtain ⟨rs1, r1, rs2, o1, h1, h2, h3⟩ := ih o2 h
      refine ⟨r :: rs1, r1, rs2, o1, by simp [h1], ?_, h3⟩
      simp only [convertRecords, hl]
      exact h2
    · rw [hl] at h
      simp only [Prod.mk.injEq, Option.some.injEq] at h
      refine ⟨[], r, rs, out, rfl, by simp [convertRecords], ?_⟩
      rw [hl, h.1, h.2]

theorem readRecords_split (doc : Str) (rs1 : List Str) (r : Str) (rs2 : List Str)
    (h : readRecords [] doc = rs1 ++ r :: rs2) :
    ∃ pre line rest, doc = pre ++ line ++ '\n' :: rest ∧ Terminated pre ∧ '\n' ∉ line ∧
      readRecords [] pre = rs1 ∧ r = line ++ ['\n'] ∧ rs2 = readRecords [] rest := by
  induction rs1 generalizing doc with
  | nil =>
    obtain ⟨line, rest, h1, h2, h3, h4⟩ := readRecords_cons [] doc r rs2 h
    exact ⟨[], line, rest, by simp [h1], Or.inl rfl, h2, rfl, by simpa using h3, h4⟩
  | cons r0 rs1 ih =>
    obtain ⟨l0, rest0, h1, h2, h3, h4⟩ := readRecords_cons [] doc r0 (rs1 ++ r :: rs2) h
    obtain ⟨pre, line, rest, k1, k2, k3, k4, k5, k6⟩ := ih rest0 h4.symm
    refine ⟨l0 ++ '\n' :: pre, line, rest, by simp [h1, k1], ?_, k3, ?_, k5, k6⟩
    · rcases k2 with rfl | ⟨q, rfl⟩
      · exact Or.inr ⟨l0, rfl⟩
      · exact Or.inr ⟨l0 ++ '\n' :: q, by simp⟩
    · rw [readRecords_append_nl, readRecords_line [] l0 h2, k4]
      simp [h3]

/-! ## Trimming a line made of parts -/

theorem TrimSpace_core (pad1 core pad2 : Str) (h1 : ∀ c ∈ pad1, isSpace c = true)
    (h2 : ∀ c ∈ pad2, isSpace c = true)
    (hh : ∀ c, core.head? = some c → isSpace c = false)
    (hl : ∀ c, core.getLast? = some c → isSpace c = false) :
    TrimSpace (pad1 ++ core ++ pad2) = core := by
  unfold TrimSpace
  rw [List.append_assoc, List.dropWhile_append_of_pos h1]
  cases core with
  | nil =>
    rw [List.nil_append, List.dropWhile_eq_nil_iff.mpr h2]
    rfl
  | cons c cs =>
    have hc : isSpace c = false := hh c rfl
    rw [List.cons_append, List.dropWhile_cons, if_neg (by simp [hc])]
    rw [← List.cons_append, List.reverse_append,
      List.dropWhile_append_of_pos (by simpa using h2)]
    have hr : (c :: cs).reverse.head? = (c :: cs).getLast? := List.head?_reverse _
    cases hrev : (c :: cs).reverse with
    | nil => simp at hrev
    | cons x l =>
      rw [hrev] at hr
      have hx : isSpace x = false := hl x hr.symm
      rw [List.dropWhile_cons, if_neg (by simp [hx]), ← hrev, List.reverse_reverse]

theorem length_le_len (s : Str) : s.length ≤ len s := by
  induction s with
  | nil => simp [len]
  | cons c cs ih =>
    have := Char.utf8Size_pos c
    simp only [len, List.map_cons, List.sum_cons, List.length_cons] at *
    omega

theorem HasPrefix_commentMarker (s : Str) (h : s.head? ≠ some (Char.ofNat 39)) :
    HasPrefix s commentMarker = false := by
  cases s with
  | nil => rfl
  | cons c cs =>
    have hc : c ≠ Char.ofNat 39 := fun e => h (by simp [e])
    cases cs with
    | nil => simp [HasPrefix, commentMarker]
    | cons d ds =>
      cases ds with
      | nil => simp [HasPrefix, commentMarker]
      | cons e es => simp [HasPrefix, commentMarker, hc]

theorem joinWith_append {α : Type} (sep : α) (a b : List (List α)) (ha : a ≠ []) (hb : b ≠ []) :
    joinWith sep (a ++ b) = joinWith sep a ++ sep :: joinWith sep b := by
  induction a with
  | nil => exact absurd rfl ha
  | cons p a ih =>
    cases a with
    | nil =>
      cases b with
      | nil => exact absurd rfl hb
      | cons q b => rfl
    | cons q a =>
      have := ih (by simp)
      rw [List.cons_append] at this
      show p ++ sep :: joinWith sep (q :: (a ++ b)) = _
      rw [this]
      simp [joinWith]

/-- A line whose trimmed form is `joinWith ' ' ts` is converted by running the parts
`ts`, when it is not skipped. -/
theorem convertLine_parts (enc : Char → Nat) (out : List Nat) (pad1 pad2 : Str) (ts : List Str)
    (h1 : ∀ c ∈ pad1, isSpace c = true) (h2 : ∀ c ∈ pad2, isSpace c = true)
    (hne : ts ≠ []) (hsp : ∀ p ∈ ts, ' ' ∉ p)
    (hh : ∀ c, (joinWith ' ' ts).head? = some c → isSpace c = false ∧ c ≠ Char.ofNat 39)
    (hl : ∀ c, (joinWith ' ' ts).getLast? = some c → isSpace c = false)
    (hlen : 2 ≤ (joinWith ' ' ts).length) :
    convertLine enc out (pad1 ++ joinWith ' ' ts ++ pad2) =
      ((convertParts enc ⟨false, out⟩ ts).1.out, (convertParts enc ⟨false, out⟩ ts).2) := by
  unfold convertLine
  rw [TrimSpace_core pad1 _ pad2 h1 h2 (fun c hc => (hh c hc).1) hl]
  have hlen2 : ¬ len (joinWith ' ' ts) ≤ 1 := by
    have := length_le_len (joinWith ' ' ts)
    omega
  have hpre : HasPrefix (joinWith ' ' ts) commentMarker = false :=
    HasPrefix_commentMarker _ (fun e => (hh _ e).2 rfl)
  rw [if_neg (by simp [hlen2, hpre]), Split_joinWith ' ' ts hne hsp]

/-! ## Lines made of parts that stay outside a quote -/

theorem PlainTok_nil (enc : Char → Nat) : PlainTok enc [] [] := by
  refine ⟨by simp, fun out => ?_, by simp, by simp⟩
  simp [convertPart_nil]

theorem PlainTok_nil_val (enc : Char → Nat) (v : List Nat) (h : PlainTok enc [] v) : v = [] := by
  have := h.2.1 []
  simp [convertPart_nil] at this
  exact this

theorem convertParts_plain (enc : Char → Nat) (out : List Nat) (tvs : List (Str × List Nat))
    (h : ∀ tv ∈ tvs, PlainTok enc tv.1 tv.2) :
    convertParts enc ⟨false, out⟩ (tvs.map Prod.fst) =
      (⟨false, out ++ (tvs.map Prod.snd).flatten⟩, none) := by
  induction tvs generalizing out with
  | nil => simp [convertParts]
  | cons tv tvs ih =>
    simp only [List.map_cons, convertParts]
    rw [(h tv (by simp)).2.1 out]
    simp only []
    rw [ih _ (fun x hx => h x (List.mem_cons_of_mem _ hx))]
    simp [List.append_assoc]

theorem joinWith_head (sep : Char) (p : Str) (ts : List Str) (hp : p ≠ []) :
    (joinWith sep (p :: ts)).head? = p.head? := by
  cases ts with
  | nil => rfl
  | cons q ts => simp only [joinWith]; exact List.head?_append_of_ne_nil _ hp

theorem joinWith_length (sep : Char) (p : Str) (ts : List Str) :
    p.length ≤ (joinWith sep (p :: ts)).length := by
  cases ts with
  | nil => simp [joinWith]
  | cons q ts => simp only [joinWith, List.length_append]; omega

theorem joinWith_getLast (sep : Char) (ts : List Str) (p : Str) (hp : p ≠ []) :
    (joinWith sep (ts ++ [p])).getLast? = p.getLast? := by
  cases ts with
  | nil => rfl
  | cons q ts =>
    rw [joinWith_append sep (q :: ts) [p] (by simp) (by simp)]
    simp only [joinWith]
    rw [List.getLast?_append_of_ne_nil _ (by simp)]
    cases p with
    | nil => exact absurd rfl hp
    | cons c cs => exact List.getLast?_cons_cons

theorem convertLine_blank (enc : Char → Nat) (out : List Nat) (pad : Str)
    (h : ∀ c ∈ pad, isSpace c = true) : convertLine enc out pad = (out, none) := by
  unfold convertLine
  have : TrimSpace pad = [] := by
    have := TrimSpace_core pad [] [] h (by simp) (by simp) (by simp)
    simpa using this
  rw [this]
  simp [len]

/-- A line of plain parts whose first part is not empty and has two characters or more,
the first of them not an apostrophe: the bytes of the parts are written in order. -/
theorem convertLine_plain_back (enc : Char → Nat) (out : List Nat)
    (tvs : List (Str × List Nat)) :
    (∀ tv ∈ tvs, PlainTok enc tv.1 tv.2) →
    (∀ tv, tvs.head? = some tv → 2 ≤ tv.1.length ∧ tv.1.head? ≠ some (Char.ofNat 39)) →
    ∀ pad1 pad2 : Str, (∀ c ∈ pad1, isSpace c = true) → (∀ c ∈ pad2, isSpace c = true) →
    convertLine enc out (pad1 ++ joinWith ' ' (tvs.map Prod.fst) ++ pad2) =
      (out ++ (tvs.map Prod.snd).flatten, none) := by
  induction tvs using List.reverseRecOn with
  | nil =>
    intro _ _ pad1 pad2 h1 h2
    simp only [List.map_nil, joinWith, List.append_nil, List.flatten_nil]
    apply convertLine_blank
    intro c hc
    rcases List.mem_append.mp hc with hc | hc
    · exact h1 c hc
    · exact h2 c hc
  | append_singleton tvs tv ih =>
    intro hplain hhead pad1 pad2 h1 h2
    by_cases hemp : tv.1 = []
    · have htvs : tvs ≠ [] := by
        intro e
        subst e
        have := (hhead tv rfl).1
        rw [hemp] at this
        simp at this
      have hv : tv.2 = [] := by
        have := hplain tv (by simp)
        rw [hemp] at this
        exact PlainTok_nil_val enc _ this
      have hhead2 : ∀ x, tvs.head? = some x →
          2 ≤ x.1.length ∧ x.1.head? ≠ some (Char.ofNat 39) := by
        intro x hx
        apply hhead
        rw [List.head?_append_of_ne_nil _ htvs]
        exact hx
      have := ih (fun x hx => hplain x (by simp [hx])) hhead2 pad1 (' ' :: pad2) h1
        (by
          intro c hc
          rcases List.mem_cons.mp hc with rfl | hc
          · decide
          · exact h2 c hc)
      rw [List.map_append, List.map_append, List.map_singleton, List.map_singleton, hemp, hv,
        joinWith_append ' ' _ _ (by simpa using htvs) (by simp)]
      simp only [joinWith, List.flatten_append, List.flatten_cons, List.flatten_nil,
        List.append_nil]
      rw [← this]
      simp [List.append_assoc]
    · have hne : List.map Prod.fst (tvs ++ [tv]) ≠ [] := by simp
      have hsp : ∀ p ∈ List.map Prod.fst (tvs ++ [tv]), ' ' ∉ p := by
        intro p hp
        obtain ⟨x, hx, rfl⟩ := List.mem_map.mp hp
        exact (hplain x hx).1
      obtain ⟨x, rest, hx⟩ : ∃ x rest, tvs ++ [tv] = x :: rest := by
        cases hh : tvs ++ [tv] with
        | nil => simp at hh
        | cons x rest => exact ⟨x, rest, rfl⟩
      have hxh := hhead x (by rw [hx]; rfl)
      have hxne : x.1 ≠ [] := by
        intro e
        rw [e] at hxh
        simp at hxh
      have hxp : PlainTok enc x.1 x.2 := hplain x (by rw [hx]; simp)
      rw [convertLine_parts enc out pad1 pad2 _ h1 h2 hne hsp ?_ ?_ ?_,
        convertParts_plain enc out _ hplain]
      · intro c hc
        rw [hx, List.map_cons, joinWith_head ' ' _ _ hxne] at hc
        refine ⟨hxp.2.2.1 c hc, ?_⟩
        intro e
        subst e
        exact hxh.2 hc
      · intro c hc
        rw [List.map_append, List.map_singleton, joinWith_getLast ' ' _ _ hemp] at hc
        exact (hplain tv (by simp)).2.2.2 c hc
      · rw [hx, List.map_cons]
        have := joinWith_length ' ' x.1 (List.map Prod.fst rest)
        omega

/-- A line of plain parts, possibly with empty parts in front, in which every part that
is not empty has two characters or more, the first of them not an apostrophe. -/
theorem convertLine_plain (enc : Char → Nat) (out : List Nat)
    (tvs : List (Str × List Nat)) :
    (∀ tv ∈ tvs, PlainTok enc tv.1 tv.2) →
    (∀ tv ∈ tvs, tv.1 ≠ [] → 2 ≤ tv.1.length ∧ tv.1.head? ≠ some (Char.ofNat 39)) →
    ∀ pad1 pad2 : Str, (∀ c ∈ pad1, isSpace c = true) → (∀ c ∈ pad2, isSpace c = true) →
    convertLine enc out (pad1 ++ joinWith ' ' (tvs.map Prod.fst) ++ pad2) =
      (out ++ (tvs.map Prod.snd).flatten, none) := by
  induction tvs with
  | nil =>
    intro h _ pad1 pad2 h1 h2
    exact convertLine_plain_back enc out [] h (by simp) pad1 pad2 h1 h2
  | cons tv tvs ih =>
    intro hplain hlead pad1 pad2 h1 h2
    by_cases hemp : tv.1 = []
    · have hv : tv.2 = [] := by
        have := hplain tv (by simp)
        rw [hemp] at this
        exact PlainTok_nil_val enc _ this
      cases tvs with
      | nil =>
        simp only [List.map_cons, List.map_nil, hemp, hv, joinWith, List.append_nil,
          List.flatten_cons, List.flatten_nil]
        apply convertLine_blank
        intro c hc
        rcases List.mem_append.mp hc with hc | hc
        · exact h1 c hc
        · exact h2 c hc
      | cons tv2 tvs =>
        have := ih (fun x hx => hplain x (List.mem_cons_of_mem _ hx))
          (fun x hx => hlead x (List.mem_cons_of_mem _ hx)) (pad1 ++ [' ']) pad2
          (by
            intro c hc
            rcases List.mem_append.mp hc with hc | hc
            · exact h1 c hc
            · rw [List.mem_singleton.mp hc]; decide)
          h2
        simp only [List.map_cons, hemp, hv, joinWith, List.flatten_cons, List.nil_append] at this ⊢
        rw [← this]
        simp [List.append_assoc]
    · exact convertLine_plain_back enc out (tv :: tvs) hplain
        (fun x hx => by
          simp only [List.head?_cons, Option.some.injEq] at hx
          subst hx
          exact hlead _ (by simp) hemp) pad1 pad2 h1 h2

/-! ## Mnemonics and quoted literals as plain parts -/

theorem HasSuffix_concat (s : Str) (c d : Char) : HasSuffix (s ++ [c]) [d] = (c == d) := by
  unfold HasSuffix
  have : (s ++ [c]).length - [d].length = s.length := by simp
  rw [this, List.drop_left]
  by_cases h : c = d <;> simp [h]

theorem TrimSuffix_concat (s : Str) (c : Char) : TrimSuffix (s ++ [c]) [c] = s := by
  unfold TrimSuffix
  rw [HasSuffix_concat]
  have : (s ++ [c]).length - [c].length = s.length := by simp
  simp [this]

theorem HasPrefix_cons (s : Str) (c d : Char) : HasPrefix (c :: s) [d] = (c == d) := by
  unfold HasPrefix
  by_cases h : c = d <;> simp [h]

theorem TrimPrefix_cons (s : Str) (c : Char) : TrimPrefix (c :: s) [c] = s := by
  unfold TrimPrefix
  rw [HasPrefix_cons]
  simp

theorem lookupKey_mem (p : Str) (v : Nat) (tbl : List (Str × Nat))
    (h : lookupKey p tbl = some v) : (p, v) ∈ tbl := by
  induction tbl with
  | nil => simp [lookupKey] at h
  | cons kv tbl ih =>
    obtain ⟨k, w⟩ := kv
    simp only [lookupKey] at h
    by_cases hk : p = k
    · rw [if_pos hk] at h
      simp only [Option.some.injEq] at h
      simp [hk, h]
    · rw [if_neg hk] at h
      exact List.mem_cons_of_mem _ (ih h)

theorem commandTable_shape :
    ∀ kv ∈ commandTable, ' ' ∉ kv.1 ∧ kv.1 ≠ quote ∧ kv.1 ≠ [] ∧ kv.1 ≠ [' '] ∧
      kv.1.head?.any isSpace = false ∧ kv.1.getLast?.any isSpace = false ∧
      kv.1.head? ≠ some '"' ∧ kv.1.getLast? ≠ some '"' ∧ 2 ≤ kv.1.length ∧
      kv.1.head? ≠ some (Char.ofNat 39) := by
  decide

theorem commands_shape (p : Str) (v : Nat) (h : commands p = some v) :
    ' ' ∉ p ∧ p ≠ quote ∧ p ≠ [] ∧ p ≠ [' '] ∧
      p.head?.any isSpace = false ∧ p.getLast?.any isSpace = false ∧
      p.head? ≠ some '"' ∧ p.getLast? ≠ some '"' ∧ 2 ≤ p.length ∧
      p.head? ≠ some (Char.ofNat 39) :=
  commandTable_shape (p, v) (lookupKey_mem p v _ h)

theorem PlainTok_mnemonic (enc : Char → Nat) (p : Str) (v : Nat) (h : commands p = some v) :
    PlainTok enc p [v] := by
  obtain ⟨h1, h2, h3, h4, h5, h6, _⟩ := commands_shape p v h
  refine ⟨h1, fun out => ?_, ?_, ?_⟩
  · rw [convertPart_main enc _ p h2 h3 h4]
    simp [h]
  · intro c hc
    rw [hc] at h5
    simpa using h5
  · intro c hc
    rw [hc] at h6
    simpa using h6

theorem commands_quoted (s : Str) : commands ('"' :: s) = none := by
  rcases h : commands ('"' :: s) with _ | v
  · rfl
  · have := (commands_shape _ v h).2.2.2.2.2.2.1
    simp at this

theorem PlainTok_quoted (enc : Char → Nat) (seg : Str) (hne : seg ≠ []) (hsp : ' ' ∉ seg) :
    PlainTok enc (quote ++ seg ++ quote) (StringToAsciiBytes enc seg) := by
  have hform : quote ++ seg ++ quote = '"' :: (seg ++ ['"']) := rfl
  refine ⟨?_, fun out => ?_, ?_, ?_⟩
  · simp [quote, hsp]
  · have e1 : quote ++ seg ++ quote ≠ quote := by
      cases seg with
      | nil => exact absurd rfl hne
      | cons c cs => simp [quote]
    rw [convertPart_main enc _ _ e1 (by simp [quote]) (by simp [quote])]
    rw [if_neg (by simp)]
    rw [hform, commands_quoted]
    simp only []
    have hp : HasPrefix ('"' :: (seg ++ ['"'])) quote = true := by
      rw [quote, HasPrefix_cons]; simp
    have hs : HasSuffix ('"' :: (seg ++ ['"'])) quote = true := by
      rw [quote, ← List.cons_append, HasSuffix_concat]; simp
    rw [if_pos ⟨hp, hs⟩]
    have : TrimSuffix (TrimPrefix ('"' :: (seg ++ ['"'])) quote) quote = seg := by
      rw [quote, TrimPrefix_cons, TrimSuffix_concat]
    rw [this]
  · intro c hc
    rw [hform] at hc
    simp only [List.head?_cons, Option.some.injEq] at hc
    subst hc
    decide
  · intro c hc
    rw [quote, List.getLast?_concat] at hc
    simp only [Option.some.injEq] at hc
    subst hc
    decide

/-! ## The text written by `Print` -/

theorem Split_mem_no_sep (s : Str) (sep : Char) : ∀ p ∈ Split s sep, sep ∉ p := by
  induction s with
  | nil => simp [Split]
  | cons c cs ih =>
    by_cases hc : c = sep
    · simp only [Split, if_pos hc]
      intro p hp
      rcases List.mem_cons.mp hp with rfl | hp
      · simp
      · exact ih p hp
    · simp only [Split, if_neg hc]
      cases h : Split cs sep with
      | nil => simp; exact fun e => hc e.symm
      | cons w ws =>
        rw [h] at ih
        intro p hp
        rcases List.mem_cons.mp hp with rfl | hp
        · have := ih w (by simp)
          simp only [List.mem_cons, not_or]
          exact ⟨fun e => hc e.symm, this⟩
        · exact ih p (by simp [hp])

theorem Split_mem_subset (s : Str) (sep : Char) : ∀ p ∈ Split s sep, ∀ c ∈ p, c ∈ s := by
  induction s with
  | nil => simp [Split]
  | cons c cs ih =>
    by_cases hc : c = sep
    · simp only [Split, if_pos hc]
      intro p hp x hx
      rcases List.mem_cons.mp hp with rfl | hp
      · simp at hx
      · exact List.mem_cons_of_mem _ (ih p hp x hx)
    · simp only [Split, if_neg hc]
      cases h : Split cs sep with
      | nil => simp
      | cons w ws =>
        rw [h] at ih
        intro p hp x hx
        rcases List.mem_cons.mp hp with rfl | hp
        · rcases List.mem_cons.mp hx with rfl | hx
          · simp
          · exact List.mem_cons_of_mem _ (ih w (by simp) x hx)
        · exact List.mem_cons_of_mem _ (ih p (by simp [hp]) x hx)

theorem mem_joinWith {α : Type} (sep : α) (ts : List (List α)) (c : α)
    (h : c ∈ joinWith sep ts) : c = sep ∨ ∃ p ∈ ts, c ∈ p := by
  induction ts with
  | nil => simp [joinWith] at h
  | cons p ts ih =>
    cases ts with
    | nil => exact Or.inr ⟨p, by simp, h⟩
    | cons q ts =>
      simp only [joinWith, List.mem_append, List.mem_cons] at h
      rcases h with h | h | h
      · exact Or.inr ⟨p, by simp, h⟩
      · exact Or.inl h
      · rcases ih h with h | ⟨x, hx, hc⟩
        · exact Or.inl h
        · exact Or.inr ⟨x, List.mem_cons_of_mem _ hx, hc⟩

theorem len_pos_iff (s : Str) : len s > 0 ↔ s ≠ [] := by
  cases s with
  | nil => simp [len]
  | cons c cs =>
    have := length_le_len (c :: cs)
    simp only [List.length_cons] at this
    simp only [ne_eq, reduceCtorEq, not_false_eq_true, iff_true]
    omega

theorem printTabs_sink (i : Nat) (ts : List Str) (out : Str) :
    printTabs i ts out = out ++ printTabs i ts [] := by
  induction ts generalizing i out with
  | nil => simp [printTabs]
  | cons t ts ih =>
    simp only [printTabs]
    rw [ih, ih (i + 1) (if len t > 0 then _ else _)]
    by_cases h1 : i > 0 <;> by_cases h2 : len t > 0 <;> simp [h1, h2]

theorem printTabs_succ (i : Nat) (ts : List Str) :
    printTabs (i + 1) ts [] = printTabs 1 ts [] := by
  induction ts generalizing i with
  | nil => simp [printTabs]
  | cons t ts ih =>
    simp only [printTabs]
    rw [printTabs_sink, printTabs_sink (1 + 1), ih (i + 1), ih 1]
    simp

theorem printTabs_one (t : Str) (ts : List Str) :
    printTabs 1 (t :: ts) [] = [' ', 'H', 'T', ' '] ++ printTabs 0 (t :: ts) [] := by
  simp only [printTabs]
  rw [printTabs_sink, printTabs_sink (0 + 1), printTabs_succ 1]
  by_cases h : 0 < len t <;> simp [h]

theorem tabParts_ne_nil (enc : Char → Nat) (s : Str) (rest : List Str) :
    (tabParts enc (s :: rest)).map Prod.fst ≠ [] := by
  cases rest <;> simp [tabParts]

theorem printTabs_join (enc : Char → Nat) (s : Str) (rest : List Str) :
    printTabs 0 (s :: rest) [] = joinWith ' ' ((tabParts enc (s :: rest)).map Prod.fst) := by
  induction rest generalizing s with
  | nil =>
    simp only [printTabs, tabParts, List.map_cons, List.map_nil, joinWith, quoted]
    simp
  | cons s2 rest ih =>
    have h0 : printTabs 0 (s :: s2 :: rest) [] = quoted s ++ printTabs 1 (s2 :: rest) [] := by
      rw [printTabs]
      simp only [Nat.lt_irrefl, if_false, List.nil_append]
      rw [printTabs_sink]
      rfl
    rw [h0, printTabs_one, ih s2]
    simp only [tabParts, List.map_cons]
    cases hm : List.map Prod.fst (tabParts enc (s2 :: rest)) with
    | nil => exact absurd hm (tabParts_ne_nil enc s2 rest)
    | cons q qs => simp [joinWith]

theorem tabParts_bytes (enc : Char → Nat) (segs : List Str) :
    ((tabParts enc segs).map Prod.snd).flatten =
      joinWith 0x09 (segs.map (StringToAsciiBytes enc)) := by
  induction segs with
  | nil => rfl
  | cons s rest ih =>
    cases rest with
    | nil => simp [tabParts, joinWith]
    | cons s2 rest =>
      simp only [tabParts, List.map_cons, List.flatten_cons, joinWith] at ih ⊢
      rw [ih]
      simp

theorem tabParts_plain (enc : Char → Nat) (segs : List Str) (h : ∀ s ∈ segs, ' ' ∉ s) :
    ∀ tv ∈ tabParts enc segs, PlainTok enc tv.1 tv.2 ∧
      (tv.1 ≠ [] → 2 ≤ tv.1.length ∧ tv.1.head? ≠ some (Char.ofNat 39)) := by
  have hq : ∀ s, ' ' ∉ s → PlainTok enc (quoted s) (StringToAsciiBytes enc s) ∧
      (quoted s ≠ [] → 2 ≤ (quoted s).length ∧ (quoted s).head? ≠ some (Char.ofNat 39)) := by
    intro s hs
    by_cases he : s = []
    · subst he
      have : quoted [] = [] := rfl
      rw [this]
      exact ⟨PlainTok_nil enc, fun e => absurd rfl e⟩
    · have : quoted s = quote ++ s ++ quote := by
        unfold quoted
        rw [if_pos ((len_pos_iff s).mpr he)]
      rw [this]
      refine ⟨PlainTok_quoted enc s he hs, fun _ => ⟨by simp [quote], ?_⟩⟩
      simp only [quote, List.singleton_append, List.cons_append, List.head?_cons]
      decide
  have hht : PlainTok enc ['H', 'T'] [0x09] ∧ ((['H', 'T'] : Str) ≠ [] →
      2 ≤ (['H', 'T'] : Str).length ∧ (['H', 'T'] : Str).head? ≠ some (Char.ofNat 39)) :=
    ⟨PlainTok_mnemonic enc _ _ rfl, fun _ => by decide⟩
  induction segs with
  | nil => simp [tabParts]
  | cons s rest ih =>
    cases rest with
    | nil =>
      intro tv htv
      simp only [tabParts, List.mem_singleton] at htv
      subst htv
      exact hq s (h s (by simp))
    | cons s2 rest =>
      intro tv htv
      simp only [tabParts, List.mem_cons] at htv
      rcases htv with rfl | rfl | htv
      · exact hq s (h s (by simp))
      · exact hht
      · exact ih (fun x hx => h x (List.mem_cons_of_mem _ hx)) tv htv

theorem tabParts_chars (enc : Char → Nat) (segs : List Str) :
    ∀ tv ∈ tabParts enc segs, ∀ c ∈ tv.1, c ∈ ['"', 'H', 'T'] ∨ ∃ s ∈ segs, c ∈ s := by
  have hq : ∀ s, ∀ c ∈ quoted s, c ∈ ['"', 'H', 'T'] ∨ c ∈ s := by
    intro s c hc
    unfold quoted at hc
    by_cases h : len s > 0
    · rw [if_pos h] at hc
      simp only [quote, List.mem_append, List.mem_singleton] at hc
      rcases hc with (hc | hc) | hc
      · exact Or.inl (by simp [hc])
      · exact Or.inr hc
      · exact Or.inl (by simp [hc])
    · rw [if_neg h] at hc
      simp at hc
  induction segs with
  | nil => simp [tabParts]
  | cons s rest ih =>
    cases rest with
    | nil =>
      intro tv htv c hc
      simp only [tabParts, List.mem_singleton] at htv
      subst htv
      rcases hq s c hc with h | h
      · exact Or.inl h
      · exact Or.inr ⟨s, by simp, h⟩
    | cons s2 rest =>
      intro tv htv c hc
      simp only [tabParts, List.mem_cons] at htv
      rcases htv with rfl | rfl | htv
      · rcases hq s c hc with h | h
        · exact Or.inl h
        · exact Or.inr ⟨s, by simp, h⟩
      · simp only [List.mem_cons, List.mem_singleton, List.not_mem_nil, or_false] at hc
        rcases hc with rfl | rfl <;> exact Or.inl (by simp)
      · rcases ih tv htv c hc with h | ⟨x, hx, hcx⟩
        · exact Or.inl h
        · exact Or.inr ⟨x, List.mem_cons_of_mem _ hx, hcx⟩

theorem lineText_join (enc : Char → Nat) (l : Str) :
    lineText l = joinWith ' ' ((tabParts enc (Split l '\t')).map Prod.fst) := by
  unfold lineText
  cases h : Split l '\t' with
  | nil => exact absurd h (Split_ne_nil _ _)
  | cons s rest => exact printTabs_join enc s rest

theorem lineText_no_nl (l : Str) (h : '\n' ∉ l) : '\n' ∉ lineText l := by
  intro hc
  rw [lineText_join (fun _ => 0) l] at hc
  rcases mem_joinWith _ _ _ hc with h1 | ⟨p, hp, hcp⟩
  · exact absurd h1 (by decide)
  · obtain ⟨tv, htv, rfl⟩ := List.mem_map.mp hp
    rcases tabParts_chars _ _ tv htv _ hcp with h2 | ⟨x, hx, hcx⟩
    · revert h2; decide
    · exact h (Split_mem_subset l '\t' x hx _ hcx)

theorem convertLine_lineText (enc : Char → Nat) (out : List Nat) (l : Str) (h : ' ' ∉ l) :
    convertLine enc out ([' ', ' ', ' ', ' '] ++ lineText l ++ ['\n']) =
      (out ++ lineBytes enc l, none) := by
  have hs : ∀ s ∈ Split l '\t', ' ' ∉ s := fun s hs hc => h (Split_mem_subset l '\t' s hs _ hc)
  have hp := tabParts_plain enc (Split l '\t') hs
  rw [lineText_join enc l,
    convertLine_plain enc out _ (fun tv htv => (hp tv htv).1) (fun tv htv => (hp tv htv).2)
      _ _ (by decide) (by decide),
    tabParts_bytes]
  rfl

theorem convertLine_lineText_LF (enc : Char → Nat) (out : List Nat) (l : Str) (h : ' ' ∉ l) :
    convertLine enc out ([' ', ' ', ' ', ' '] ++ lineText l ++ [' ', 'L', 'F', '\n']) =
      (out ++ lineBytes enc l ++ [0x0A], none) := by
  have hs : ∀ s ∈ Split l '\t', ' ' ∉ s := fun s hs hc => h (Split_mem_subset l '\t' s hs _ hc)
  have hp := tabParts_plain enc (Split l '\t') hs
  have hne : (tabParts enc (Split l '\t')).map Prod.fst ≠ [] := by
    cases hsplit : Split l '\t' with
    | nil => exact absurd hsplit (Split_ne_nil _ _)
    | cons s rest => exact tabParts_ne_nil enc s rest
  have hLF : PlainTok enc ['L', 'F'] [0x0A] := PlainTok_mnemonic enc _ _ rfl
  have htext : [' ', ' ', ' ', ' '] ++ lineText l ++ [' ', 'L', 'F', '\n'] =
      [' ', ' ', ' ', ' '] ++
        joinWith ' ' ((tabParts enc (Split l '\t') ++ [(['L', 'F'], [0x0A])]).map Prod.fst) ++
        ['\n'] := by
    rw [List.map_append, joinWith_append ' ' _ _ hne (by simp), lineText_join enc l]
    simp [joinWith]
  rw [htext, convertLine_plain enc out _ ?_ ?_ _ _ (by decide) (by decide)]
  · rw [List.map_append, List.flatten_append, tabParts_bytes]
    simp [lineBytes]
  · intro tv htv
    rcases List.mem_append.mp htv with htv | htv
    · exact (hp tv htv).1
    · rw [List.mem_singleton.mp htv]; exact hLF
  · intro tv htv
    rcases List.mem_append.mp htv with htv | htv
    · exact (hp tv htv).2
    · rw [List.mem_singleton.mp htv]; exact fun _ => by decide

theorem printLines_sink (i : Nat) (ls : List Str) (out : Str) :
    printLines i ls out = out ++ printLines i ls [] := by
  induction ls generalizing i out with
  | nil => simp [printLines]
  | cons l ls ih =>
    simp only [printLines]
    rw [ih, ih (i + 1) (printTabs 0 _ ((if i > 0 then _ else _) ++ _)), printTabs_sink,
      printTabs_sink 0 _ ((if i > 0 then _ else _) ++ _)]
    by_cases h1 : i > 0 <;> simp [h1]

theorem printLines_succ (i : Nat) (ls : List Str) :
    printLines (i + 1) ls [] = printLines 1 ls [] := by
  induction ls generalizing i with
  | nil => simp [printLines]
  | cons l ls ih =>
    simp only [printLines]
    rw [printLines_sink, printLines_sink (1 + 1), ih (i + 1), ih 1]
    simp

theorem printLines_doc (l : Str) (ls : List Str) :
    [' ', ' ', ' ', ' '] ++ lineText l ++ (printLines 1 ls [] ++ ['\n']) = docOf l ls := by
  induction ls generalizing l with
  | nil => simp [printLines, docOf]
  | cons l2 ls ih =>
    simp only [printLines, docOf]
    rw [← ih l2, printLines_sink, printLines_succ 1, printTabs_sink]
    simp [lineText]

theorem Print_doc (t l : Str) (ls : List Str) (h : Split t '\n' = l :: ls) :
    Print t = docOf l ls := by
  unfold Print PrintTo
  rw [h, ← printLines_doc]
  simp only [printLines]
  rw [printLines_sink, printLines_succ 0, printTabs_sink]
  simp [lineText]

theorem Convert_docOf (enc : Char → Nat) (l : Str) (ls : List Str)
    (h : ∀ x ∈ l :: ls, ' ' ∉ x ∧ '\n' ∉ x) :
    Convert enc (docOf l ls) = (joinWith 0x0A ((l :: ls).map (lineBytes enc)), none) := by
  induction ls generalizing l with
  | nil =>
    have hl := h l (by simp)
    simp only [docOf, List.map_cons, List.map_nil, joinWith]
    rw [Convert_line enc _ (by
      simp only [List.mem_append, not_or]
      exact ⟨by decide, lineText_no_nl l hl.2⟩)]
    rw [convertLine_lineText enc [] l hl.1]
    simp
  | cons l2 ls ih =>
    have hl := h l (by simp)
    have hrest := ih l2 (fun x hx => h x (List.mem_cons_of_mem _ hx))
    have hfirst : Convert enc ([' ', ' ', ' ', ' '] ++ lineText l ++ [' ', 'L', 'F', '\n']) =
        (lineBytes enc l ++ [0x0A], none) := by
      have e : [' ', ' ', ' ', ' '] ++ lineText l ++ [' ', 'L', 'F', '\n'] =
          ([' ', ' ', ' ', ' '] ++ lineText l ++ [' ', 'L', 'F']) ++ ['\n'] := by simp
      rw [e, Convert_line enc _ (by
        simp only [List.mem_append, not_or]
        exact ⟨⟨by decide, lineText_no_nl l hl.2⟩, by decide⟩), ← e,
        convertLine_lineText_LF enc [] l hl.1]
      simp
    simp only [docOf]
    rw [Convert_append enc _ _ (Or.inr ⟨[' ', ' ', ' ', ' '] ++ lineText l ++ [' ', 'L', 'F'],
      by simp⟩) (by rw [hfirst]), hfirst, hrest]
    simp [joinWith]

/-- What `Convert` yields on the text written by `Print` for a text without spaces. -/
theorem Convert_Print (enc : Char → Nat) (t : Str) (h : ' ' ∉ t) :
    Convert enc (Print t) = (joinWith 0x0A ((Split t '\n').map (lineBytes enc)), none) := by
  cases hs : Split t '\n' with
  | nil => exact absurd hs (Split_ne_nil _ _)
  | cons l ls =>
    rw [Print_doc t l ls hs]
    apply Convert_docOf
    intro x hx
    rw [← hs] at hx
    exact ⟨fun hc => h (Split_mem_subset t '\n' x hx _ hc), Split_mem_no_sep t '\n' x hx⟩

/-! ## Parts that do not end with a quote -/

theorem HasSuffix_quote_false (p : Str) (h : p.getLast? ≠ some '"') :
    HasSuffix p quote = false := by
  rcases List.eq_nil_or_concat p with rfl | ⟨init, c, rfl⟩
  · rfl
  · rw [List.concat_eq_append] at h ⊢
    rw [List.getLast?_concat] at h
    rw [quote, HasSuffix_concat]
    simpa using h

theorem getLast?_mem (p : Str) (c : Char) (h : p.getLast? = some c) : c ∈ p := by
  obtain ⟨ys, rfl⟩ := List.getLast?_eq_some_iff.mp h
  simp

/-! ## `ParseUint` with base 0 and 8 bits -/

theorem or32_small : ∀ n < 128, (97 ≤ n ∧ n ≤ 122 → n ||| 32 = n) ∧
    (65 ≤ n ∧ n ≤ 90 → n ||| 32 = n + 32) ∧ (48 ≤ n ∧ n ≤ 57 → n ||| 32 = n) ∧
    (97 ≤ n ||| 32 ∧ n ||| 32 ≤ 122 → (97 ≤ n ∧ n ≤ 122) ∨ (65 ≤ n ∧ n ≤ 90)) := by
  decide

theorem le_or32 (n : Nat) (h : 128 ≤ n) : 128 ≤ n ||| 32 := by
  have h1 : (n ||| 32) / 2 / 2 / 2 / 2 / 2 / 2 = n / 2 / 2 / 2 / 2 / 2 / 2 := by
    simp [Nat.or_div_two]
  generalize n ||| 32 = k at h1
  omega

theorem ne_of_toNat_ne (c d : Char) (h : c.toNat ≠ d.toNat) : c ≠ d :=
  fun e => h (by rw [e])

theorem digitVal_dec (c : Char) (h : 48 ≤ c.toNat ∧ c.toNat ≤ 57) :
    digitVal c = some (c.toNat - 48) := by
  simp [digitVal, h]

theorem digitVal_hex (c : Char) (h : isHexDigit c) : ∃ d, digitVal c = some d ∧ d < 16 := by
  rcases h with h | h | h
  · exact ⟨_, digitVal_dec c h, by omega⟩
  · have hl : lower c = c.toNat := (or32_small c.toNat (by omega)).1 (by omega)
    refine ⟨c.toNat - 97 + 10, ?_, by omega⟩
    unfold digitVal
    rw [if_neg (by omega), hl, if_pos (by omega)]
  · have hl : lower c = c.toNat + 32 := (or32_small c.toNat (by omega)).2.1 (by omega)
    refine ⟨c.toNat + 32 - 97 + 10, ?_, by omega⟩
    unfold digitVal
    rw [if_neg (by omega), hl, if_pos (by omega)]

theorem digitVal_none (c : Char) (h : ¬ isAlnum c) : digitVal c = none := by
  have h1 : ¬ (48 ≤ c.toNat ∧ c.toNat ≤ 57) := fun e => h (Or.inl e)
  have h2 : ¬ (97 ≤ lower c ∧ lower c ≤ 122) := by
    intro e
    by_cases hs : c.toNat < 128
    · exact h (Or.inr ((or32_small c.toNat hs).2.2.2 e))
    · have : 128 ≤ lower c := le_or32 c.toNat (by omega)
      omega
  unfold digitVal
  rw [if_neg h1, if_neg h2]

theorem digitVal_some_of_lower (c : Char) (h : 97 ≤ lower c ∧ lower c ≤ 122) :
    digitVal c ≠ none := by
  unfold digitVal
  by_cases h1 : 48 ≤ c.toNat ∧ c.toNat ≤ 57
  · rw [if_pos h1]; simp
  · rw [if_neg h1, if_pos h]; simp

theorem lower_dec (c : Char) (h : 48 ≤ c.toNat ∧ c.toNat ≤ 57) : lower c = c.toNat :=
  (or32_small c.toNat (by omega)).2.2.1 h

theorem le_digitsValue (b : Nat) (hb : 1 ≤ b) (ds : List Char) (n : Nat) :
    n ≤ digitsValue b ds n := by
  induction ds generalizing n with
  | nil => simp [digitsValue]
  | cons c cs ih =>
    have h1 := ih (n * b + (digitVal c).getD 0)
    have h2 : n ≤ n * b := Nat.le_mul_of_pos_right n hb
    simp only [digitsValue, List.foldl_cons] at h1 ⊢
    omega

theorem parseLoop_digits (base0 : Bool) (b : Nat) (hb : 2 ≤ b ∧ b ≤ 36) (ds : List Char)
    (hd : ∀ c ∈ ds, c ≠ '_' ∧ ∃ d, digitVal c = some d ∧ d < b) (n : Nat) (hn : n ≤ 255) :
    parseLoop base0 b (maxUint64 / b + 1) 255 ds n false =
      if digitsValue b ds n ≤ 255 then .ok (digitsValue b ds n, false) else .error .errRange := by
  induction ds generalizing n with
  | nil => simp [parseLoop, digitsValue, hn]
  | cons c cs ih =>
    obtain ⟨hc, d, hdv, hdb⟩ := hd c (by simp)
    have hcut : ¬ n ≥ maxUint64 / b + 1 := by
      have h1 : maxUint64 / 36 ≤ maxUint64 / b := Nat.div_le_div_left hb.2 (by omega)
      have h2 : maxUint64 / 36 = 512409557603043100 := by decide
      omega
    have hnb : n * b ≤ 255 * 36 := Nat.mul_le_mul hn hb.2
    have hm : (n * b) % (maxUint64 + 1) = n * b :=
      Nat.mod_eq_of_lt (by unfold maxUint64; omega)
    have hm1 : (n * b + d) % (maxUint64 + 1) = n * b + d :=
      Nat.mod_eq_of_lt (by unfold maxUint64; omega)
    have hval : digitsValue b (c :: cs) n = digitsValue b cs (n * b + d) := by
      simp [digitsValue, hdv]
    rw [parseLoop, if_neg (by simp [hc]), hdv]
    simp only [hm, hm1]
    rw [if_neg (by omega), if_neg hcut, hval]
    by_cases h255 : n * b + d > 255
    · rw [if_pos (Or.inr h255)]
      have := le_digitsValue b (by omega) cs (n * b + d)
      rw [if_neg (by omega)]
    · rw [if_neg (by omega), ih (fun x hx => hd x (List.mem_cons_of_mem _ hx)) _ (by omega)]

theorem parseLoop_le (base0 : Bool) (b cutoff : Nat) (ds : List Char) (n : Nat) (us : Bool)
    (v : Nat) (us2 : Bool) (hn : n ≤ 255)
    (h : parseLoop base0 b cutoff 255 ds n us = .ok (v, us2)) : v ≤ 255 := by
  induction ds generalizing n us with
  | nil =>
    simp only [parseLoop, Except.ok.injEq, Prod.mk.injEq] at h
    omega
  | cons c cs ih =>
    rw [parseLoop] at h
    by_cases h1 : c = '_' ∧ base0 = true
    · rw [if_pos h1] at h
      exact ih n true hn h
    · rw [if_neg h1] at h
      rcases hdv : digitVal c with _ | d
      · rw [hdv] at h; simp at h
      · rw [hdv] at h
        simp only at h
        by_cases h2 : d ≥ b
        · rw [if_pos h2] at h; simp at h
        · rw [if_neg h2] at h
          by_cases h3 : n ≥ cutoff
          · rw [if_pos h3] at h; simp at h
          · rw [if_neg h3] at h
            by_cases h4 : (n * b % (maxUint64 + 1) + d) % (maxUint64 + 1) <
                n * b % (maxUint64 + 1) ∨
                (n * b % (maxUint64 + 1) + d) % (maxUint64 + 1) > 255
            · rw [if_pos h4] at h; simp at h
            · rw [if_neg h4] at h
              exact ih _ us (by omega) h

theorem parseLoop_bad (base0 : Bool) (b cutoff maxVal : Nat) (ds : List Char)
    (h : ∃ c ∈ ds, digitVal c = none ∧ c ≠ '_') :
    ∀ n us, ∃ e, parseLoop base0 b cutoff maxVal ds n us = .error e := by
  induction ds with
  | nil => simp at h
  | cons c cs ih =>
    intro n us
    rw [parseLoop]
    by_cases h1 : c = '_' ∧ base0 = true
    · rw [if_pos h1]
      obtain ⟨x, hx, hxd, hxu⟩ := h
      rcases List.mem_cons.mp hx with rfl | hx
      · exact absurd h1.1 hxu
      · exact ih ⟨x, hx, hxd, hxu⟩ n true
    · rw [if_neg h1]
      rcases hdv : digitVal c with _ | d
      · exact ⟨_, rfl⟩
      · simp only
        by_cases h2 : d ≥ b
        · rw [if_pos h2]; exact ⟨_, rfl⟩
        · rw [if_neg h2]
          by_cases h3 : n ≥ cutoff
          · rw [if_pos h3]; exact ⟨_, rfl⟩
          · rw [if_neg h3]
            by_cases h4 : (n * b % (maxUint64 + 1) + d) % (maxUint64 + 1) <
                n * b % (maxUint64 + 1) ∨
                (n * b % (maxUint64 + 1) + d) % (maxUint64 + 1) > maxVal
            · rw [if_pos h4]; exact ⟨_, rfl⟩
            · rw [if_neg h4]
              obtain ⟨x, hx, hxd, hxu⟩ := h
              rcases List.mem_cons.mp hx with rfl | hx
              · rw [hdv] at hxd; simp at hxd
              · exact ih ⟨x, hx, hxd, hxu⟩ _ us

theorem ParseUint_base0 (p : Str) (hne : p ≠ []) :
    ParseUint p 0 8 =
      match parseLoop true (basePrefix p).1 (maxUint64 / (basePrefix p).1 + 1) 255
          (basePrefix p).2 0 false with
      | .error e => .error e
      | .ok (n, us) => if us = true ∧ underscoreOK p = false then .error .errSyntax else .ok n := by
  unfold ParseUint
  rw [if_neg hne]
  simp

theorem ParseUint_le (p : Str) (v : Nat) (h : ParseUint p 0 8 = .ok v) : v ≤ 255 := by
  by_cases hne : p = []
  · subst hne; simp [ParseUint] at h
  · rw [ParseUint_base0 p hne] at h
    rcases hl : parseLoop true (basePrefix p).1 (maxUint64 / (basePrefix p).1 + 1) 255
        (basePrefix p).2 0 false with e | ⟨n, us⟩
    · rw [hl] at h; simp at h
    · rw [hl] at h
      simp only at h
      by_cases hu : us = true ∧ underscoreOK p = false
      · rw [if_pos hu] at h; simp at h
      · rw [if_neg hu] at h
        simp only [Except.ok.injEq] at h
        subst h
        exact parseLoop_le _ _ _ _ _ _ _ _ (by omega) hl

theorem ParseUint_digits (p : Str) (b : Nat) (ds : List Char) (hne : p ≠ [])
    (hbp : basePrefix p = (b, ds)) (hb : 2 ≤ b ∧ b ≤ 36)
    (hd : ∀ c ∈ ds, c ≠ '_' ∧ ∃ d, digitVal c = some d ∧ d < b) :
    ParseUint p 0 8 =
      if digitsValue b ds 0 ≤ 255 then .ok (digitsValue b ds 0) else .error .errRange := by
  rw [ParseUint_base0 p hne, hbp]
  simp only
  rw [parseLoop_digits true b hb ds hd 0 (by omega)]
  by_cases h : digitsValue b ds 0 ≤ 255
  · simp [h]
  · simp [h]

theorem basePrefix_bad (p : Str) (c : Char) (hc : c ∈ p) (hd : digitVal c = none) :
    c ∈ (basePrefix p).2 := by
  have h0 : ∀ x : Char, x = '0' → digitVal x ≠ none := by
    intro x hx
    subst hx
    decide
  match p, hc with
  | [], hc => simp at hc
  | [c0], hc =>
    simp only [List.mem_singleton] at hc
    subst hc
    by_cases e : c = '0'
    · exact absurd hd (h0 c e)
    · simp [basePrefix, e]
  | c0 :: c1 :: rest, hc =>
    by_cases e : c0 = '0'
    · have hc0 : c ≠ c0 := fun e2 => h0 c (e2.trans e) hd
      have hmem : c = c1 ∨ c ∈ rest := by
        simp only [List.mem_cons] at hc
        rcases hc with hc | hc | hc
        · exact absurd hc hc0
        · exact Or.inl hc
        · exact Or.inr hc
      have hlow : ∀ k, 97 ≤ k ∧ k ≤ 122 → lower c1 = k → c ∈ rest := by
        intro k hk hl
        rcases hmem with rfl | h
        · exact absurd hd (digitVal_some_of_lower c (by omega))
        · exact h
      simp only [basePrefix, if_pos e]
      split_ifs with k1 k2 k3
      · exact hlow 98 (by omega) k1.2
      · exact hlow 111 (by omega) k2.2
      · exact hlow 120 (by omega) k3.2
      · simp only [List.mem_cons]
        exact hmem
    · simp only [basePrefix, if_neg e]
      exact hc

theorem ParseUint_bad (p : Str) (c : Char) (hc : c ∈ p) (hu : c ≠ '_') (ha : ¬ isAlnum c) :
    ∃ e, ParseUint p 0 8 = .error e := by
  have hne : p ≠ [] := List.ne_nil_of_mem hc
  have hd := digitVal_none c ha
  obtain ⟨e, he⟩ := parseLoop_bad true (basePrefix p).1 (maxUint64 / (basePrefix p).1 + 1) 255
    (basePrefix p).2 ⟨c, basePrefix_bad p c hc hd, hd, hu⟩ 0 false
  rw [ParseUint_base0 p hne, he]
  exact ⟨e, rfl⟩

/-! ## Number literals as plain parts -/

theorem numTokOK_spec (p : Str) (v : Nat) (h : numTokOK p v = true) :
    ' ' ∉ p ∧ '\n' ∉ p ∧ p ≠ [] ∧ commands p = none ∧ HasPrefix p quote = false ∧
      HasSuffix p quote = false ∧ p.head?.any isSpace = false ∧
      p.getLast?.any isSpace = false ∧ ParseUint p 0 8 = .ok v := by
  simp only [numTokOK, Bool.and_eq_true, Bool.not_eq_true', bne_iff_ne, ne_eq,
    Option.isNone_iff_eq_none] at h
  obtain ⟨⟨⟨⟨⟨⟨⟨⟨h1, h2⟩, h3⟩, h4⟩, h5⟩, h6⟩, h7⟩, h8⟩, h9⟩ := h
  refine ⟨by simpa using h1, by simpa using h2, h3, h4, h5, h6, h7, h8, ?_⟩
  rcases hP : ParseUint p 0 8 with e | n
  · rw [hP] at h9; simp at h9
  · rw [hP] at h9
    simp only [beq_iff_eq] at h9
    rw [h9]

theorem PlainTok_num (enc : Char → Nat) (p : Str) (v : Nat) (h : numTokOK p v = true) :
    PlainTok enc p [v] := by
  obtain ⟨h1, _, h3, h4, h5, h6, h7, h8, h9⟩ := numTokOK_spec p v h
  have hq : p ≠ quote := by
    intro e
    rw [e] at h5
    revert h5
    decide
  have hs : p ≠ [' '] := by
    intro e
    rw [e] at h1
    simp at h1
  have hv : v ≤ 255 := ParseUint_le p v h9
  refine ⟨h1, fun out => ?_, ?_, ?_⟩
  · rw [convertPart_main enc _ p hq h3 hs, if_neg (by simp), h4]
    simp only [h5, h6, h9]
    simp only [Bool.false_eq_true, and_self, if_false]
    rw [Nat.mod_eq_of_lt (by omega)]
  · intro c hc
    rw [hc] at h7
    simpa using h7
  · intro c hc
    rw [hc] at h8
    simpa using h8

/-- A document made of one number literal on a line of two characters or more. -/
theorem Convert_num_line (enc : Char → Nat) (p : Str) (v : Nat) (h : numTokOK p v = true)
    (hlen : 2 ≤ p.length) (hh : p.head? ≠ some (Char.ofNat 39)) :
    Convert enc (p ++ ['\n']) = ([v], none) := by
  have hnl : '\n' ∉ p := (numTokOK_spec p v h).2.1
  rw [Convert_line enc p hnl]
  have := convertLine_plain_back enc [] [(p, [v])]
    (by
      intro tv htv
      rw [List.mem_singleton.mp htv]
      exact PlainTok_num enc p v h)
    (by
      intro tv htv
      simp only [List.head?_cons, Option.some.injEq] at htv
      subst htv
      exact ⟨hlen, hh⟩)
    [] ['\n'] (by simp) (by decide)
  simpa [joinWith] using this

/-- A document made of one line that the guard of `Convert` skips. -/
theorem Convert_skip_line (enc : Char → Nat) (line : Str) (hl : '\n' ∉ line)
    (h : len (TrimSpace line) ≤ 1 ∨ HasPrefix (TrimSpace line) commentMarker = true) :
    Convert enc (line ++ ['\n']) = ([], none) := by
  rw [Convert_line enc line hl]
  unfold convertLine
  rw [TrimSpace_line, if_pos h]

set_option maxRecDepth 100000 in
theorem decimalNumeral_tok : ∀ v < 256, numTokOK (decimalNumeral v) v = true := by
  decide

set_option maxRecDepth 100000 in
theorem hexNumeral_tok : ∀ v < 256, numTokOK ('0' :: 'x' :: hexNumeral v) v = true := by
  decide

set_option maxRecDepth 100000 in
theorem hexNumeralUpper_tok :
    ∀ v < 256, numTokOK ('0' :: 'x' :: hexNumeralUpper v) v = true := by
  decide

set_option maxRecDepth 100000 in
theorem decimalNumeral_shape : ∀ v < 256,
    (decide (10 ≤ v) = true → decide (2 ≤ (decimalNumeral v).length) = true) ∧
    (decide (v ≤ 9) = true → decide (len (TrimSpace (decimalNumeral v)) ≤ 1) = true) ∧
    !((decimalNumeral v).elem '\n') = true ∧
    (decimalNumeral v).head? ≠ some (Char.ofNat 39) := by
  decide

/-- The numeral lines that are converted to their byte: `0x` with the hexadecimal
numeral of a byte, digits of either case, and the decimal numeral of a byte of 10 or
more. -/
theorem Convert_numeral_lines (enc : Char → Nat) (v : Nat) (hv : v ≤ 255) :
    Convert enc ('0' :: 'x' :: hexNumeral v ++ ['\n']) = ([v], none) ∧
    Convert enc ('0' :: 'x' :: hexNumeralUpper v ++ ['\n']) = ([v], none) ∧
    (10 ≤ v → Convert enc (decimalNumeral v ++ ['\n']) = ([v], none)) := by
  have hlt : v < 256 := by omega
  obtain ⟨s1, _, _, s4⟩ := decimalNumeral_shape v hlt
  refine ⟨?_, ?_, ?_⟩
  · exact Convert_num_line enc _ v (hexNumeral_tok v hlt) (by simp)
      (by rw [List.head?_cons]; decide)
  · exact Convert_num_line enc _ v (hexNumeralUpper_tok v hlt) (by simp)
      (by rw [List.head?_cons]; decide)
  · intro h10
    exact Convert_num_line enc _ v (decimalNumeral_tok v hlt)
      (by simpa using s1 (by simpa using h10)) s4

/-! ## The lines written by the builder methods -/

/-- A line that the guard of `Convert` skips, in front of a document. -/
theorem Convert_comment (enc : Char → Nat) (c rest : Str) (hc : '\n' ∉ c)
    (h : len (TrimSpace c) ≤ 1 ∨ HasPrefix (TrimSpace c) commentMarker = true) :
    Convert enc (c ++ '\n' :: rest) = Convert enc rest := by
  have h1 := Convert_skip_line enc c hc h
  have h2 := Convert_append enc (c ++ ['\n']) rest (Or.inr ⟨c, rfl⟩) (by rw [h1])
  rw [h1] at h2
  simpa using h2

/-- A line that starts with the comment marker is skipped, whatever follows it. -/
theorem HasPrefix_TrimSpace_marker (r : Str) :
    HasPrefix (TrimSpace (Char.ofNat 39 :: '/' :: '/' :: r)) commentMarker = true := by
  have h0 : isSpace (Char.ofNat 39) = false := by decide
  have h1 : isSpace '/' = false := by decide
  have hd : List.dropWhile isSpace (Char.ofNat 39 :: '/' :: '/' :: r) =
      Char.ofNat 39 :: '/' :: '/' :: r := by
    rw [List.dropWhile_cons, if_neg (by simp [h0])]
  have hr : (Char.ofNat 39 :: '/' :: '/' :: r).reverse =
      r.reverse ++ ['/', '/', Char.ofNat 39] := by simp
  have hk : List.dropWhile isSpace (['/', '/', Char.ofNat 39] : Str) =
      ['/', '/', Char.ofNat 39] := by decide
  unfold TrimSpace
  rw [hd, hr, List.dropWhile_append]
  by_cases he : (List.dropWhile isSpace r.reverse).isEmpty = true
  · rw [if_pos he, hk]
    rfl
  · rw [if_neg he]
    simp [HasPrefix, commentMarker]

/-- A document made of one indented line of plain parts whose first part has two
characters or more, the first of them not an apostrophe. -/
theorem Convert_plain_line (enc : Char → Nat) (tvs : List (Str × List Nat))
    (hplain : ∀ tv ∈ tvs, PlainTok enc tv.1 tv.2)
    (hhead : ∀ tv, tvs.head? = some tv → 2 ≤ tv.1.length ∧ tv.1.head? ≠ some (Char.ofNat 39))
    (hnl : ∀ tv ∈ tvs, '\n' ∉ tv.1) :
    Convert enc ([' ', ' ', ' ', ' '] ++ joinWith ' ' (tvs.map Prod.fst) ++ ['\n']) =
      ((tvs.map Prod.snd).flatten, none) := by
  have hno : '\n' ∉ [' ', ' ', ' ', ' '] ++ joinWith ' ' (tvs.map Prod.fst) := by
    simp only [List.mem_append, not_or]
    refine ⟨by decide, fun hc => ?_⟩
    rcases mem_joinWith _ _ _ hc with h1 | ⟨p, hp, hcp⟩
    · exact absurd h1 (by decide)
    · obtain ⟨tv, htv, rfl⟩ := List.mem_map.mp hp
      exact hnl tv htv hcp
  rw [Convert_line enc _ hno,
    convertLine_plain_back enc [] tvs hplain hhead _ _ (by decide) (by decide)]
  simp

theorem PlainTok_quoted_char (enc : Char → Nat) (c : Char) (hc : c ≠ ' ') :
    PlainTok enc ['"', c, '"'] (StringToAsciiBytes enc [c]) :=
  PlainTok_quoted enc [c] (by simp) (by simpa using fun e => hc e.symm)

theorem toLowerRune_eq (c : Char) (h : 97 ≤ c.toLower.toNat ∧ c.toLower.toNat ≤ 122) :
    toLowerRune c = c.toLower := by
  unfold toLowerRune
  have h1 : c ≠ Char.ofNat 0x130 := by
    intro e
    subst e
    revert h
    decide
  have h2 : c ≠ Char.ofNat 0x212A := by
    intro e
    subst e
    revert h
    decide
  rw [if_neg h1, if_neg h2]

/-- A mode that equals an ASCII lower-case word when its letters `A-Z` are lowered is
lowered to that word by `ToLower`. -/
theorem ToLower_eq (mode w : Str) (h : mode.map Char.toLower = w)
    (hw : ∀ c ∈ w, 97 ≤ c.toNat ∧ c.toNat ≤ 122) : ToLower mode = w := by
  unfold ToLower
  rw [← h]
  apply List.map_congr_left
  intro c hc
  apply toLowerRune_eq
  apply hw
  rw [← h]
  exact List.mem_map_of_mem _ hc

/-- What `Convert` yields on the text `Justification` writes for a mode that `ToLower`
takes to one of the four words. -/
theorem Convert_Justification_known (enc : Char → Nat) (mode w : Str) (k : Nat)
    (hk : (w, k) ∈ [("left".toList, 0), ("center".toList, 1), ("centered".toList, 1),
      ("right".toList, 2)])
    (h : ToLower mode = w) :
    Convert enc (Justification mode) = ([0x1B] ++ StringToAsciiBytes enc ['a'] ++ [k], none) := by
  simp only [List.mem_cons, Prod.mk.injEq, List.mem_singleton, List.not_mem_nil, or_false] at hk
  unfold Justification
  simp only [h]
  rcases hk with ⟨rfl, rfl⟩ | ⟨rfl, rfl⟩ | ⟨rfl, rfl⟩ | ⟨rfl, rfl⟩
  · rw [if_pos rfl]; rfl
  · rw [if_neg (by decide), if_pos (Or.inl rfl)]; rfl
  · rw [if_neg (by decide), if_pos (Or.inr rfl)]; rfl
  · rw [if_neg (by decide), if_neg (by decide), if_pos rfl]; rfl

/-- What `Convert` yields on the text `Justification` writes for a mode that `ToLower`
takes to none of the four words and that holds no newline: the comment is skipped. -/
theorem Convert_Justification_unknown (enc : Char → Nat) (mode : Str)
    (h : ToLower mode ∉ ["left".toList, "center".toList, "centered".toList, "right".toList])
    (hnl : '\n' ∉ mode) :
    Convert enc (Justification mode) = ([], none) := by
  simp only [List.mem_cons, List.mem_singleton, List.not_mem_nil, or_false, not_or] at h
  unfold Justification
  simp only []
  rw [if_neg h.1, if_neg (fun e => e.elim h.2.1 h.2.2.1), if_neg h.2.2.2]
  have hform : "'// ERROR: unknown justification: ".toList ++ mode ++ ['\n'] =
      (Char.ofNat 39 :: '/' :: '/' :: (" ERROR: unknown justification: ".toList ++ mode)) ++
        ['\n'] := rfl
  rw [hform]
  apply Convert_skip_line
  · simp only [List.mem_cons, List.mem_append, not_or]
    exact ⟨by decide, by decide, by decide, by decide, hnl⟩
  · exact Or.inr (HasPrefix_TrimSpace_marker _)

set_option maxRecDepth 100000 in
theorem characterSize_shape : ∀ a < 8, ∀ b < 8,
    numTokOK ("0x".toList ++ decimalNumeral a ++ decimalNumeral b) (16 * a + b) = true ∧
    !(("'// Character magnification Wx".toList ++ decimalNumeral ((a + 1) % 256) ++
      " Hx".toList ++ decimalNumeral ((b + 1) % 256)).elem '\n') = true := by
  decide

/-- What `Convert` yields on the text `CharacterSize` writes. -/
theorem Convert_CharacterSize (enc : Char → Nat) (width height : Nat) :
    Convert enc (CharacterSize width height) =
      ([0x1D] ++ StringToAsciiBytes enc ['!'] ++ [16 * min width 7 + min height 7], none) := by
  have hw : (if width > 7 then 7 else width) = min width 7 := by
    by_cases h : width > 7
    · rw [if_pos h]; omega
    · rw [if_neg h]; omega
  have hh : (if height > 7 then 7 else height) = min height 7 := by
    by_cases h : height > 7
    · rw [if_pos h]; omega
    · rw [if_neg h]; omega
  obtain ⟨htok, hcom⟩ := characterSize_shape (min width 7) (by omega) (min height 7) (by omega)
  simp only [CharacterSize, hw, hh]
  have hform : "'// Character magnification Wx".toList ++
      decimalNumeral ((min width 7 + 1) % 256) ++ " Hx".toList ++
      decimalNumeral ((min height 7 + 1) % 256) ++ ['\n'] ++
      ("    GS \"!\" 0x".toList ++ decimalNumeral (min width 7) ++
        decimalNumeral (min height 7) ++ ['\n']) =
      (Char.ofNat 39 :: '/' :: '/' :: (" Character magnification Wx".toList ++
        decimalNumeral ((min width 7 + 1) % 256) ++ " Hx".toList ++
        decimalNumeral ((min height 7 + 1) % 256))) ++ '\n' ::
      ([' ', ' ', ' ', ' '] ++ joinWith ' ' (List.map Prod.fst
        [(['G', 'S'], [0x1D]), (['"', '!', '"'], StringToAsciiBytes enc ['!']),
          ("0x".toList ++ decimalNumeral (min width 7) ++ decimalNumeral (min height 7),
            [16 * min width 7 + min height 7])]) ++ ['\n']) := by
    simp [joinWith]
  rw [hform, Convert_comment enc _ _ (by simpa using hcom)
    (Or.inr (HasPrefix_TrimSpace_marker _)), Convert_plain_line enc _ ?_ ?_ ?_]
  · simp
  · intro tv htv
    simp only [List.mem_cons, List.mem_singleton, List.not_mem_nil, or_false] at htv
    rcases htv with rfl | rfl | rfl
    · exact PlainTok_mnemonic enc _ _ rfl
    · exact PlainTok_quoted_char enc '!' (by decide)
    · exact PlainTok_num enc _ _ htok
  · intro tv htv
    simp only [List.head?_cons, Option.some.injEq] at htv
    subst htv
    decide
  · intro tv htv
    simp only [List.mem_cons, List.mem_singleton, List.not_mem_nil, or_false] at htv
    rcases htv with rfl | rfl | rfl
    · show '\n' ∉ ['G', 'S']
      decide
    · show '\n' ∉ ['"', '!', '"']
      decide
    · exact (numTokOK_spec _ _ htok).2.1

/-- What `Convert` yields on a comment line followed by an indented line of a mnemonic,
a quoted character, a numeral and the decimal numeral of a byte `n`. -/
theorem Convert_op_line4 (enc : Char → Nat) (c m : Str) (mv : Nat) (q : Char) (k : Str)
    (kv n : Nat) (hc : '\n' ∉ c) (hm : commands m = some mv) (hq : q ≠ ' ') (hq2 : q ≠ '\n')
    (hk : numTokOK k kv = true) (hn : n < 256) :
    Convert enc ((Char.ofNat 39 :: '/' :: '/' :: c) ++ '\n' ::
      ([' ', ' ', ' ', ' '] ++ m ++ [' ', '"', q, '"', ' '] ++ k ++ [' '] ++
        decimalNumeral n ++ ['\n'])) =
      ([mv] ++ StringToAsciiBytes enc [q] ++ [kv, n], none) := by
  have hform : [' ', ' ', ' ', ' '] ++ m ++ [' ', '"', q, '"', ' '] ++ k ++ [' '] ++
      decimalNumeral n ++ ['\n'] =
      [' ', ' ', ' ', ' '] ++ joinWith ' ' (List.map Prod.fst
        [(m, [mv]), (['"', q, '"'], StringToAsciiBytes enc [q]), (k, [kv]),
          (decimalNumeral n, [n])]) ++ ['\n'] := by
    simp [joinWith]
  have hms := commands_shape m mv hm
  rw [Convert_comment enc _ _ (by
      simp only [List.mem_cons, not_or]
      exact ⟨by decide, by decide, by decide, hc⟩)
    (Or.inr (HasPrefix_TrimSpace_marker _)), hform, Convert_plain_line enc _ ?_ ?_ ?_]
  · simp
  · intro tv htv
    simp only [List.mem_cons, List.mem_singleton, List.not_mem_nil, or_false] at htv
    rcases htv with rfl | rfl | rfl | rfl
    · exact PlainTok_mnemonic enc _ _ hm
    · exact PlainTok_quoted_char enc q hq
    · exact PlainTok_num enc _ _ hk
    · exact PlainTok_num enc _ _ (decimalNumeral_tok n hn)
  · intro tv htv
    simp only [List.head?_cons, Option.some.injEq] at htv
    subst htv
    exact ⟨hms.2.2.2.2.2.2.2.2.1, hms.2.2.2.2.2.2.2.2.2⟩
  · intro tv htv
    simp only [List.mem_cons, List.mem_singleton, List.not_mem_nil, or_false] at htv
    rcases htv with rfl | rfl | rfl | rfl
    · intro hmem
      have : (m, mv) ∈ commandTable := lookupKey_mem m mv _ hm
      revert hmem
      revert this
      generalize m = m0
      generalize mv = v0
      intro hin
      have hall : ∀ kv ∈ commandTable, '\n' ∉ kv.1 := by decide
      exact hall _ hin
    · simp only [List.mem_cons, List.mem_singleton, List.not_mem_nil, or_false, not_or]
      exact ⟨by decide, fun e => hq2 e.symm, by decide⟩
    · exact (numTokOK_spec _ _ hk).2.1
    · exact (numTokOK_spec _ _ (decimalNumeral_tok n hn)).2.1

/-- What `Convert` yields on the text `Cut` writes for a count of at most 255. -/
theorem Convert_Cut (enc : Char → Nat) (n : Nat) (full : Bool) (hn : n ≤ 255) :
    Convert enc (Cut n full) =
      ([0x1D] ++ StringToAsciiBytes enc ['V'] ++
        (if n = 0 then (if full = true then [0] else [1])
         else (if full = true then [65, n] else [66, n])), none) := by
  unfold Cut
  by_cases h0 : n = 0
  · subst h0
    cases full <;> rfl
  · rw [if_neg h0, if_neg h0]
    cases full
    · have := Convert_op_line4 enc " Feed and Cut Paper (partial cut)".toList ['G', 'S'] 0x1D
        'V' ['6', '6'] 66 n (by decide) rfl (by decide) (by decide) (by decide) (by omega)
      simpa [Fprintln] using this
    · have := Convert_op_line4 enc " Feed and Cut Paper (full cut)".toList ['G', 'S'] 0x1D
        'V' ['6', '5'] 65 n (by decide) rfl (by decide) (by decide) (by decide) (by omega)
      simpa [Fprintln] using this

/-! ## The shape of the text written by `Print` -/

theorem joinWith_Split (s : Str) (sep : Char) : joinWith sep (Split s sep) = s := by
  induction s with
  | nil => rfl
  | cons c cs ih =>
    by_cases hc : c = sep
    · simp only [Split, if_pos hc]
      cases h : Split cs sep with
      | nil => exact absurd h (Split_ne_nil _ _)
      | cons w ws =>
        rw [h] at ih
        simp only [joinWith, List.nil_append, ih, hc]
    · simp only [Split, if_neg hc]
      cases h : Split cs sep with
      | nil => exact absurd h (Split_ne_nil _ _)
      | cons w ws =>
        rw [h] at ih
        cases ws with
        | nil =>
          simp only [joinWith] at ih ⊢
          rw [ih]
        | cons w2 ws =>
          simp only [joinWith] at ih ⊢
          rw [← ih]
          rfl

theorem printTabs_joinStr (segs : List Str) :
    printTabs 0 segs [] = joinStr [' ', 'H', 'T', ' '] (segs.map quoted) := by
  induction segs with
  | nil => rfl
  | cons s rest ih =>
    cases rest with
    | nil =>
      simp only [printTabs, List.map_cons, List.map_nil, joinStr, quoted]
      simp
    | cons s2 rest =>
      have h0 : printTabs 0 (s :: s2 :: rest) [] = quoted s ++ printTabs 1 (s2 :: rest) [] := by
        rw [printTabs]
        simp only [Nat.lt_irrefl, if_false, List.nil_append]
        rw [printTabs_sink]
        rfl
      rw [h0, printTabs_one, ih]
      simp [joinStr]

theorem docOf_joinStr (l : Str) (ls : List Str) :
    docOf l ls =
      joinStr [' ', 'L', 'F', '\n']
        ((l :: ls).map (fun x => [' ', ' ', ' ', ' '] ++ lineText x)) ++ ['\n'] := by
  induction ls generalizing l with
  | nil => simp [docOf, joinStr]
  | cons l2 ls ih =>
    simp only [docOf, List.map_cons, joinStr]
    rw [ih l2]
    simp

theorem lineText_chars (l : Str) (c : Char) (h : c ∈ lineText l) :
    c ∈ [' ', '"', 'H', 'T'] ∨ ∃ s ∈ Split l '\t', c ∈ s := by
  rw [lineText_join (fun _ => 0) l] at h
  rcases mem_joinWith _ _ _ h with h1 | ⟨p, hp, hcp⟩
  · exact Or.inl (by simp [h1])
  · obtain ⟨tv, htv, rfl⟩ := List.mem_map.mp hp
    rcases tabParts_chars _ _ tv htv _ hcp with h2 | h2
    · refine Or.inl ?_
      simp only [List.mem_cons, List.mem_singleton, List.not_mem_nil, or_false] at h2 ⊢
      exact Or.inr h2
    · exact Or.inr h2

theorem docOf_chars (l : Str) (ls : List Str) (c : Char) (h : c ∈ docOf l ls) :
    c ∈ [' ', 'L', 'F', '\n'] ∨ ∃ x ∈ l :: ls, c ∈ lineText x := by
  induction ls generalizing l with
  | nil =>
    simp only [docOf, List.mem_append] at h
    rcases h with (h | h) | h
    · refine Or.inl ?_
      simp only [List.mem_cons, List.mem_singleton, List.not_mem_nil, or_false, or_self] at h
      simp [h]
    · exact Or.inr ⟨l, by simp, h⟩
    · refine Or.inl ?_
      simp only [List.mem_singleton] at h
      simp [h]
  | cons l2 ls ih =>
    simp only [docOf, List.mem_append] at h
    rcases h with ((h | h) | h) | h
    · refine Or.inl ?_
      simp only [List.mem_cons, List.mem_singleton, List.not_mem_nil, or_false, or_self] at h
      simp [h]
    · exact Or.inr ⟨l, by simp, h⟩
    · exact Or.inl h
    · rcases ih l2 h with h | ⟨x, hx, hc⟩
      · exact Or.inl h
      · exact Or.inr ⟨x, List.mem_cons_of_mem _ hx, hc⟩

theorem split_at_first (c : Char) (X R a b : Str) (hX : c ∉ X)
    (h : X ++ c :: R = a ++ c :: b) :
    (a = X ∧ b = R) ∨ ∃ a2, a = X ++ c :: a2 ∧ R = a2 ++ c :: b := by
  induction X generalizing a with
  | nil =>
    cases a with
    | nil =>
      simp only [List.nil_append, List.cons.injEq, true_and] at h
      exact Or.inl ⟨rfl, h.symm⟩
    | cons d a2 =>
      simp only [List.nil_append, List.cons_append, List.cons.injEq] at h
      exact Or.inr ⟨a2, by simp [h.1], h.2⟩
  | cons x X ih =>
    simp only [List.mem_cons, not_or] at hX
    cases a with
    | nil =>
      simp only [List.cons_append, List.nil_append, List.cons.injEq] at h
      exact absurd h.1.symm hX.1
    | cons d a2 =>
      simp only [List.cons_append, List.cons.injEq] at h
      rcases ih a2 hX.2 h.2 with ⟨h1, h2⟩ | ⟨a3, h1, h2⟩
      · exact Or.inl ⟨by simp [h.1, h1], h2⟩
      · exact Or.inr ⟨a3, by simp [h.1, h1], h2⟩

theorem docOf_newlines (l : Str) (ls : List Str) (hl : ∀ x ∈ l :: ls, '\n' ∉ lineText x)
    (a b : Str) (h : docOf l ls = a ++ '\n' :: b) (hb : b ≠ []) :
    ∃ a2, a = a2 ++ [' ', 'L', 'F'] := by
  induction ls generalizing l a with
  | nil =>
    have hX : '\n' ∉ [' ', ' ', ' ', ' '] ++ lineText l := by
      simp only [List.mem_append, not_or]
      exact ⟨by decide, hl l (by simp)⟩
    have h2 : ([' ', ' ', ' ', ' '] ++ lineText l) ++ '\n' :: [] = a ++ '\n' :: b := by
      rw [← h]; simp [docOf]
    rcases split_at_first '\n' _ _ a b hX h2 with ⟨_, h4⟩ | ⟨a2, _, h4⟩
    · exact absurd h4 hb
    · simp at h4
  | cons l2 ls ih =>
    have hX : '\n' ∉ [' ', ' ', ' ', ' '] ++ lineText l ++ [' ', 'L', 'F'] := by
      simp only [List.mem_append, not_or]
      exact ⟨⟨by decide, hl l (by simp)⟩, by decide⟩
    have h2 : ([' ', ' ', ' ', ' '] ++ lineText l ++ [' ', 'L', 'F']) ++ '\n' :: docOf l2 ls =
        a ++ '\n' :: b := by
      rw [← h]; simp [docOf]
    rcases split_at_first '\n' _ _ a b hX h2 with ⟨h3, _⟩ | ⟨a2, h3, h4⟩
    · exact ⟨_, h3⟩
    · obtain ⟨a3, h5⟩ := ih l2 (fun x hx => hl x (List.mem_cons_of_mem _ hx)) a2 h4
      exact ⟨([' ', ' ', ' ', ' '] ++ lineText l ++ [' ', 'L', 'F']) ++ '\n' :: a3, by
        rw [h3, h5]; simp⟩

/-! ## Parts converted without error -/

theorem convertParts_append (enc : Char → Nat) (st : LineState) (a b : List Str) :
    convertParts enc st (a ++ b) =
      match convertParts enc st a with
      | (st1, some e) => (st1, some e)
      | (st1, none) => convertParts enc st1 b := by
  induction a generalizing st with
  | nil => simp [convertParts]
  | cons p ps ih =>
    simp only [List.cons_append, convertParts]
    rcases h : convertPart enc st p with ⟨st1, _ | e⟩
    · simp only []
      exact ih st1
    · simp

theorem NoErr_append (enc : Char → Nat) (a b : List Str) (ha : NoErr enc a)
    (hb : NoErr enc b) : NoErr enc (a ++ b) := by
  intro st
  rw [convertParts_append]
  have h1 := ha st
  rcases h : convertParts enc st a with ⟨st1, _ | e⟩
  · simp only []
    exact hb st1
  · rw [h] at h1
    simp at h1

theorem NoErr_flatten (enc : Char → Nat) (tss : List (List Str))
    (h : ∀ ts ∈ tss, NoErr enc ts) : NoErr enc tss.flatten := by
  induction tss with
  | nil => intro st; rfl
  | cons ts tss ih =>
    rw [List.flatten_cons]
    exact NoErr_append enc _ _ (h ts (by simp))
      (ih (fun x hx => h x (List.mem_cons_of_mem _ hx)))

theorem NoErr_single (enc : Char → Nat) (p : Str)
    (h : ∀ st : LineState, (convertPart enc st p).2 = none) : NoErr enc [p] := by
  intro st
  have h1 := h st
  simp only [convertParts]
  rcases hp : convertPart enc st p with ⟨st1, _ | e⟩
  · rfl
  · rw [hp] at h1
    simp at h1

theorem NoErr_nil (enc : Char → Nat) : NoErr enc [[]] := by
  apply NoErr_single
  intro st
  rw [convertPart_nil]

theorem NoErr_mnemonic (enc : Char → Nat) (p : Str) (v : Nat) (h : commands p = some v) :
    NoErr enc [p] := by
  obtain ⟨_, h2, h3, h4, _⟩ := commands_shape p v h
  apply NoErr_single
  intro st
  rw [convertPart_main enc st p h2 h3 h4]
  by_cases hq : st.inQuote = true ∧ HasSuffix p quote = false
  · rw [if_pos hq]
  · rw [if_neg hq, h]

theorem Split_joinWith_pieces (ps : List Str) (hne : ps ≠ []) :
    Split (joinWith ' ' ps) ' ' = (ps.map (fun p => Split p ' ')).flatten := by
  induction ps with
  | nil => exact absurd rfl hne
  | cons p ps ih =>
    cases ps with
    | nil => simp [joinWith]
    | cons q ps =>
      simp only [joinWith]
      rw [Split_append_sep, ih (by simp)]
      simp

theorem Split_concat_ne (s : Str) (c sep : Char) (hc : c ≠ sep) :
    ∃ init l, Split s sep = init ++ [l] ∧ Split (s ++ [c]) sep = init ++ [l ++ [c]] := by
  induction s with
  | nil =>
    refine ⟨[], [], rfl, ?_⟩
    simp [Split, hc]
  | cons d s ih =>
    obtain ⟨init, l, h1, h2⟩ := ih
    by_cases hd : d = sep
    · refine ⟨[] :: init, l, ?_, ?_⟩
      · simp [Split, hd, h1]
      · rw [List.cons_append]
        simp [Split, hd, h2]
    · cases init with
      | nil =>
        refine ⟨[], d :: l, ?_, ?_⟩
        · simp only [Split, if_neg hd, h1]
          rfl
        · rw [List.cons_append]
          simp only [Split, if_neg hd, h2]
          rfl
      | cons i is =>
        refine ⟨(d :: i) :: is, l, ?_, ?_⟩
        · simp only [Split, if_neg hd, h1]
          rfl
        · rw [List.cons_append]
          simp only [Split, if_neg hd, h2]
          rfl

theorem convertPart_openTok (enc : Char → Nat) (st : LineState) (i : Str) (hq : '"' ∉ i) :
    ∃ out2, convertPart enc st ('"' :: i) = (⟨true, out2⟩, none) := by
  cases i with
  | nil => exact ⟨st.out, convertPart_quote enc st⟩
  | cons c cs =>
    have hs : HasSuffix ('"' :: c :: cs) quote = false := by
      apply HasSuffix_quote_false
      rw [List.getLast?_cons_cons]
      exact fun e => hq (getLast?_mem _ _ e)
    have hp : HasPrefix ('"' :: c :: cs) quote = true := by
      rw [quote, HasPrefix_cons]; simp
    rw [convertPart_main enc st _ (by simp [quote]) (by simp) (by simp)]
    by_cases hin : st.inQuote = true
    · rw [if_pos ⟨hin, hs⟩]
      exact ⟨_, by rw [hin]⟩
    · rw [if_neg (fun h => hin h.1), commands_quoted]
      simp only []
      rw [if_neg (by simp [hs]), if_pos hp]
      exact ⟨_, rfl⟩

theorem convertParts_midToks (enc : Char → Nat) (out : List Nat) (ws : List Str)
    (h : ∀ w ∈ ws, ' ' ∉ w ∧ '"' ∉ w) :
    ∃ out2, convertParts enc ⟨true, out⟩ ws = (⟨true, out2⟩, none) := by
  induction ws generalizing out with
  | nil => exact ⟨out, rfl⟩
  | cons w ws ih =>
    obtain ⟨hsp, hq⟩ := h w (by simp)
    have hrest := fun o => ih o (fun x hx => h x (List.mem_cons_of_mem _ hx))
    by_cases he : w = []
    · subst he
      simp only [convertParts, convertPart_nil, if_true]
      exact hrest _
    · have h1 : w ≠ quote := fun e => hq (by simp [e, quote])
      have h3 : w ≠ [' '] := fun e => hsp (by simp [e])
      have hs : HasSuffix w quote = false :=
        HasSuffix_quote_false w (fun e => hq (getLast?_mem w _ e))
      simp only [convertParts]
      rw [convertPart_main enc _ w h1 he h3, if_pos ⟨rfl, hs⟩]
      exact hrest _

theorem convertPart_closeTok (enc : Char → Nat) (st : LineState) (l : Str) (hq : '"' ∉ l) :
    (convertPart enc st (l ++ ['"'])).2 = none := by
  cases l with
  | nil =>
    have : ([] : Str) ++ ['"'] = quote := rfl
    rw [this, convertPart_quote]
  | cons c cs =>
    have hc : c ≠ '"' := fun e => hq (by simp [e])
    have hs : HasSuffix ((c :: cs) ++ ['"']) quote = true := by
      rw [quote, HasSuffix_concat]; simp
    have hp : HasPrefix ((c :: cs) ++ ['"']) quote = false := by
      rw [quote, List.cons_append, HasPrefix_cons]; simpa using hc
    have hm : commands ((c :: cs) ++ ['"']) = none := by
      rcases hcm : commands ((c :: cs) ++ ['"']) with _ | v
      · rfl
      · have := (commands_shape _ v hcm).2.2.2.2.2.2.2.1
        rw [List.getLast?_concat] at this
        exact absurd rfl this
    rw [convertPart_main enc st _ (by simp [quote]) (by simp) (by simp),
      if_neg (fun h => absurd (hs.symm.trans h.2) (by decide)), hm]
    simp only []
    rw [if_neg (fun h => absurd (hp.symm.trans h.1) (by decide)),
      if_neg (fun h => absurd (hp.symm.trans h) (by decide)), if_pos hs]

theorem convertPart_wholeTok (enc : Char → Nat) (st : LineState) (l : Str) :
    (convertPart enc st ('"' :: (l ++ ['"']))).2 = none := by
  have hs : HasSuffix ('"' :: (l ++ ['"'])) quote = true := by
    rw [quote, ← List.cons_append, HasSuffix_concat]; simp
  have hp : HasPrefix ('"' :: (l ++ ['"'])) quote = true := by
    rw [quote, HasPrefix_cons]; simp
  rw [convertPart_main enc st _ (by simp [quote]) (by simp) (by simp),
    if_neg (by simp [hs]), commands_quoted]
  simp only []
  rw [if_pos ⟨hp, hs⟩]

/-- The parts of a quoted literal without inner quote are converted without error from
every state. -/
theorem NoErr_quoted (enc : Char → Nat) (seg : Str) (hq : '"' ∉ seg) :
    NoErr enc (Split ('"' :: (seg ++ ['"'])) ' ') := by
  obtain ⟨init, l, h1, h2⟩ := Split_concat_ne seg '"' ' ' (by decide)
  have hall : ∀ w ∈ init ++ [l], ' ' ∉ w ∧ '"' ∉ w := by
    intro w hw
    rw [← h1] at hw
    exact ⟨Split_mem_no_sep seg ' ' w hw, fun hc => hq (Split_mem_subset seg ' ' w hw _ hc)⟩
  have hsplit : Split ('"' :: (seg ++ ['"'])) ' ' =
      match init ++ [l ++ ['"']] with
      | [] => [['"']]
      | w :: ws => ('"' :: w) :: ws := by
    rw [Split, if_neg (by decide), h2]
  rw [hsplit]
  cases init with
  | nil =>
    simp only [List.nil_append]
    exact NoErr_single enc _ (fun st => convertPart_wholeTok enc st l)
  | cons i is =>
    simp only [List.cons_append]
    intro st
    obtain ⟨o1, ho1⟩ := convertPart_openTok enc st i (hall i (by simp)).2
    obtain ⟨o2, ho2⟩ := convertParts_midToks enc o1 is
      (fun w hw => hall w (by simp [hw]))
    have hlast := convertPart_closeTok enc ⟨true, o2⟩ l (hall l (by simp)).2
    simp only [convertParts, ho1]
    rw [convertParts_append, ho2]
    simp only [convertParts]
    rcases hp : convertPart enc ⟨true, o2⟩ (l ++ ['"']) with ⟨st1, _ | e⟩
    · rfl
    · rw [hp] at hlast
      simp at hlast

/-! ## Lines made of safe pieces -/

theorem convertLine_core (enc : Char → Nat) (out : List Nat) (pad1 core pad2 : Str)
    (h1 : ∀ c ∈ pad1, isSpace c = true) (h2 : ∀ c ∈ pad2, isSpace c = true)
    (hh : ∀ c, core.head? = some c → isSpace c = false ∧ c ≠ Char.ofNat 39)
    (hl : ∀ c, core.getLast? = some c → isSpace c = false) (hlen : 2 ≤ core.length) :
    convertLine enc out (pad1 ++ core ++ pad2) =
      ((convertParts enc ⟨false, out⟩ (Split core ' ')).1.out,
        (convertParts enc ⟨false, out⟩ (Split core ' ')).2) := by
  unfold convertLine
  rw [TrimSpace_core pad1 _ pad2 h1 h2 (fun c hc => (hh c hc).1) hl]
  have hlen2 : ¬ len core ≤ 1 := by
    have := length_le_len core
    omega
  have hpre : HasPrefix core commentMarker = false :=
    HasPrefix_commentMarker _ (fun e => (hh _ e).2 rfl)
  rw [if_neg (by simp [hlen2, hpre])]

/-- A line of safe pieces whose first piece is not empty is converted without error. -/
theorem convertLine_safe_back (enc : Char → Nat) (out : List Nat) (ps : List Str) :
    (∀ p ∈ ps, SafePiece enc p) → (∀ p, ps.head? = some p → p ≠ []) →
    ∀ pad1 pad2 : Str, (∀ c ∈ pad1, isSpace c = true) → (∀ c ∈ pad2, isSpace c = true) →
    (convertLine enc out (pad1 ++ joinWith ' ' ps ++ pad2)).2 = none := by
  induction ps using List.reverseRecOn with
  | nil =>
    intro _ _ pad1 pad2 h1 h2
    simp only [joinWith, List.append_nil]
    rw [convertLine_blank]
    intro c hc
    rcases List.mem_append.mp hc with hc | hc
    · exact h1 c hc
    · exact h2 c hc
  | append_singleton ps p ih =>
    intro hsafe hhead pad1 pad2 h1 h2
    by_cases hemp : p = []
    · have hps : ps ≠ [] := by
        intro e
        subst e
        exact hhead p rfl hemp
      have hhead2 : ∀ x, ps.head? = some x → x ≠ [] := by
        intro x hx
        apply hhead
        rw [List.head?_append_of_ne_nil _ hps]
        exact hx
      have := ih (fun x hx => hsafe x (by simp [hx])) hhead2 pad1 (' ' :: pad2) h1
        (by
          intro c hc
          rcases List.mem_cons.mp hc with rfl | hc
          · decide
          · exact h2 c hc)
      rw [hemp, joinWith_append ' ' _ _ hps (by simp)]
      simp only [joinWith]
      rw [← this]
      simp [List.append_assoc]
    · obtain ⟨x, rest, hx⟩ : ∃ x rest, ps ++ [p] = x :: rest := by
        cases hh : ps ++ [p] with
        | nil => simp at hh
        | cons x rest => exact ⟨x, rest, rfl⟩
      have hxne : x ≠ [] := hhead x (by rw [hx]; rfl)
      have hxs : SafePiece enc x := hsafe x (by rw [hx]; simp)
      have hps : SafePiece enc p := hsafe p (by simp)
      rw [convertLine_core enc out pad1 _ pad2 h1 h2 ?_ ?_ ?_]
      · simp only
        rw [Split_joinWith_pieces _ (by simp)]
        apply NoErr_flatten
        intro ts hts
        obtain ⟨y, hy, rfl⟩ := List.mem_map.mp hts
        exact (hsafe y hy).1
      · intro c hc
        rw [hx, joinWith_head ' ' _ _ hxne] at hc
        exact hxs.2.1 c hc
      · intro c hc
        rw [joinWith_getLast ' ' _ _ hemp] at hc
        exact hps.2.2.1 c hc
      · rw [hx]
        have := joinWith_length ' ' x rest
        have := hxs.2.2.2 hxne
        omega

/-- A line of safe pieces, possibly with empty pieces in front, is converted without
error. -/
theorem convertLine_safe (enc : Char → Nat) (out : List Nat) (ps : List Str) :
    (∀ p ∈ ps, SafePiece enc p) →
    ∀ pad1 pad2 : Str, (∀ c ∈ pad1, isSpace c = true) → (∀ c ∈ pad2, isSpace c = true) →
    (convertLine enc out (pad1 ++ joinWith ' ' ps ++ pad2)).2 = none := by
  induction ps with
  | nil =>
    intro h pad1 pad2 h1 h2
    exact convertLine_safe_back enc out [] h (by simp) pad1 pad2 h1 h2
  | cons p ps ih =>
    intro hsafe pad1 pad2 h1 h2
    by_cases hemp : p = []
    · subst hemp
      cases ps with
      | nil =>
        simp only [joinWith, List.append_nil]
        rw [convertLine_blank]
        intro c hc
        rcases List.mem_append.mp hc with hc | hc
        · exact h1 c hc
        · exact h2 c hc
      | cons p2 ps =>
        have := ih (fun x hx => hsafe x (List.mem_cons_of_mem _ hx)) (pad1 ++ [' ']) pad2
          (by
            intro c hc
            rcases List.mem_append.mp hc with hc | hc
            · exact h1 c hc
            · rw [List.mem_singleton.mp hc]; decide)
          h2
        simp only [joinWith, List.nil_append] at this ⊢
        rw [← this]
        simp [List.append_assoc]
    · exact convertLine_safe_back enc out (p :: ps) hsafe
        (fun x hx => by
          simp only [List.head?_cons, Option.some.injEq] at hx
          subst hx
          exact hemp) pad1 pad2 h1 h2

theorem SafePiece_nil (enc : Char → Nat) : SafePiece enc [] :=
  ⟨NoErr_nil enc, by simp, by simp, fun h => absurd rfl h⟩

theorem SafePiece_mnemonic (enc : Char → Nat) (p : Str) (v : Nat) (h : commands p = some v) :
    SafePiece enc p := by
  obtain ⟨h1, _, _, _, h5, h6, _, _, h9, h10⟩ := commands_shape p v h
  refine ⟨?_, ?_, ?_, fun _ => h9⟩
  · rw [Split_of_not_mem p ' ' h1]
    exact NoErr_mnemonic enc p v h
  · intro c hc
    rw [hc] at h5 h10
    exact ⟨by simpa using h5, fun e => h10 (by rw [e])⟩
  · intro c hc
    rw [hc] at h6
    simpa using h6

theorem SafePiece_quoted (enc : Char → Nat) (s : Str) (hq : '"' ∉ s) :
    SafePiece enc (quoted s) := by
  by_cases he : s = []
  · subst he
    exact SafePiece_nil enc
  · have hform : quoted s = '"' :: (s ++ ['"']) := by
      unfold quoted
      rw [if_pos ((len_pos_iff s).mpr he)]
      rfl
    rw [hform]
    refine ⟨NoErr_quoted enc s hq, ?_, ?_, fun _ => by simp⟩
    · intro c hc
      simp only [List.head?_cons, Option.some.injEq] at hc
      subst hc
      decide
    · intro c hc
      rw [← List.cons_append, List.getLast?_concat] at hc
      simp only [Option.some.injEq] at hc
      subst hc
      decide

theorem tabParts_safe (enc : Char → Nat) (segs : List Str) (h : ∀ s ∈ segs, '"' ∉ s) :
    ∀ tv ∈ tabParts enc segs, SafePiece enc tv.1 := by
  induction segs with
  | nil => simp [tabParts]
  | cons s rest ih =>
    cases rest with
    | nil =>
      intro tv htv
      simp only [tabParts, List.mem_singleton] at htv
      subst htv
      exact SafePiece_quoted enc s (h s (by simp))
    | cons s2 rest =>
      intro tv htv
      simp only [tabParts, List.mem_cons] at htv
      rcases htv with rfl | rfl | htv
      · exact SafePiece_quoted enc s (h s (by simp))
      · exact SafePiece_mnemonic enc _ _ rfl
      · exact ih (fun x hx => h x (List.mem_cons_of_mem _ hx)) tv htv

theorem convertLine_lineText_safe (enc : Char → Nat) (out : List Nat) (l : Str)
    (h : '"' ∉ l) :
    (convertLine enc out ([' ', ' ', ' ', ' '] ++ lineText l ++ ['\n'])).2 = none ∧
    (convertLine enc out ([' ', ' ', ' ', ' '] ++ lineText l ++ [' ', 'L', 'F', '\n'])).2 =
      none := by
  have hs : ∀ s ∈ Split l '\t', '"' ∉ s := fun s hs hc => h (Split_mem_subset l '\t' s hs _ hc)
  have hp : ∀ p ∈ (tabParts enc (Split l '\t')).map Prod.fst, SafePiece enc p := by
    intro p hp
    obtain ⟨tv, htv, rfl⟩ := List.mem_map.mp hp
    exact tabParts_safe enc _ hs tv htv
  have hne : (tabParts enc (Split l '\t')).map Prod.fst ≠ [] := by
    cases hsplit : Split l '\t' with
    | nil => exact absurd hsplit (Split_ne_nil _ _)
    | cons s rest => exact tabParts_ne_nil enc s rest
  refine ⟨?_, ?_⟩
  · rw [lineText_join enc l]
    exact convertLine_safe enc out _ hp _ _ (by decide) (by decide)
  · have htext : [' ', ' ', ' ', ' '] ++ lineText l ++ [' ', 'L', 'F', '\n'] =
        [' ', ' ', ' ', ' '] ++
          joinWith ' ' ((tabParts enc (Split l '\t')).map Prod.fst ++ [['L', 'F']]) ++
          ['\n'] := by
      rw [joinWith_append ' ' _ _ hne (by simp), lineText_join enc l]
      simp [joinWith]
    rw [htext]
    refine convertLine_safe enc out _ ?_ _ _ (by decide) (by decide)
    intro p hpm
    rcases List.mem_append.mp hpm with hpm | hpm
    · exact hp p hpm
    · rw [List.mem_singleton.mp hpm]
      exact SafePiece_mnemonic enc _ _ rfl

theorem Convert_docOf_safe (enc : Char → Nat) (l : Str) (ls : List Str)
    (h : ∀ x ∈ l :: ls, '"' ∉ x ∧ '\n' ∉ x) : (Convert enc (docOf l ls)).2 = none := by
  induction ls generalizing l with
  | nil =>
    have hl := h l (by simp)
    simp only [docOf]
    rw [Convert_line enc _ (by
      simp only [List.mem_append, not_or]
      exact ⟨by decide, lineText_no_nl l hl.2⟩)]
    exact (convertLine_lineText_safe enc [] l hl.1).1
  | cons l2 ls ih =>
    have hl := h l (by simp)
    have hrest := ih l2 (fun x hx => h x (List.mem_cons_of_mem _ hx))
    have hfirst : (Convert enc ([' ', ' ', ' ', ' '] ++ lineText l ++ [' ', 'L', 'F', '\n'])).2 =
        none := by
      have e : [' ', ' ', ' ', ' '] ++ lineText l ++ [' ', 'L', 'F', '\n'] =
          ([' ', ' ', ' ', ' '] ++ lineText l ++ [' ', 'L', 'F']) ++ ['\n'] := by simp
      rw [e, Convert_line enc _ (by
        simp only [List.mem_append, not_or]
        exact ⟨⟨by decide, lineText_no_nl l hl.2⟩, by decide⟩), ← e]
      exact (convertLine_lineText_safe enc [] l hl.1).2
    simp only [docOf]
    rw [Convert_append enc _ _ (Or.inr ⟨[' ', ' ', ' ', ' '] ++ lineText l ++ [' ', 'L', 'F'],
      by simp⟩) hfirst]
    exact hrest

/-- The text `Print` writes for a text without double quote is converted without error. -/
theorem Convert_Print_safe (enc : Char → Nat) (t : Str) (h : '"' ∉ t) :
    (Convert enc (Print t)).2 = none := by
  cases hs : Split t '\n' with
  | nil => exact absurd hs (Split_ne_nil _ _)
  | cons l ls =>
    rw [Print_doc t l ls hs]
    apply Convert_docOf_safe
    intro x hx
    rw [← hs] at hx
    exact ⟨fun hc => h (Split_mem_subset t '\n' x hx _ hc), Split_mem_no_sep t '\n' x hx⟩

/-! ## Sequences of builder calls -/

/-- A comment line followed by an indented line of plain parts. -/
theorem Convert_comment_plain (enc : Char → Nat) (c : Str) (tvs : List (Str × List Nat))
    (hc : '\n' ∉ c) (hplain : ∀ tv ∈ tvs, PlainTok enc tv.1 tv.2)
    (hhead : ∀ tv, tvs.head? = some tv → 2 ≤ tv.1.length ∧ tv.1.head? ≠ some (Char.ofNat 39))
    (hnl : ∀ tv ∈ tvs, '\n' ∉ tv.1) :
    Convert enc ((Char.ofNat 39 :: '/' :: '/' :: c) ++ '\n' ::
      ([' ', ' ', ' ', ' '] ++ joinWith ' ' (tvs.map Prod.fst) ++ ['\n'])) =
      ((tvs.map Prod.snd).flatten, none) := by
  rw [Convert_comment enc _ _ (by
      simp only [List.mem_cons, not_or]
      exact ⟨by decide, by decide, by decide, hc⟩)
    (Or.inr (HasPrefix_TrimSpace_marker _)), Convert_plain_line enc tvs hplain hhead hnl]

/-- A comment line followed by an indented line `ESC`, a quoted character and the decimal
numeral of a byte. -/
theorem Convert_op_line3 (enc : Char → Nat) (c : Str) (q : Char) (n : Nat)
    (hc : '\n' ∉ c) (hq : q ≠ ' ') (hq2 : q ≠ '\n') (hn : n < 256) :
    Convert enc ((Char.ofNat 39 :: '/' :: '/' :: c) ++ '\n' ::
      ([' ', ' ', ' ', ' ', 'E', 'S', 'C', ' ', '"', q, '"', ' '] ++ decimalNumeral n ++
        ['\n'])) =
      ([0x1B] ++ StringToAsciiBytes enc [q] ++ [n], none) := by
  have hform : [' ', ' ', ' ', ' ', 'E', 'S', 'C', ' ', '"', q, '"', ' '] ++
      decimalNumeral n ++ ['\n'] =
      [' ', ' ', ' ', ' '] ++ joinWith ' ' (List.map Prod.fst
        [(['E', 'S', 'C'], [0x1B]), (['"', q, '"'], StringToAsciiBytes enc [q]),
          (decimalNumeral n, [n])]) ++ ['\n'] := by
    simp [joinWith]
  rw [hform, Convert_comment_plain enc c _ hc ?_ ?_ ?_]
  · simp
  · intro tv htv
    simp only [List.mem_cons, List.mem_singleton, List.not_mem_nil, or_false] at htv
    rcases htv with rfl | rfl | rfl
    · exact PlainTok_mnemonic enc _ _ rfl
    · exact PlainTok_quoted_char enc q hq
    · exact PlainTok_num enc _ _ (decimalNumeral_tok n hn)
  · intro tv htv
    simp only [List.head?_cons, Option.some.injEq] at htv
    subst htv
    decide
  · intro tv htv
    simp only [List.mem_cons, List.mem_singleton, List.not_mem_nil, or_false] at htv
    rcases htv with rfl | rfl | rfl
    · show '\n' ∉ ['E', 'S', 'C']
      decide
    · simp only [List.mem_cons, List.mem_singleton, List.not_mem_nil, or_false, not_or]
      exact ⟨by decide, fun e => hq2 e.symm, by decide⟩
    · exact (numTokOK_spec _ _ (decimalNumeral_tok n hn)).2.1

/-- What `Convert` yields on the text `CharacterFont` writes. -/
theorem Convert_CharacterFont (enc : Char → Nat) (n : Nat) (hn : n < 256) :
    Convert enc (CharacterFont n) = ([0x1B] ++ StringToAsciiBytes enc ['M'] ++ [n], none) := by
  have hcom : ∃ c, '\n' ∉ c ∧
      (if n = 0 ∨ n = 48 then Fprintln "'// Select Font A".toList
       else if n = 1 ∨ n = 49 then Fprintln "'// Select Font B".toList
       else if n = 2 ∨ n = 50 then Fprintln "'// Select Font C".toList
       else if n = 3 ∨ n = 51 then Fprintln "'// Select Font D".toList
       else if n = 4 ∨ n = 52 then Fprintln "'// Select Font D".toList
       else if n = 97 then Fprintln "'// Select Special Font A".toList
       else if n = 98 then Fprintln "'// Select Special Font B".toList
       else Fprintln "'// WARNING: Select Unknown Font".toList) =
      (Char.ofNat 39 :: '/' :: '/' :: c) ++ ['\n'] := by
    split_ifs <;> exact ⟨_, by decide, rfl⟩
  obtain ⟨c, hc, he⟩ := hcom
  have := Convert_op_line3 enc c 'M' n hc (by decide) (by decide) hn
  unfold CharacterFont
  rw [he]
  simpa using this

/-- What `Convert` yields on the text `PrintFeed` writes. -/
theorem Convert_PrintFeed (enc : Char → Nat) (n : Nat) (hn : n < 256) :
    Convert enc (PrintFeed n) = ([0x1B] ++ StringToAsciiBytes enc ['J'] ++ [n], none) := by
  have := Convert_op_line3 enc " Print and feed".toList 'J' n (by decide) (by decide)
    (by decide) hn
  unfold PrintFeed
  simp only []
  rw [if_neg (by omega)]
  simpa [Fprintln] using this

/-- What `Convert` yields on the text `PrintFeedLines` writes. -/
theorem Convert_PrintFeedLines (enc : Char → Nat) (n : Nat) (hn : n < 256) :
    Convert enc (PrintFeedLines n) = ([0x1B] ++ StringToAsciiBytes enc ['d'] ++ [n], none) := by
  have := Convert_op_line3 enc " Print and feed lines".toList 'd' n (by decide) (by decide)
    (by decide) hn
  unfold PrintFeedLines
  simp only []
  rw [if_neg (by omega)]
  simpa [Fprintln] using this

/-- What `Convert` yields on the text `LineSpacing` writes. -/
theorem Convert_LineSpacing (enc : Char → Nat) (n : Nat) (hn : n < 256) :
    Convert enc (LineSpacing n) = ([0x1B, 3, n], none) := by
  have hform : LineSpacing n =
      (Char.ofNat 39 :: '/' :: '/' :: " Set Line Spacing".toList) ++ '\n' ::
      ([' ', ' ', ' ', ' '] ++ joinWith ' ' (List.map Prod.fst
        [(['E', 'S', 'C'], [0x1B]), (['3'], [3]), (decimalNumeral n, [n])]) ++ ['\n']) := by
    simp [LineSpacing, Fprintln, joinWith]
  rw [hform, Convert_comment_plain enc _ _ (by decide) ?_ ?_ ?_]
  · simp
  · intro tv htv
    simp only [List.mem_cons, List.mem_singleton, List.not_mem_nil, or_false] at htv
    rcases htv with rfl | rfl | rfl
    · exact PlainTok_mnemonic enc _ _ rfl
    · exact PlainTok_num enc _ _ (by decide)
    · exact PlainTok_num enc _ _ (decimalNumeral_tok n hn)
  · intro tv htv
    simp only [List.head?_cons, Option.some.injEq] at htv
    subst htv
    decide
  · intro tv htv
    simp only [List.mem_cons, List.mem_singleton, List.not_mem_nil, or_false] at htv
    rcases htv with rfl | rfl | rfl
    · show '\n' ∉ ['E', 'S', 'C']
      decide
    · show '\n' ∉ ['3']
      decide
    · exact (numTokOK_spec _ _ (decimalNumeral_tok n hn)).2.1

theorem Terminated_concat (a : Str) : Terminated (a ++ ['\n']) := Or.inr ⟨a, rfl⟩

theorem Terminated_append (a b : Str) (ha : Terminated a) (hb : Terminated b) :
    Terminated (a ++ b) := by
  rcases hb with rfl | ⟨q, rfl⟩
  · simpa using ha
  · exact Or.inr ⟨a ++ q, by simp⟩

theorem Terminated_append_concat (a b : Str) : Terminated (a ++ (b ++ ['\n'])) :=
  Or.inr ⟨a ++ b, by simp⟩

theorem Op_run_terminated (op : Op) : Terminated op.run := by
  cases op with
  | initializePrinter => exact Terminated_append_concat _ _
  | characterFont n => exact Terminated_append_concat _ _
  | justification mode =>
    simp only [Op.run, Justification]
    split_ifs
    · exact Terminated_append_concat _ _
    · exact Terminated_append_concat _ _
    · exact Terminated_append_concat _ _
    · exact Terminated_concat _
  | home doPrint => cases doPrint <;> exact Terminated_append_concat _ _
  | cut n full =>
    simp only [Op.run, Cut]
    split_ifs <;> exact Terminated_append_concat _ _
  | strong enabled => cases enabled <;> exact Terminated_append_concat _ _
  | characterSize w h => exact Terminated_append_concat _ _
  | defaultLineSpacing => exact Terminated_append_concat _ _
  | lineSpacing n => exact Terminated_append_concat _ _
  | print line => exact Terminated_concat _
  | printFeed n => exact Terminated_append_concat _ _
  | printFeedLines n => exact Terminated_append_concat _ _

/-- The text of one call with well-typed arguments under the restriction is converted
without error. -/
theorem Op_run_safe (enc : Char → Nat) (op : Op) (hw : op.wellTyped) (hc : op.convertible) :
    (Convert enc op.run).2 = none := by
  cases op with
  | initializePrinter => rfl
  | characterFont n => simp only [Op.run]; rw [Convert_CharacterFont enc n hw]
  | justification mode =>
    simp only [Op.run]
    by_cases hk : ToLower mode ∈
        ["left".toList, "center".toList, "centered".toList, "right".toList]
    · have : ∃ k, (ToLower mode, k) ∈ [("left".toList, 0), ("center".toList, 1),
          ("centered".toList, 1), ("right".toList, 2)] := by
        simp only [List.mem_cons, List.mem_singleton, List.not_mem_nil, or_false] at hk
        rcases hk with h | h | h | h
        · exact ⟨0, by simp [h]⟩
        · exact ⟨1, by simp [h]⟩
        · exact ⟨1, by simp [h]⟩
        · exact ⟨2, by simp [h]⟩
      obtain ⟨k, hk2⟩ := this
      rw [Convert_Justification_known enc mode _ k hk2 rfl]
    · rw [Convert_Justification_unknown enc mode hk hc]
  | home doPrint => cases doPrint <;> rfl
  | cut n full => simp only [Op.run]; rw [Convert_Cut enc n full hc]
  | strong enabled => cases enabled <;> rfl
  | characterSize w h => simp only [Op.run]; rw [Convert_CharacterSize]
  | defaultLineSpacing => rfl
  | lineSpacing n => simp only [Op.run]; rw [Convert_LineSpacing enc n hw]
  | print line => exact Convert_Print_safe enc line hc
  | printFeed n => simp only [Op.run]; rw [Convert_PrintFeed enc n hw]
  | printFeedLines n => simp only [Op.run]; rw [Convert_PrintFeedLines enc n hw]

theorem Convert_runOps_safe (enc : Char → Nat) (ops : List Op)
    (h : ∀ op ∈ ops, op.wellTyped ∧ op.convertible) :
    ∀ out, Terminated out → (Convert enc out).2 = none →
      (Convert enc (runOps out ops)).2 = none := by
  induction ops with
  | nil => intro out _ hok; exact hok
  | cons op ops ih =>
    intro out ht hok
    obtain ⟨hw, hc⟩ := h op (by simp)
    simp only [runOps]
    apply ih (fun x hx => h x (List.mem_cons_of_mem _ hx))
    · exact Terminated_append _ _ ht (Op_run_terminated op)
    · rw [Convert_append enc out _ ht hok]
      exact Op_run_safe enc op hw hc

/-! ## A line that begins with a quote and never closes it -/

theorem TrimSpace_cons (c : Char) (r : Str) (hc : isSpace c = false) :
    TrimSpace (c :: r) = c :: (r.reverse.dropWhile isSpace).reverse := by
  unfold TrimSpace
  rw [List.dropWhile_cons, if_neg (by simp [hc]), List.reverse_cons, List.dropWhile_append]
  by_cases he : (List.dropWhile isSpace r.reverse).isEmpty = true
  · have h0 : List.dropWhile isSpace r.reverse = [] := List.isEmpty_iff.mp he
    rw [if_pos he, h0, List.dropWhile_cons, if_neg (by simp [hc])]
    rfl
  · rw [if_neg he]
    simp

theorem TrimSpace_pad (pad s : Str) (h : ∀ c ∈ pad, isSpace c = true) :
    TrimSpace (pad ++ s) = TrimSpace s := by
  unfold TrimSpace
  rw [List.dropWhile_append_of_pos h]

/-- A line that, after leading white space, begins with a double quote and holds no
other double quote is converted without error. -/
theorem convertLine_quoteLine (enc : Char → Nat) (out : List Nat) (pad rest : Str)
    (hpad : ∀ c ∈ pad, isSpace c = true) (hq : '"' ∉ rest) :
    (convertLine enc out (pad ++ '"' :: rest)).2 = none := by
  have hr : ∀ c ∈ (rest.reverse.dropWhile isSpace).reverse, c ∈ rest := by
    intro c hc
    rw [List.mem_reverse] at hc
    exact List.mem_reverse.mp ((List.dropWhile_sublist isSpace).subset hc)
  unfold convertLine
  rw [TrimSpace_pad pad _ hpad, TrimSpace_cons '"' rest (by decide)]
  by_cases hskip : len ('"' :: (rest.reverse.dropWhile isSpace).reverse) ≤ 1 ∨
      HasPrefix ('"' :: (rest.reverse.dropWhile isSpace).reverse) commentMarker = true
  · rw [if_pos hskip]
  · rw [if_neg hskip]
    simp only
    rw [Split, if_neg (by decide)]
    cases hs : Split (rest.reverse.dropWhile isSpace).reverse ' ' with
    | nil => exact absurd hs (Split_ne_nil _ _)
    | cons w ws =>
      have hall : ∀ x ∈ w :: ws, ' ' ∉ x ∧ '"' ∉ x := by
        intro x hx
        rw [← hs] at hx
        exact ⟨Split_mem_no_sep _ ' ' x hx,
          fun hc => hq (hr _ (Split_mem_subset _ ' ' x hx _ hc))⟩
      obtain ⟨o1, ho1⟩ := convertPart_openTok enc ⟨false, out⟩ w (hall w (by simp)).2
      obtain ⟨o2, ho2⟩ := convertParts_midToks enc o1 ws
        (fun x hx => hall x (List.mem_cons_of_mem _ hx))
      simp only [convertParts, ho1, ho2]

/-! ## Claims -/

/-- C1, counterexample: for the text `A`, `Convert` on the text written by `Print` does
not yield the transliteration of `A` followed by an LF byte, whatever the character map:
no LF byte is written. -/
theorem C1_counterexample :
    ¬ ∃ enc : Char → Nat,
      Convert enc (Print ['A']) = (StringToAsciiBytes enc ['A'] ++ [0x0A], none) := by
  rintro ⟨enc, h⟩
  have h2 : Convert enc (Print ['A']) = ([enc 'A'], none) := rfl
  rw [h2] at h
  simp [StringToAsciiBytes] at h

/-- C1, amended: for every text `t` without tab, newline, double quote and space,
`Convert` on the text written by `Print t` succeeds and yields exactly the
transliteration of `t`; no LF byte follows. -/
theorem C1_round_trip (enc : Char → Nat) (t : Str) (htab : '\t' ∉ t) (hnl : '\n' ∉ t)
    (_hq : '"' ∉ t) (hsp : ' ' ∉ t) :
    Convert enc (Print t) = (StringToAsciiBytes enc t, none) := by
  rw [Convert_Print enc t hsp, Split_of_not_mem t '\n' hnl]
  simp [lineBytes, Split_of_not_mem t '\t' htab, joinWith]

/-- C1, worked instance: the text `Hello`. -/
theorem C1_round_trip_witness :
    '\t' ∉ ['H', 'e', 'l', 'l', 'o'] ∧ '\n' ∉ ['H', 'e', 'l', 'l', 'o'] ∧
    '"' ∉ ['H', 'e', 'l', 'l', 'o'] ∧ ' ' ∉ ['H', 'e', 'l', 'l', 'o'] ∧
    Convert sampleEnc (Print ['H', 'e', 'l', 'l', 'o']) =
      (StringToAsciiBytes sampleEnc ['H', 'e', 'l', 'l', 'o'], none) :=
  ⟨by decide, by decide, by decide, by decide,
    C1_round_trip sampleEnc ['H', 'e', 'l', 'l', 'o'] (by decide) (by decide) (by decide)
      (by decide)⟩

/-- C2, the code at the failing input: on the line `"Hello World" LF` the sink receives
the bytes of `Hello`, the bytes of `World` and LF, with no byte for the space between
the two words; this is not the transliteration of `Hello World` followed by LF. -/
theorem C2_quote_spanning_code (enc : Char → Nat) :
    Convert enc ['"', 'H', 'e', 'l', 'l', 'o', ' ', 'W', 'o', 'r', 'l', 'd', '"', ' ', 'L', 'F',
        '\n'] =
      (StringToAsciiBytes enc ['H', 'e', 'l', 'l', 'o'] ++
        StringToAsciiBytes enc ['W', 'o', 'r', 'l', 'd'] ++ [0x0A], none) ∧
    Convert enc ['"', 'H', 'e', 'l', 'l', 'o', ' ', 'W', 'o', 'r', 'l', 'd', '"', ' ', 'L', 'F',
        '\n'] ≠
      (StringToAsciiBytes enc ['H', 'e', 'l', 'l', 'o', ' ', 'W', 'o', 'r', 'l', 'd'] ++ [0x0A],
        none) := by
  refine ⟨rfl, ?_⟩
  intro h
  have h2 : Convert enc ['"', 'H', 'e', 'l', 'l', 'o', ' ', 'W', 'o', 'r', 'l', 'd', '"', ' ',
      'L', 'F', '\n'] =
      (StringToAsciiBytes enc ['H', 'e', 'l', 'l', 'o'] ++
        StringToAsciiBytes enc ['W', 'o', 'r', 'l', 'd'] ++ [0x0A], none) := rfl
  rw [h2] at h
  have := congrArg (fun r => r.1.length) h
  simp [StringToAsciiBytes] at this

/-- C3, counterexample: `Convert` on the text written by `Print` for `A<tab>B<newline>C`
does not yield `[A, 0x09, B, 0x0A, C, 0x0A]`, whatever the character map: there is no
final LF byte. -/
theorem C3_counterexample :
    ¬ ∃ enc : Char → Nat,
      Convert enc (Print ['A', '\t', 'B', '\n', 'C']) =
        ([enc 'A', 0x09, enc 'B', 0x0A, enc 'C', 0x0A], none) := by
  rintro ⟨enc, h⟩
  have h2 : Convert enc (Print ['A', '\t', 'B', '\n', 'C']) =
      ([enc 'A', 0x09, enc 'B', 0x0A, enc 'C'], none) := rfl
  rw [h2] at h
  simp at h

/-- C3, amended: for a text made of segments without space, double quote, tab and
newline, the segments of a line separated by tabs and the lines by newlines, `Convert` on
the text written by `Print` yields the transliterated segments in order, with one HT byte
for each tab and one LF byte for each newline; no final LF byte follows. -/
theorem C3_tab_newline_splitting (enc : Char → Nat) (segss : List (List Str))
    (hne : segss ≠ []) (hne2 : ∀ segs ∈ segss, segs ≠ [])
    (hfree : ∀ segs ∈ segss, ∀ s ∈ segs, ' ' ∉ s ∧ '"' ∉ s ∧ '\t' ∉ s ∧ '\n' ∉ s) :
    Convert enc (Print (joinWith '\n' (segss.map (joinWith '\t')))) =
      (joinWith 0x0A (segss.map (fun segs => joinWith 0x09 (segs.map (StringToAsciiBytes enc)))),
        none) := by
  have hsp : ' ' ∉ joinWith '\n' (segss.map (joinWith '\t')) := by
    intro hc
    rcases mem_joinWith _ _ _ hc with h1 | ⟨p, hp, hcp⟩
    · exact absurd h1 (by decide)
    · obtain ⟨segs, hsegs, rfl⟩ := List.mem_map.mp hp
      rcases mem_joinWith _ _ _ hcp with h1 | ⟨s, hs, hcs⟩
      · exact absurd h1 (by decide)
      · exact (hfree segs hsegs s hs).1 hcs
  have hnl : ∀ p ∈ segss.map (joinWith '\t'), '\n' ∉ p := by
    intro p hp hc
    obtain ⟨segs, hsegs, rfl⟩ := List.mem_map.mp hp
    rcases mem_joinWith _ _ _ hc with h1 | ⟨s, hs, hcs⟩
    · exact absurd h1 (by decide)
    · exact (hfree segs hsegs s hs).2.2.2 hcs
  rw [Convert_Print enc _ hsp, Split_joinWith '\n' _ (by simpa using hne) hnl, List.map_map]
  congr 2
  apply List.map_congr_left
  intro segs hsegs
  simp only [Function.comp, lineBytes]
  rw [Split_joinWith '\t' segs (hne2 segs hsegs) (fun s hs => (hfree segs hsegs s hs).2.2.1)]

/-- C3, worked instance: `Print` of `A<tab>B<newline>C` then `Convert` yields exactly
`[A, 0x09, B, 0x0A, C]`. -/
theorem C3_tab_newline_splitting_witness :
    ([[['A'], ['B']], [['C']]] : List (List Str)) ≠ [] ∧
    (∀ segs ∈ ([[['A'], ['B']], [['C']]] : List (List Str)), segs ≠ []) ∧
    (∀ segs ∈ ([[['A'], ['B']], [['C']]] : List (List Str)), ∀ s ∈ segs,
      ' ' ∉ s ∧ '"' ∉ s ∧ '\t' ∉ s ∧ '\n' ∉ s) ∧
    joinWith '\n' (([[['A'], ['B']], [['C']]] : List (List Str)).map (joinWith '\t')) =
      ['A', '\t', 'B', '\n', 'C'] ∧
    Convert sampleEnc
        (Print (joinWith '\n' (([[['A'], ['B']], [['C']]] : List (List Str)).map (joinWith '\t')))) =
      (joinWith 0x0A (([[['A'], ['B']], [['C']]] : List (List Str)).map
        (fun segs => joinWith 0x09 (segs.map (StringToAsciiBytes sampleEnc)))), none) ∧
    joinWith 0x0A (([[['A'], ['B']], [['C']]] : List (List Str)).map
        (fun segs => joinWith 0x09 (segs.map (StringToAsciiBytes sampleEnc)))) =
      [sampleEnc 'A', 0x09, sampleEnc 'B', 0x0A, sampleEnc 'C'] :=
  ⟨by decide, by decide, by decide, rfl,
    C3_tab_newline_splitting sampleEnc [[['A'], ['B']], [['C']]] (by decide) (by decide)
      (by decide), rfl⟩

/-- C4: for every mnemonic `m` with documented value `v`, the table gives `v` for `m`
and `Convert` on the document `m` plus newline succeeds and writes exactly the byte `v`. -/
theorem C4_mnemonic_lines (enc : Char → Nat) (m : Str) (v : Nat)
    (h : (m, v) ∈ ([(['E', 'O', 'T'], 0x04), (['E', 'N', 'Q'], 0x05), (['H', 'T'], 0x09),
      (['D', 'L', 'E'], 0x10), (['L', 'F'], 0x0A), (['F', 'F'], 0x0C), (['C', 'R'], 0x0D),
      (['D', 'C', '4'], 0x14), (['C', 'A', 'N'], 0x18), (['E', 'S', 'C'], 0x1B),
      (['F', 'S'], 0x1C), (['G', 'S'], 0x1D), (['S', 'P'], 0x20)] : List (Str × Nat))) :
    commands m = some v ∧ Convert enc (m ++ ['\n']) = ([v], none) := by
  simp only [List.mem_cons, Prod.mk.injEq, List.mem_singleton, List.not_mem_nil, or_false] at h
  rcases h with ⟨rfl, rfl⟩ | ⟨rfl, rfl⟩ | ⟨rfl, rfl⟩ | ⟨rfl, rfl⟩ | ⟨rfl, rfl⟩ | ⟨rfl, rfl⟩ |
    ⟨rfl, rfl⟩ | ⟨rfl, rfl⟩ | ⟨rfl, rfl⟩ | ⟨rfl, rfl⟩ | ⟨rfl, rfl⟩ | ⟨rfl, rfl⟩ | ⟨rfl, rfl⟩ <;>
    exact ⟨rfl, rfl⟩

/-- C4, worked instance: the document `ESC` plus newline yields the byte 0x1B. -/
theorem C4_mnemonic_lines_witness :
    ((['E', 'S', 'C'], 0x1B) ∈ ([(['E', 'O', 'T'], 0x04), (['E', 'N', 'Q'], 0x05),
      (['H', 'T'], 0x09), (['D', 'L', 'E'], 0x10), (['L', 'F'], 0x0A), (['F', 'F'], 0x0C),
      (['C', 'R'], 0x0D), (['D', 'C', '4'], 0x14), (['C', 'A', 'N'], 0x18),
      (['E', 'S', 'C'], 0x1B), (['F', 'S'], 0x1C), (['G', 'S'], 0x1D), (['S', 'P'], 0x20)] :
      List (Str × Nat))) ∧
    commands ['E', 'S', 'C'] = some 0x1B ∧
    Convert sampleEnc (['E', 'S', 'C'] ++ ['\n']) = ([0x1B], none) :=
  ⟨by decide, C4_mnemonic_lines sampleEnc ['E', 'S', 'C'] 0x1B (by decide)⟩

/-- C5, the code at the failing input: the document made of the decimal numeral `5` and
a newline is skipped by the guard on lines of length at most 1, so no byte is written;
this is not the byte 5 that the same digit yields in `ESC 5` and in `05`. -/
theorem C5_single_digit_code (enc : Char → Nat) :
    decimalNumeral 5 = ['5'] ∧
    Convert enc (decimalNumeral 5 ++ ['\n']) = ([], none) ∧
    Convert enc (decimalNumeral 5 ++ ['\n']) ≠ ([5], none) ∧
    Convert enc ['E', 'S', 'C', ' ', '5', '\n'] = ([0x1B, 5], none) ∧
    Convert enc ['0', '5', '\n'] = ([5], none) := by
  refine ⟨rfl, rfl, ?_, rfl, rfl⟩
  intro h
  have h2 : Convert enc (decimalNumeral 5 ++ ['\n']) = ([], none) := rfl
  rw [h2] at h
  simp at h

/-- C6, counterexample: the part `010` consists of decimal digits, yet the byte written
is 8 and not 10; the part `0b11` is neither a decimal nor a `0x` literal, yet `Convert`
does not fail on it. -/
theorem C6_counterexample :
    (¬ ∃ enc : Char → Nat, (Convert enc ['0', '1', '0', '\n']).1 = [10]) ∧
    (¬ ∃ enc : Char → Nat, (Convert enc ['0', 'b', '1', '1', '\n']).2 ≠ none) := by
  refine ⟨?_, ?_⟩
  · rintro ⟨enc, h⟩
    have h2 : Convert enc ['0', '1', '0', '\n'] = ([8], none) := rfl
    rw [h2] at h
    simp at h
  · rintro ⟨enc, h⟩
    exact h rfl

/-- C6, amended: a part met outside a quote that is not empty, holds no space, is not a
mnemonic and has no quote at either end is resolved by `ParseUint` with base 0 and 8
bits: a byte with the value is written on success, and `Convert` fails with the parse
error otherwise.  A part of decimal digits that does not begin with `0` (or is `0`) is
read in base 10, a part `0x` or `0X` followed by hexadecimal digits in base 16, and a
part `0` followed by octal digits in base 8; each gives its value when that is at most
255 and a range error above.  A part that holds a character other than a letter, a
digit or an underscore fails. -/
theorem C6_numeric_rule (enc : Char → Nat) (st : LineState) (p : Str)
    (hq : st.inQuote = false) (hne : p ≠ []) (hsp : ' ' ∉ p) (hm : commands p = none)
    (hpre : HasPrefix p quote = false) (hsuf : HasSuffix p quote = false) :
    (convertPart enc st p =
      match ParseUint p 0 8 with
      | .ok v => ({ st with out := st.out ++ [v] }, none)
      | .error e => (st, some (.parseNumber p e))) ∧
    ((∀ c ∈ p, isDecDigit c) → (p = ['0'] ∨ p.head? ≠ some '0') →
      ParseUint p 0 8 =
        if digitsValue 10 p 0 ≤ 255 then .ok (digitsValue 10 p 0) else .error .errRange) ∧
    (∀ x h, (x = 'x' ∨ x = 'X') → p = '0' :: x :: h → h ≠ [] → (∀ c ∈ h, isHexDigit c) →
      ParseUint p 0 8 =
        if digitsValue 16 h 0 ≤ 255 then .ok (digitsValue 16 h 0) else .error .errRange) ∧
    (∀ o, p = '0' :: o → o ≠ [] → (∀ c ∈ o, isOctDigit c) →
      ParseUint p 0 8 =
        if digitsValue 8 o 0 ≤ 255 then .ok (digitsValue 8 o 0) else .error .errRange) ∧
    ((∃ c ∈ p, c ≠ '_' ∧ ¬ isAlnum c) → ∃ e, ParseUint p 0 8 = .error e) := by
  have h1 : p ≠ quote := by
    intro e
    rw [e] at hpre
    revert hpre
    decide
  have h3 : p ≠ [' '] := by
    intro e
    rw [e] at hsp
    simp at hsp
  have hdec : ∀ c : Char, isDecDigit c → c ≠ '_' ∧ ∃ d, digitVal c = some d ∧ d < 10 := by
    intro c hc
    unfold isDecDigit at hc
    exact ⟨ne_of_toNat_ne _ _ (by
      have : ('_' : Char).toNat = 95 := by decide
      omega), _, digitVal_dec c hc, by omega⟩
  refine ⟨?_, ?_, ?_, ?_, ?_⟩
  · rw [convertPart_main enc st p h1 hne h3, if_neg (by simp [hq]), hm]
    simp only [hpre, hsuf, Bool.false_eq_true, and_self, if_false]
    rcases hP : ParseUint p 0 8 with e | v
    · rfl
    · have hv : v ≤ 255 := ParseUint_le p v hP
      simp only
      rw [Nat.mod_eq_of_lt (by omega)]
  · intro hd hz
    rcases hz with rfl | hz
    · rfl
    · have hbp : basePrefix p = (10, p) := by
        match p, hne, hz with
        | [c0], _, hz =>
          have : c0 ≠ '0' := fun e => hz (by simp [e])
          simp [basePrefix, this]
        | c0 :: c1 :: rest, _, hz =>
          have : c0 ≠ '0' := fun e => hz (by simp [e])
          simp [basePrefix, this]
      exact ParseUint_digits p 10 p hne hbp (by omega) (fun c hc => hdec c (hd c hc))
  · intro x h hx hp hh hd
    have hl : lower x = 120 := by
      rcases hx with rfl | rfl <;> decide
    have hbp : basePrefix p = (16, h) := by
      subst hp
      cases h with
      | nil => exact absurd rfl hh
      | cons a as => simp [basePrefix, hl]
    refine ParseUint_digits p 16 h hne hbp (by omega) (fun c hc => ?_)
    refine ⟨ne_of_toNat_ne _ _ ?_, digitVal_hex c (hd c hc)⟩
    have : ('_' : Char).toNat = 95 := by decide
    have := hd c hc
    unfold isHexDigit at this
    omega
  · intro o hp ho hd
    have hbp : basePrefix p = (8, o) := by
      subst hp
      cases o with
      | nil => exact absurd rfl ho
      | cons a as =>
        have ha := hd a (by simp)
        unfold isOctDigit at ha
        have hl : lower a = a.toNat := lower_dec a (by omega)
        simp only [basePrefix, if_true, hl]
        rw [if_neg (by omega), if_neg (by omega), if_neg (by omega)]
    refine ParseUint_digits p 8 o hne hbp (by omega) (fun c hc => ?_)
    have hc2 := hd c hc
    unfold isOctDigit at hc2
    obtain ⟨hu, _⟩ := hdec c (by unfold isDecDigit; omega)
    exact ⟨hu, _, digitVal_dec c (by omega), by omega⟩
  · rintro ⟨c, hc, hu, ha⟩
    exact ParseUint_bad p c hc hu ha

/-- C6, worked instance: the part `0x1B` outside a quote writes the byte 27. -/
theorem C6_numeric_rule_witness :
    (⟨false, []⟩ : LineState).inQuote = false ∧ (['0', 'x', '1', 'B'] : Str) ≠ [] ∧
    ' ' ∉ ['0', 'x', '1', 'B'] ∧ commands ['0', 'x', '1', 'B'] = none ∧
    HasPrefix ['0', 'x', '1', 'B'] quote = false ∧
    HasSuffix ['0', 'x', '1', 'B'] quote = false ∧
    convertPart sampleEnc ⟨false, []⟩ ['0', 'x', '1', 'B'] = (⟨false, [27]⟩, none) ∧
    ParseUint ['0', 'x', '1', 'B'] 0 8 = .ok (digitsValue 16 ['1', 'B'] 0) :=
  ⟨rfl, by decide, by decide, by decide, by decide, by decide, by decide,
    (C6_numeric_rule sampleEnc ⟨false, []⟩ ['0', 'x', '1', 'B'] rfl (by decide) (by decide)
      (by decide) (by decide) (by decide)).2.2.1 'x' ['1', 'B'] (Or.inl rfl) rfl (by decide)
      (by
        intro c hc
        simp only [List.mem_cons, List.mem_singleton, List.not_mem_nil, or_false] at hc
        rcases hc with rfl | rfl <;> decide)⟩

/-- C7, counterexample: the one-line document `"abc` plus newline opens a quote that is
never closed, and `Convert` returns no error on it, whatever the character map. -/
theorem C7_counterexample :
    ¬ ∃ enc : Char → Nat, (Convert enc ['"', 'a', 'b', 'c', '\n']).2 ≠ none := by
  rintro ⟨enc, h⟩
  exact h rfl

/-- C7, amended: `Convert` does not report a quote left open.  After a document `d` that
is empty or ends with a newline and converts without error, a last line that, after
leading white space, begins with a double quote and holds no other double quote makes
`Convert` return no error. -/
theorem C7_open_quote_no_error (enc : Char → Nat) (d pad rest : Str)
    (ht : d = [] ∨ ∃ q, d = q ++ ['\n']) (hok : (Convert enc d).2 = none)
    (hpad : ∀ c ∈ pad, isSpace c = true ∧ c ≠ '\n')
    (hq : '"' ∉ rest) (hnl : '\n' ∉ rest) :
    (Convert enc (d ++ (pad ++ '"' :: rest ++ ['\n']))).2 = none := by
  have hline : '\n' ∉ pad ++ '"' :: rest := by
    simp only [List.mem_append, List.mem_cons, not_or]
    exact ⟨fun hc => (hpad _ hc).2 rfl, by decide, hnl⟩
  have hform : pad ++ '"' :: rest ++ ['\n'] = pad ++ '"' :: (rest ++ ['\n']) := by simp
  rw [Convert_append enc d _ ht hok, Convert_line enc _ hline, hform]
  exact convertLine_quoteLine enc [] pad (rest ++ ['\n']) (fun c hc => (hpad c hc).1)
    (by
      simp only [List.mem_append, List.mem_singleton, not_or]
      exact ⟨hq, by decide⟩)

/-- C7, worked instance: the document `ESC`, newline, two spaces, `"abc de`, newline
returns no error. -/
theorem C7_open_quote_no_error_witness :
    ((['E', 'S', 'C', '\n'] : Str) = [] ∨ ∃ q, (['E', 'S', 'C', '\n'] : Str) = q ++ ['\n']) ∧
    (Convert sampleEnc ['E', 'S', 'C', '\n']).2 = none ∧
    (∀ c ∈ [' ', ' '], isSpace c = true ∧ c ≠ '\n') ∧
    '"' ∉ ['a', 'b', 'c', ' ', 'd', 'e'] ∧ '\n' ∉ ['a', 'b', 'c', ' ', 'd', 'e'] ∧
    (Convert sampleEnc (['E', 'S', 'C', '\n'] ++
      ([' ', ' '] ++ '"' :: ['a', 'b', 'c', ' ', 'd', 'e'] ++ ['\n']))).2 = none :=
  ⟨Or.inr ⟨['E', 'S', 'C'], rfl⟩, by decide, by decide, by decide, by decide,
    C7_open_quote_no_error sampleEnc ['E', 'S', 'C', '\n'] [' ', ' ']
      ['a', 'b', 'c', ' ', 'd', 'e'] (Or.inr ⟨['E', 'S', 'C'], rfl⟩) (by decide) (by decide)
      (by decide) (by decide)⟩

/-- C8: when `Convert` fails, the document splits into a terminated prefix `pre` that
converts without error, the failing line, and a rest; the parts of the failing line split
into the parts `ts` before the failing part `p` and those after it; the failing part
leaves the sink as it found it, and the sink holds exactly the bytes of `pre` followed by
the bytes of `ts`, in order. -/
theorem C8_no_rollback (enc : Char → Nat) (doc : Str) (e : ConvError)
    (h : (Convert enc doc).2 = some e) :
    ∃ pre line rest ts p ts2 st,
      doc = pre ++ line ++ '\n' :: rest ∧ (pre = [] ∨ ∃ q, pre = q ++ ['\n']) ∧ '\n' ∉ line ∧
      (Convert enc pre).2 = none ∧
      Split (TrimSpace (line ++ ['\n'])) ' ' = ts ++ p :: ts2 ∧
      convertParts enc ⟨false, []⟩ ts = (st, none) ∧
      convertPart enc st p = (st, some e) ∧
      (Convert enc doc).1 = (Convert enc pre).1 ++ st.out := by
  rcases hd : Convert enc doc with ⟨o, e1⟩
  rw [hd] at h
  simp only at h
  subst h
  have hd1 := hd
  unfold Convert ConvertFrom at hd1
  obtain ⟨rs1, r, rs2, o1, h1, h2, h3⟩ := convertRecords_error enc [] o _ e hd1
  obtain ⟨pre, line, rest, k1, k2, k3, k4, k5, k6⟩ := readRecords_split doc rs1 r rs2 h1
  have hpre : Convert enc pre = (o1, none) := by
    unfold Convert ConvertFrom
    rw [k4]; exact h2
  subst k5
  rw [convertLine_sink] at h3
  unfold convertLine at h3
  by_cases hskip : len (TrimSpace (line ++ ['\n'])) ≤ 1 ∨
      HasPrefix (TrimSpace (line ++ ['\n'])) commentMarker = true
  · rw [if_pos hskip] at h3
    simp at h3
  · rw [if_neg hskip] at h3
    simp only [Prod.mk.injEq] at h3
    rcases hp : convertParts enc ⟨false, []⟩ (Split (TrimSpace (line ++ ['\n'])) ' ')
      with ⟨st1, e2⟩
    rw [hp] at h3
    simp only at h3
    obtain ⟨h3a, h3b⟩ := h3
    subst h3b
    obtain ⟨ts, p, ts2, m1, m2, m3⟩ := convertParts_error enc _ st1 _ e hp
    refine ⟨pre, line, rest, ts, p, ts2, st1, k1, k2, k3, ?_, m1, m2, m3, ?_⟩
    · rw [hpre]
    · rw [hpre]; exact h3a.symm

/-- C8, worked instance: the document `ESC 256` plus newline leaves exactly the byte 0x1B
and returns an error. -/
theorem C8_no_rollback_witness :
    Convert sampleEnc ['E', 'S', 'C', ' ', '2', '5', '6', '\n'] =
        ([0x1B], some (.parseNumber ['2', '5', '6'] .errRange)) ∧
    ∃ pre line rest ts p ts2 st,
      ['E', 'S', 'C', ' ', '2', '5', '6', '\n'] = pre ++ line ++ '\n' :: rest ∧
      (pre = [] ∨ ∃ q, pre = q ++ ['\n']) ∧ '\n' ∉ line ∧
      (Convert sampleEnc pre).2 = none ∧
      Split (TrimSpace (line ++ ['\n'])) ' ' = ts ++ p :: ts2 ∧
      convertParts sampleEnc ⟨false, []⟩ ts = (st, none) ∧
      convertPart sampleEnc st p = (st, some (.parseNumber ['2', '5', '6'] .errRange)) ∧
      (Convert sampleEnc ['E', 'S', 'C', ' ', '2', '5', '6', '\n']).1 =
        (Convert sampleEnc pre).1 ++ st.out :=
  ⟨by decide, C8_no_rollback sampleEnc _ _ (by decide)⟩

/-- C9: for a document `d1` that is empty or ends with a newline and converts without
error, the bytes written for `d1 ++ d2` are the bytes for `d1` followed by the bytes for
`d2`, and the error returned for `d1 ++ d2` is the one returned for `d2` (so one fails
exactly when the other does); `d1` may end with a line that leaves a quote open. -/
theorem C9_line_independence (enc : Char → Nat) (d1 d2 : Str)
    (ht : d1 = [] ∨ ∃ q, d1 = q ++ ['\n']) (hok : (Convert enc d1).2 = none) :
    (Convert enc (d1 ++ d2)).1 = (Convert enc d1).1 ++ (Convert enc d2).1 ∧
    (Convert enc (d1 ++ d2)).2 = (Convert enc d2).2 ∧
    ((Convert enc (d1 ++ d2)).2 = none ↔ (Convert enc d2).2 = none) := by
  rw [Convert_append enc d1 d2 ht hok]
  exact ⟨rfl, rfl, Iff.rfl⟩

/-- C9, worked instance: a first line `"a` that leaves its quote open, then the line
`LF`, which is still read as the mnemonic. -/
theorem C9_line_independence_witness :
    ((['"', 'a', '\n'] : Str) = [] ∨ ∃ q, (['"', 'a', '\n'] : Str) = q ++ ['\n']) ∧
    (Convert sampleEnc ['"', 'a', '\n']).2 = none ∧
    (Convert sampleEnc (['"', 'a', '\n'] ++ ['L', 'F', '\n'])).1 =
      (Convert sampleEnc ['"', 'a', '\n']).1 ++ (Convert sampleEnc ['L', 'F', '\n']).1 ∧
    (Convert sampleEnc (['"', 'a', '\n'] ++ ['L', 'F', '\n'])).2 =
      (Convert sampleEnc ['L', 'F', '\n']).2 ∧
    ((Convert sampleEnc (['"', 'a', '\n'] ++ ['L', 'F', '\n'])).2 = none ↔
      (Convert sampleEnc ['L', 'F', '\n']).2 = none) :=
  ⟨Or.inr ⟨['"', 'a'], rfl⟩, by decide,
    C9_line_independence sampleEnc ['"', 'a', '\n'] ['L', 'F', '\n']
      (Or.inr ⟨['"', 'a'], rfl⟩) (by decide)⟩

/-- C10: a newline-terminated line whose trimmed form has byte length at most 1 or begins
with the comment marker contributes nothing: after a prefix `d1` that is empty or ends
with a newline, the document with the line converts exactly as the document without it
(same bytes, same result), whatever the line holds after the marker. -/
theorem C10_skipped_records (enc : Char → Nat) (d1 line d2 : Str)
    (ht : d1 = [] ∨ ∃ q, d1 = q ++ ['\n']) (hl : '\n' ∉ line)
    (h : len (TrimSpace line) ≤ 1 ∨ HasPrefix (TrimSpace line) commentMarker = true) :
    Convert enc (d1 ++ (line ++ '\n' :: d2)) = Convert enc (d1 ++ d2) ∧
    Convert enc (line ++ ['\n']) = ([], none) := by
  have h1 : Convert enc (line ++ ['\n']) = ([], none) := Convert_skip_line enc line hl h
  have h2 : Convert enc (line ++ '\n' :: d2) = Convert enc d2 := by
    have := Convert_append enc (line ++ ['\n']) d2 (Or.inr ⟨line, rfl⟩) (by rw [h1])
    rw [h1] at this
    simpa using this
  refine ⟨?_, h1⟩
  rcases he : (Convert enc d1).2 with _ | e
  · rw [Convert_append enc d1 _ ht he, Convert_append enc d1 _ ht he, h2]
  · rw [Convert_append_error enc d1 _ ht e he, Convert_append_error enc d1 _ ht e he]

/-- C10, worked instance: a comment line that holds an invalid token and an open quote,
between two instruction lines. -/
theorem C10_skipped_records_witness :
    ((['E', 'S', 'C', ' ', '1', '\n'] : Str) = [] ∨
      ∃ q, (['E', 'S', 'C', ' ', '1', '\n'] : Str) = q ++ ['\n']) ∧
    '\n' ∉ [' ', Char.ofNat 39, '/', '/', ' ', '9', '9', '9', ' ', '"'] ∧
    (len (TrimSpace [' ', Char.ofNat 39, '/', '/', ' ', '9', '9', '9', ' ', '"']) ≤ 1 ∨
      HasPrefix (TrimSpace [' ', Char.ofNat 39, '/', '/', ' ', '9', '9', '9', ' ', '"'])
        commentMarker = true) ∧
    Convert sampleEnc (['E', 'S', 'C', ' ', '1', '\n'] ++
        ([' ', Char.ofNat 39, '/', '/', ' ', '9', '9', '9', ' ', '"'] ++ '\n' :: ['L', 'F', '\n'])) =
      Convert sampleEnc (['E', 'S', 'C', ' ', '1', '\n'] ++ ['L', 'F', '\n']) ∧
    Convert sampleEnc ([' ', Char.ofNat 39, '/', '/', ' ', '9', '9', '9', ' ', '"'] ++ ['\n']) =
      ([], none) :=
  ⟨Or.inr ⟨['E', 'S', 'C', ' ', '1'], rfl⟩, by decide, by decide,
    C10_skipped_records sampleEnc _ _ _ (Or.inr ⟨['E', 'S', 'C', ' ', '1'], rfl⟩)
      (by decide) (by decide)⟩

/-- C11: the text `Print` writes holds no tab; every newline in it other than the last
character is immediately preceded by ` LF`; the text is the lines joined with ` LF` and a
newline, each line being the indentation and its pieces, quoted when not empty, joined
with ` HT `, and a final newline; the pieces are the segments of the text between its
tabs and newlines, so they hold neither a tab nor a newline. -/
theorem C11_print_shape (t : Str) :
    '\t' ∉ Print t ∧
    (∀ a b, Print t = a ++ '\n' :: b → b ≠ [] → ∃ a2, a = a2 ++ [' ', 'L', 'F']) ∧
    Print t =
      joinStr [' ', 'L', 'F', '\n'] ((Split t '\n').map (fun l =>
        [' ', ' ', ' ', ' '] ++ joinStr [' ', 'H', 'T', ' '] ((Split l '\t').map quoted))) ++
        ['\n'] ∧
    (∀ l ∈ Split t '\n', ∀ s ∈ Split l '\t', '\t' ∉ s ∧ '\n' ∉ s) ∧
    joinWith '\n' ((Split t '\n').map (fun l => joinWith '\t' (Split l '\t'))) = t := by
  have hpieces : ∀ l ∈ Split t '\n', ∀ s ∈ Split l '\t', '\t' ∉ s ∧ '\n' ∉ s := by
    intro l hl s hs
    exact ⟨Split_mem_no_sep l '\t' s hs,
      fun hc => Split_mem_no_sep t '\n' l hl (Split_mem_subset l '\t' s hs _ hc)⟩
  cases hsplit : Split t '\n' with
  | nil => exact absurd hsplit (Split_ne_nil _ _)
  | cons l ls =>
    rw [hsplit] at hpieces
    have hdoc := Print_doc t l ls hsplit
    refine ⟨?_, ?_, ?_, hpieces, ?_⟩
    · rw [hdoc]
      intro hc
      rcases docOf_chars l ls _ hc with h1 | ⟨x, hx, hcx⟩
      · revert h1; decide
      · rcases lineText_chars x _ hcx with h2 | ⟨s, hs, hcs⟩
        · revert h2; decide
        · exact (hpieces x hx s hs).1 hcs
    · intro a b hab hb
      rw [hdoc] at hab
      refine docOf_newlines l ls ?_ a b hab hb
      intro x hx
      apply lineText_no_nl
      rw [← hsplit] at hx
      exact Split_mem_no_sep t '\n' x hx
    · rw [hdoc, docOf_joinStr]
      congr 2
      apply List.map_congr_left
      intro x _
      rw [lineText, printTabs_joinStr]
    · have h1 : List.map (fun l => joinWith '\t' (Split l '\t')) (l :: ls) = l :: ls := by
        rw [List.map_congr_left (fun x _ => joinWith_Split x '\t')]
        simp
      rw [h1, ← hsplit, joinWith_Split]

/-- C11, worked instance: for the text `A<tab>B<newline>C` the text written is
`    "A" HT "B" LF`, a newline, `    "C"` and a newline; the newline after `LF` is
preceded by ` LF`. -/
theorem C11_print_shape_witness :
    Print ['A', '\t', 'B', '\n', 'C'] =
      "    \"A\" HT \"B\" LF".toList ++ '\n' :: "    \"C\"\n".toList ∧
    ∃ a2, "    \"A\" HT \"B\" LF".toList = a2 ++ [' ', 'L', 'F'] :=
  ⟨rfl, (C11_print_shape ['A', '\t', 'B', '\n', 'C']).2.1 "    \"A\" HT \"B\" LF".toList
    "    \"C\"\n".toList rfl (by decide)⟩

/-- C12: for a count `n` of at most 255, `Convert` on the text `Cut(n, full)` writes
succeeds and yields GS, the transliteration of `V`, then the byte 0 (full) or 1 (not
full) when `n = 0`, and the bytes 65, `n` (full) or 66, `n` (not full) when `n > 0`. -/
theorem C12_cut (enc : Char → Nat) (n : Nat) (full : Bool) (hn : n ≤ 255) :
    Convert enc (Cut n full) =
      ([0x1D] ++ StringToAsciiBytes enc ['V'] ++
        (if n = 0 then (if full = true then [0] else [1])
         else (if full = true then [65, n] else [66, n])), none) :=
  Convert_Cut enc n full hn

/-- C12, worked instance: `Cut(5, true)` and `Cut(0, false)`. -/
theorem C12_cut_witness :
    5 ≤ 255 ∧
    Convert sampleEnc (Cut 5 true) = ([0x1D, sampleEnc 'V', 65, 5], none) ∧
    Convert sampleEnc (Cut 0 false) = ([0x1D, sampleEnc 'V', 1], none) :=
  ⟨by decide, C12_cut sampleEnc 5 true (by decide), by decide⟩

/-- C13: `CharacterSize(width, height)` writes the same text as
`CharacterSize(min(width,7), min(height,7))`; the comment shows `min(width,7)+1` and
`min(height,7)+1` and the code the digits of `min(width,7)` and `min(height,7)`; in
particular `CharacterSize(9,9)` writes the same text as `CharacterSize(7,7)`. -/
theorem C13_character_size_clamping (width height : Nat) :
    CharacterSize width height = CharacterSize (min width 7) (min height 7) ∧
    CharacterSize width height =
      ("'// Character magnification Wx".toList ++ decimalNumeral (min width 7 + 1) ++
        " Hx".toList ++ decimalNumeral (min height 7 + 1) ++ ['\n']) ++
      ("    GS \"!\" 0x".toList ++ decimalNumeral (min width 7) ++
        decimalNumeral (min height 7) ++ ['\n']) ∧
    CharacterSize 9 9 = CharacterSize 7 7 := by
  have hw : (if width > 7 then 7 else width) = min width 7 := by
    by_cases h : width > 7
    · rw [if_pos h]; omega
    · rw [if_neg h]; omega
  have hh : (if height > 7 then 7 else height) = min height 7 := by
    by_cases h : height > 7
    · rw [if_pos h]; omega
    · rw [if_neg h]; omega
  have hw2 : (if min width 7 > 7 then 7 else min width 7) = min width 7 := by
    rw [if_neg (by omega)]
  have hh2 : (if min height 7 > 7 then 7 else min height 7) = min height 7 := by
    rw [if_neg (by omega)]
  have hw1 : (min width 7 + 1) % 256 = min width 7 + 1 := by omega
  have hh1 : (min height 7 + 1) % 256 = min height 7 + 1 := by omega
  refine ⟨?_, ?_, rfl⟩
  · simp only [CharacterSize, hw, hh, hw2, hh2]
  · simp only [CharacterSize, hw, hh, hw1, hh1]

/-- C14: for a mode that equals `left`, `center`, `centered` or `right` once its letters
`A-Z` are lowered, `Convert` on the text `Justification(mode)` writes succeeds and
yields ESC, the transliteration of `a`, and the byte 0, 1, 1 or 2 respectively. -/
theorem C14_justification_known (enc : Char → Nat) (mode w : Str) (k : Nat)
    (hk : (w, k) ∈ [("left".toList, 0), ("center".toList, 1), ("centered".toList, 1),
      ("right".toList, 2)])
    (h : mode.map Char.toLower = w) :
    Convert enc (Justification mode) =
      ([0x1B] ++ StringToAsciiBytes enc ['a'] ++ [k], none) := by
  apply Convert_Justification_known enc mode w k hk
  apply ToLower_eq mode w h
  have hall : ∀ wk ∈ [("left".toList, 0), ("center".toList, 1), ("centered".toList, 1),
      ("right".toList, 2)], ∀ c ∈ wk.1, 97 ≤ c.toNat ∧ c.toNat ≤ 122 := by decide
  exact hall (w, k) hk

/-- C14, worked instance: the mode `CeNtEr`. -/
theorem C14_justification_known_witness :
    ("center".toList, 1) ∈ [("left".toList, 0), ("center".toList, 1), ("centered".toList, 1),
      ("right".toList, 2)] ∧
    "CeNtEr".toList.map Char.toLower = "center".toList ∧
    Convert sampleEnc (Justification "CeNtEr".toList) =
      ([0x1B] ++ StringToAsciiBytes sampleEnc ['a'] ++ [1], none) :=
  ⟨by decide, by decide,
    C14_justification_known sampleEnc "CeNtEr".toList "center".toList 1 (by decide)
      (by decide)⟩

/-- C15, the code at the failing input: the mode `x<newline>ESC` is none of the four
words; `Justification` writes the comment up to `x`, a newline, and then the line `ESC`,
on which `Convert` writes the byte 0x1B. -/
theorem C15_unknown_justification_code (enc : Char → Nat) :
    ['x', '\n', 'E', 'S', 'C'].map Char.toLower ∉
      ["left".toList, "center".toList, "centered".toList, "right".toList] ∧
    Justification ['x', '\n', 'E', 'S', 'C'] =
      "'// ERROR: unknown justification: x".toList ++ '\n' :: ['E', 'S', 'C', '\n'] ∧
    Convert enc (Justification ['x', '\n', 'E', 'S', 'C']) = ([0x1B], none) :=
  ⟨by decide, rfl, rfl⟩

/-- C16, the code at the failing input: a part that is exactly one double quote sets
the quote state to Inside whatever it was, writing nothing, so it never closes an open
span; on the line `"abc " LF` the part `LF` after the lone quote is written as the text
`LF` and a space, not as the byte 0x0A. -/
theorem C16_lone_quote_code (enc : Char → Nat) (out : List Nat) :
    convertPart enc ⟨false, out⟩ quote = (⟨true, out⟩, none) ∧
    convertPart enc ⟨true, out⟩ quote = (⟨true, out⟩, none) ∧
    Convert enc ['"', 'a', 'b', 'c', ' ', '"', ' ', 'L', 'F', '\n'] =
      (StringToAsciiBytes enc ['a', 'b', 'c'] ++ StringToAsciiBytes enc ['L', 'F'] ++ [0x20],
        none) :=
  ⟨rfl, rfl, rfl⟩

/-- C17: a part that is not empty, holds no space and does not end with a double quote,
met while a quote span is open, makes `Convert` write the transliteration of the part
followed by one space byte and keeps the span open, also when the part is a mnemonic of
the table or a numeral. -/
theorem C17_open_quote_priority (enc : Char → Nat) (out : List Nat) (p : Str)
    (hne : p ≠ []) (hsp : ' ' ∉ p) (hs : HasSuffix p quote = false) :
    convertPart enc ⟨true, out⟩ p =
      (⟨true, out ++ StringToAsciiBytes enc p ++ [0x20]⟩, none) := by
  have h1 : p ≠ quote := by
    intro e
    rw [e] at hs
    revert hs
    decide
  have h3 : p ≠ [' '] := by
    intro e
    rw [e] at hsp
    simp at hsp
  rw [convertPart_main enc _ p h1 hne h3, if_pos ⟨rfl, hs⟩]

/-- C17, worked instance: inside an open quote the mnemonic `LF` is written as the
bytes of `L`, `F` and a space, and the quote stays open. -/
theorem C17_open_quote_priority_witness :
    (['L', 'F'] : Str) ≠ [] ∧ ' ' ∉ ['L', 'F'] ∧ HasSuffix ['L', 'F'] quote = false ∧
    commands ['L', 'F'] = some 0x0A ∧
    convertPart sampleEnc ⟨true, [1]⟩ ['L', 'F'] =
      (⟨true, [1] ++ StringToAsciiBytes sampleEnc ['L', 'F'] ++ [0x20]⟩, none) :=
  ⟨by decide, by decide, by decide, by decide,
    C17_open_quote_priority sampleEnc [1] ['L', 'F'] (by decide) (by decide) (by decide)⟩

/-- C18: for a document `d` that is empty or ends with a newline and a tail without
newline, `Convert` on `d ++ tail` writes the bytes it writes for `d` and returns the
result it returns for `d`: the text after the last newline is never looked at. -/
theorem C18_unterminated_tail (enc : Char → Nat) (d tail : Str)
    (ht : d = [] ∨ ∃ q, d = q ++ ['\n']) (hn : '\n' ∉ tail) :
    Convert enc (d ++ tail) = Convert enc d := by
  unfold Convert ConvertFrom
  rw [readRecords_append d tail ht, readRecords_no_nl [] tail hn, List.append_nil]

/-- C18, worked instance: after the line `ESC`, the unterminated tail `999 "` (an
invalid number and an open quote) yields no byte and no error. -/
theorem C18_unterminated_tail_witness :
    ((['E', 'S', 'C', '\n'] : Str) = [] ∨ ∃ q, (['E', 'S', 'C', '\n'] : Str) = q ++ ['\n']) ∧
    '\n' ∉ ['9', '9', '9', ' ', '"'] ∧
    Convert sampleEnc (['E', 'S', 'C', '\n'] ++ ['9', '9', '9', ' ', '"']) =
      Convert sampleEnc ['E', 'S', 'C', '\n'] ∧
    Convert sampleEnc ['E', 'S', 'C', '\n'] = ([0x1B], none) :=
  ⟨Or.inr ⟨['E', 'S', 'C'], rfl⟩, by decide,
    C18_unterminated_tail sampleEnc ['E', 'S', 'C', '\n'] ['9', '9', '9', ' ', '"']
      (Or.inr ⟨['E', 'S', 'C'], rfl⟩) (by decide), by decide⟩

/-- C19, counterexample: the single call `Cut(256, true)` has a well-typed argument,
and `Convert` returns an error on the text it writes, whatever the character map. -/
theorem C19_counterexample :
    (∀ op ∈ [Op.cut 256 true], op.wellTyped) ∧
    ¬ ∃ enc : Char → Nat, (Convert enc (runOps [] [Op.cut 256 true])).2 = none := by
  refine ⟨by decide, ?_⟩
  rintro ⟨enc, h⟩
  have h2 : Convert enc (runOps [] [Op.cut 256 true]) =
      ([0x1D, enc 'V', 65], some (.parseNumber ['2', '5', '6'] .errRange)) := rfl
  rw [h2] at h
  simp at h

/-- C19, amended: for every finite sequence of builder calls with arguments of their
declared types in which every `Cut` count is at most 255, every `Justification` mode
holds no newline and every `Print` text holds no double quote, `Convert` on the text the
builder wrote returns no error. -/
theorem C19_builder_output_convertible (enc : Char → Nat) (ops : List Op)
    (h : ∀ op ∈ ops, op.wellTyped ∧ op.convertible) :
    (Convert enc (runOps [] ops)).2 = none :=
  Convert_runOps_safe enc ops h [] (Or.inl rfl) rfl

/-- C19, worked instance: a sequence with an unknown justification mode, a text with
spaces, a tab and a newline, and a feed-and-cut. -/
theorem C19_builder_output_convertible_witness :
    (∀ op ∈ [Op.initializePrinter, Op.characterFont 1, Op.justification ['u', 'p'],
        Op.characterSize 9 2, Op.print ['h', 'i', ' ', 'y', 'o', 'u', '\t', '!', '\n'],
        Op.printFeed 255, Op.cut 3 true], op.wellTyped ∧ op.convertible) ∧
    (Convert sampleEnc (runOps [] [Op.initializePrinter, Op.characterFont 1,
        Op.justification ['u', 'p'], Op.characterSize 9 2,
        Op.print ['h', 'i', ' ', 'y', 'o', 'u', '\t', '!', '\n'],
        Op.printFeed 255, Op.cut 3 true])).2 = none :=
  ⟨by decide, C19_builder_output_convertible sampleEnc _ (by decide)⟩

/-- C20: `Convert` on the text `CharacterSize(width, height)` writes succeeds and
yields GS, the transliteration of `!`, and one byte equal to
`16 * min(width,7) + min(height,7)`. -/
theorem C20_character_size_byte (enc : Char → Nat) (width height : Nat) :
    Convert enc (CharacterSize width height) =
      ([0x1D] ++ StringToAsciiBytes enc ['!'] ++ [16 * min width 7 + min height 7], none) :=
  Convert_CharacterSize enc width height

end Escpos
